import Mathlib

/-!
Verification of the `strength_reduce` crate (shallow embedding).

The crate replaces runtime unsigned division and modulo by a precomputed
"reduced divisor": a multiplier and shift such that `n / d` becomes a
multiply-high and `n % d` a multiply-high plus subtraction (or a pure
fractional multiply for some widths).  The sources embedded here are
`src/lib.rs` (the per-width `StrengthReducedUN` types), `src/long_division.rs`
(the multi-precision division engine used to derive the 64-bit and 128-bit
multipliers) and `src/long_multiplication.rs` (the chunked multiply used by
the 128-bit divide path and by the division engine).

Modelling conventions:
* Machine integers (`u8` … `u128`) are `Nat`; every Rust operation whose
  result can exceed the machine width in release mode (multiplication,
  addition, left shift, `wrapping_mul`, `wrapping_add`, integer casts)
  carries an explicit `% 2^w`.  Subtractions in the sources are only ever
  executed when they cannot underflow (this is proved below where it
  matters), so they are modelled with `Nat` subtraction; the one borrow
  that Rust tracks through a signed accumulator (`sub_assign`) is modelled
  with `Int` exactly as written.
* `a << k | b` in the sources is translated literally as `a <<< k ||| b`.
* Rust `assert!` failures are modelled by `Option`: `new` returns `none`
  exactly when the assertion `divisor > 0` fails; the assertion-free body
  of each constructor is the total function `make`.
* Slices of `u64` digits are little-endian `List Nat`.
* The `while` correction loops of the long-division engine decrement a
  quotient guess; they are modelled by structural recursion on the guess,
  which agrees with the source whenever the guess does not underflow
  (underflow is impossible on every reachable path, as proved below).
-/

/-- `u16::MAX` as a natural number. -/
def U16_MAX : Nat := 2 ^ 16 - 1

/-- `u32::MAX` as a natural number (constant `U32_MAX` in `long_division.rs`). -/
def U32_MAX : Nat := 2 ^ 32 - 1

/-- `u64::MAX` as a natural number (constant `U64_MAX` in `long_division.rs`). -/
def U64_MAX : Nat := 2 ^ 64 - 1

/-- Fuel-based model of `uN::is_power_of_two` (`count_ones() == 1`); fuel `N`
is enough for every value below `2^N`. -/
def is_power_of_two_fuel : Nat → Nat → Bool
  | 0, _ => false
  | fuel + 1, n =>
    if n = 1 then true
    else if n % 2 = 0 then is_power_of_two_fuel fuel (n / 2)
    else false

/-- Fuel-based model of `uN::trailing_zeros`; with fuel `N` it agrees with the
Rust intrinsic on every value below `2^N` (returning `N` at `0`). -/
def trailing_zeros_fuel : Nat → Nat → Nat
  | 0, _ => 0
  | fuel + 1, n =>
    if n % 2 = 1 then 0 else trailing_zeros_fuel fuel (n / 2) + 1

/-- Fuel-based bit length; `leading_zeros` of a width-`N` value `n` is
`N - bit_length_fuel N n`, see `leading_zeros_fuel`. -/
def bit_length_fuel : Nat → Nat → Nat
  | 0, _ => 0
  | fuel + 1, n =>
    if n = 0 then 0 else bit_length_fuel fuel (n / 2) + 1

/-- Model of `uN::leading_zeros` for width `w` (agreeing with Rust on values
below `2^w`, including `leading_zeros(0) = w`). -/
def leading_zeros_fuel (w n : Nat) : Nat := w - bit_length_fuel w n

/-- `struct StrengthReducedU8 { multiplier: u16, divisor: u8 }` from `lib.rs`. -/
structure StrengthReducedU8 where
  multiplier : Nat
  divisor : Nat
deriving DecidableEq

/-- Assertion-free body of `StrengthReducedU8::new` (everything after
`assert!(divisor > 0)`): power-of-two divisors get the zero-multiplier
sentinel, otherwise the multiplier is `core::u16::MAX / divisor + 1`. -/
def StrengthReducedU8.make (divisor : Nat) : StrengthReducedU8 :=
  if is_power_of_two_fuel 8 divisor then
    { multiplier := 0, divisor := divisor }
  else
    { multiplier := U16_MAX / divisor + 1, divisor := divisor }

/-- `StrengthReducedU8::new`; `none` models the `assert!(divisor > 0)` panic. -/
def StrengthReducedU8.new (divisor : Nat) : Option StrengthReducedU8 :=
  if 0 < divisor then some (StrengthReducedU8.make divisor) else none

/-- `impl Div<StrengthReducedU8> for u8` from `lib.rs`. -/
def StrengthReducedU8.div (numerator : Nat) (rhs : StrengthReducedU8) : Nat :=
  if rhs.multiplier = 0 then
    (numerator >>> trailing_zeros_fuel 8 rhs.divisor) % 2 ^ 8
  else
    let multiplied_hi := (numerator * (rhs.multiplier >>> 8)) % 2 ^ 16
    let multiplied_lo := ((numerator * (rhs.multiplier % 2 ^ 8)) % 2 ^ 16) >>> 8
    ((multiplied_hi + multiplied_lo) % 2 ^ 16) >>> 8 % 2 ^ 8

/-- `impl Rem<StrengthReducedU8> for u8` from `lib.rs`: the non-power-of-two
path multiplies the wrapped product `multiplier.wrapping_mul(numerator)` by
the divisor in `u32` and keeps the top half. -/
def StrengthReducedU8.rem (numerator : Nat) (rhs : StrengthReducedU8) : Nat :=
  if rhs.multiplier = 0 then
    numerator &&& (rhs.divisor - 1)
  else
    let product := (rhs.multiplier * numerator) % 2 ^ 16
    let shifted := ((product * rhs.divisor) % 2 ^ 32) >>> 16
    shifted % 2 ^ 8

/-- `StrengthReducedU8::div_rem` — literally `(numerator / denom, numerator % denom)`. -/
def StrengthReducedU8.div_rem (numerator : Nat) (denom : StrengthReducedU8) : Nat × Nat :=
  (StrengthReducedU8.div numerator denom, StrengthReducedU8.rem numerator denom)

/-- `StrengthReducedU8::get`. -/
def StrengthReducedU8.get (s : StrengthReducedU8) : Nat := s.divisor

/-- `struct StrengthReducedU16 { multiplier: u32, divisor: u16 }`
(macro `strength_reduced_u16!` in `lib.rs`). -/
structure StrengthReducedU16 where
  multiplier : Nat
  divisor : Nat
deriving DecidableEq

/-- Assertion-free body of `StrengthReducedU16::new`. -/
def StrengthReducedU16.make (divisor : Nat) : StrengthReducedU16 :=
  if is_power_of_two_fuel 16 divisor then
    { multiplier := 0, divisor := divisor }
  else
    { multiplier := U32_MAX / divisor + 1, divisor := divisor }

/-- `StrengthReducedU16::new`; `none` models the `assert!(divisor > 0)` panic. -/
def StrengthReducedU16.new (divisor : Nat) : Option StrengthReducedU16 :=
  if 0 < divisor then some (StrengthReducedU16.make divisor) else none

/-- `impl Div<StrengthReducedU16> for u16` (macro `strength_reduced_u16!`). -/
def StrengthReducedU16.div (numerator : Nat) (rhs : StrengthReducedU16) : Nat :=
  if rhs.multiplier = 0 then
    numerator >>> trailing_zeros_fuel 16 rhs.divisor
  else
    let multiplied_hi := (numerator * (rhs.multiplier >>> 16)) % 2 ^ 32
    let multiplied_lo := ((numerator * (rhs.multiplier % 2 ^ 16)) % 2 ^ 32) >>> 16
    ((multiplied_hi + multiplied_lo) % 2 ^ 32) >>> 16 % 2 ^ 16

/-- `impl Rem<StrengthReducedU16> for u16`: the non-power-of-two path
recomputes the reduced quotient and subtracts. -/
def StrengthReducedU16.rem (numerator : Nat) (rhs : StrengthReducedU16) : Nat :=
  if rhs.multiplier = 0 then
    numerator &&& (rhs.divisor - 1)
  else
    let quotient := StrengthReducedU16.div numerator rhs
    numerator - quotient * rhs.divisor

/-- `StrengthReducedU16::div_rem`: quotient via the `Div` impl, remainder by
subtraction. -/
def StrengthReducedU16.div_rem (numerator : Nat) (denom : StrengthReducedU16) : Nat × Nat :=
  let quotient := StrengthReducedU16.div numerator denom
  let remainder := numerator - quotient * denom.divisor
  (quotient, remainder)

/-- `StrengthReducedU16::get`. -/
def StrengthReducedU16.get (s : StrengthReducedU16) : Nat := s.divisor

/-- `struct StrengthReducedU32 { multiplier: u64, divisor: u32 }`
(macro `strength_reduced_u32!` in `lib.rs`). -/
structure StrengthReducedU32 where
  multiplier : Nat
  divisor : Nat
deriving DecidableEq

/-- Assertion-free body of `StrengthReducedU32::new`. -/
def StrengthReducedU32.make (divisor : Nat) : StrengthReducedU32 :=
  if is_power_of_two_fuel 32 divisor then
    { multiplier := 0, divisor := divisor }
  else
    { multiplier := U64_MAX / divisor + 1, divisor := divisor }

/-- `StrengthReducedU32::new`; `none` models the `assert!(divisor > 0)` panic. -/
def StrengthReducedU32.new (divisor : Nat) : Option StrengthReducedU32 :=
  if 0 < divisor then some (StrengthReducedU32.make divisor) else none

/-- `impl Div<StrengthReducedU32> for u32` (macro `strength_reduced_u32!`). -/
def StrengthReducedU32.div (numerator : Nat) (rhs : StrengthReducedU32) : Nat :=
  if rhs.multiplier = 0 then
    numerator >>> trailing_zeros_fuel 32 rhs.divisor
  else
    let multiplied_hi := (numerator * (rhs.multiplier >>> 32)) % 2 ^ 64
    let multiplied_lo := ((numerator * (rhs.multiplier % 2 ^ 32)) % 2 ^ 64) >>> 32
    ((multiplied_hi + multiplied_lo) % 2 ^ 64) >>> 32 % 2 ^ 32

/-- `impl Rem<StrengthReducedU32> for u32`: the non-power-of-two path
multiplies the wrapped product `multiplier.wrapping_mul(numerator)` by the
divisor in `u128` and keeps the top half. -/
def StrengthReducedU32.rem (numerator : Nat) (rhs : StrengthReducedU32) : Nat :=
  if rhs.multiplier = 0 then
    numerator &&& (rhs.divisor - 1)
  else
    let product := (rhs.multiplier * numerator) % 2 ^ 64
    let shifted := ((product * rhs.divisor) % 2 ^ 128) >>> 64
    shifted % 2 ^ 32

/-- `StrengthReducedU32::div_rem` (macro `strength_reduced_u32!`): the
multiply-and-shift formula is inlined in the source, with the remainder
obtained by subtraction. -/
def StrengthReducedU32.div_rem (numerator : Nat) (denom : StrengthReducedU32) : Nat × Nat :=
  if denom.multiplier = 0 then
    (numerator >>> trailing_zeros_fuel 32 denom.divisor, numerator &&& (denom.divisor - 1))
  else
    let multiplied_hi := (numerator * (denom.multiplier >>> 32)) % 2 ^ 64
    let multiplied_lo := ((numerator * (denom.multiplier % 2 ^ 32)) % 2 ^ 64) >>> 32
    let quotient := ((multiplied_hi + multiplied_lo) % 2 ^ 64) >>> 32 % 2 ^ 32
    let remainder := numerator - quotient * denom.divisor
    (quotient, remainder)

/-- `StrengthReducedU32::get`. -/
def StrengthReducedU32.get (s : StrengthReducedU32) : Nat := s.divisor

/-- Little-endian value of a slice of `u64` digits. -/
def chunks_value (l : List Nat) : Nat :=
  l.foldr (fun c acc => c + 2 ^ 64 * acc) 0

/-- Per-digit step of the multiply-accumulate loop shared by
`long_multiplication::long_multiply` and
`long_multiplication::multiply_256_by_64_helper`: `carry += *p;
carry += a_digit * b; *p = carry as u64; carry >>= 64`.  Returns the updated
digits of the zipped prefix plus the outgoing carry. -/
def mul_add_digits (b : Nat) : List Nat → List Nat → Nat → List Nat × Nat
  | ps, [], carry => (ps, carry)
  | [], _ :: _, carry => ([], carry)
  | p :: ps, a_digit :: as2, carry =>
    let carry2 := carry + p + a_digit * b
    let rest := mul_add_digits b ps as2 (carry2 / 2 ^ 64)
    (carry2 % 2 ^ 64 :: rest.1, rest.2)

/-- The trailing `while carry != 0` carry-propagation loop of the multiply
routines.  The second component is the carry left over when the digits run
out; in Rust a non-zero leftover is the
`expect("carry overflow during multiplication!")` panic. -/
def mul_carry_prop : List Nat → Nat → List Nat × Nat
  | ps, 0 => (ps, 0)
  | [], carry => ([], carry)
  | p :: ps, carry =>
    let carry2 := carry + p
    let rest := mul_carry_prop ps (carry2 / 2 ^ 64)
    (carry2 % 2 ^ 64 :: rest.1, rest.2)

/-- `long_multiplication::long_multiply` (identical to
`multiply_256_by_64_helper`, which merely fixes the multiplicand length at 4):
`product += a * b` over little-endian `u64` digits.  The source splits
`product` at `a.len()`, runs the multiply-accumulate over the low part and
carry propagation over the high part. -/
def long_multiply (a : List Nat) (b : Nat) (product : List Nat) : List Nat :=
  if b = 0 then product
  else
    let lo := mul_add_digits b (product.take a.length) a 0
    let hi := mul_carry_prop (product.drop a.length) lo.2
    lo.1 ++ hi.1

/-- `long_multiplication::multiply_256_by_128_upperbits`: multiply the 256-bit
number `a_hi * 2^128 + a_lo` by the 128-bit `b`, one 64-bit digit of `b` at a
time (the second call writes into `product[1..]`), and return digits 4 and 5
of the 6-digit product, i.e. the top 128 bits. -/
def multiply_256_by_128_upperbits (a_hi a_lo b : Nat) : Nat :=
  let a_chunks : List Nat :=
    [a_lo % 2 ^ 64, (a_lo >>> 64) % 2 ^ 64, a_hi % 2 ^ 64, (a_hi >>> 64) % 2 ^ 64]
  let product0 : List Nat := [0, 0, 0, 0, 0, 0]
  let product1 := long_multiply a_chunks (b % 2 ^ 64) product0
  let product2 := product1.take 1 ++ long_multiply a_chunks ((b >>> 64) % 2 ^ 64) (product1.drop 1)
  ((product2.getD 5 0) <<< 64) ||| product2.getD 4 0

/-- The `while product > numerator { quotient -= 1; product -= divisor }`
correction loops of `divide_128_by_64_preshifted` and
`divide_128_by_64_preshifted_reduced`, by structural recursion on the
quotient guess.  (The `0` case is unreachable from the loop invariant
`product = quotient * divisor`, since then `product = 0 ≤ numerator`.) -/
def quotient_correction (num d : Nat) : Nat → Nat → Nat × Nat
  | 0, product => (0, product)
  | q + 1, product =>
    if product > num then quotient_correction num d q (product - d) else (q + 1, product)

/-- `long_division::divide_128_by_64_preshifted`: divide
`numerator_hi * 2^64 + numerator_lo` by a divisor normalized to
`divisor.leading_zeros() == 0`, in two 32-bit quotient halves, each obtained
from a guess by the leading 32 divisor bits followed by a correction loop. -/
def divide_128_by_64_preshifted (numerator_hi numerator_lo divisor : Nat) : Nat :=
  let numerator_mid := numerator_lo >>> 32
  let numerator_lo2 := numerator_lo % 2 ^ 32
  let divisor_full_128 := divisor
  let divisor_hi := divisor >>> 32
  let full_upper_numerator := (numerator_hi <<< 32) ||| numerator_mid
  let guess_hi := min (numerator_hi / divisor_hi) U32_MAX
  let corrected_hi := quotient_correction full_upper_numerator divisor_full_128 guess_hi (guess_hi * divisor_full_128)
  let quotient_hi := corrected_hi.1
  let remainder_hi := full_upper_numerator - corrected_hi.2
  let full_lower_numerator := (remainder_hi <<< 32) ||| numerator_lo2
  let guess_lo := min (remainder_hi % 2 ^ 64 / divisor_hi) U32_MAX
  let corrected_lo := quotient_correction full_lower_numerator divisor_full_128 guess_lo (guess_lo * divisor_full_128)
  (quotient_hi <<< 32) ||| corrected_lo.1

/-- `long_division::divide_128_max_by_64`: `(2^128 - 1) / divisor` computed
with one native division for the top digit and either two more native
divisions (divisor below `2^32`) or one normalized `divide_128_by_64_preshifted`
call for the bottom 64-bit digit. -/
def divide_128_max_by_64 (divisor : Nat) : Nat :=
  let quotient_hi := U64_MAX / divisor
  let remainder_hi := U64_MAX - quotient_hi * divisor
  let leading_zeros := leading_zeros_fuel 64 divisor
  let quotient_lo :=
    if 32 ≤ leading_zeros then
      let numerator_mid := ((remainder_hi <<< 32) % 2 ^ 64) ||| U32_MAX
      let quotient_mid := numerator_mid / divisor
      let remainder_mid := numerator_mid - quotient_mid * divisor
      let numerator_lo := ((remainder_mid <<< 32) % 2 ^ 64) ||| U32_MAX
      let quotient_lo2 := numerator_lo / divisor
      ((quotient_mid <<< 32) % 2 ^ 64) ||| quotient_lo2
    else
      let numerator_hi :=
        if 0 < leading_zeros then
          ((remainder_hi <<< leading_zeros) % 2 ^ 64) ||| (U64_MAX >>> (64 - leading_zeros))
        else remainder_hi
      let numerator_lo := (U64_MAX <<< leading_zeros) % 2 ^ 64
      divide_128_by_64_preshifted numerator_hi numerator_lo ((divisor <<< leading_zeros) % 2 ^ 64)
  (quotient_hi <<< 64) ||| quotient_lo

/-- `struct StrengthReducedU64 { multiplier: u128, divisor: u64 }`
(macro `strength_reduced_u64!` in `lib.rs`). -/
structure StrengthReducedU64 where
  multiplier : Nat
  divisor : Nat
deriving DecidableEq

/-- Assertion-free body of `StrengthReducedU64::new`: the non-power-of-two
multiplier is `long_division::divide_128_max_by_64(divisor) + 1`. -/
def StrengthReducedU64.make (divisor : Nat) : StrengthReducedU64 :=
  if is_power_of_two_fuel 64 divisor then
    { multiplier := 0, divisor := divisor }
  else
    { multiplier := divide_128_max_by_64 divisor + 1, divisor := divisor }

/-- `StrengthReducedU64::new`; `none` models the `assert!(divisor > 0)` panic. -/
def StrengthReducedU64.new (divisor : Nat) : Option StrengthReducedU64 :=
  if 0 < divisor then some (StrengthReducedU64.make divisor) else none

/-- `impl Div<StrengthReducedU64> for u64` (macro `strength_reduced_u64!`). -/
def StrengthReducedU64.div (numerator : Nat) (rhs : StrengthReducedU64) : Nat :=
  if rhs.multiplier = 0 then
    numerator >>> trailing_zeros_fuel 64 rhs.divisor
  else
    let multiplied_hi := (numerator * (rhs.multiplier >>> 64)) % 2 ^ 128
    let multiplied_lo := ((numerator * (rhs.multiplier % 2 ^ 64)) % 2 ^ 128) >>> 64
    ((multiplied_hi + multiplied_lo) % 2 ^ 128) >>> 64 % 2 ^ 64

/-- `impl Rem<StrengthReducedU64> for u64`: the non-power-of-two path
recomputes the reduced quotient and subtracts. -/
def StrengthReducedU64.rem (numerator : Nat) (rhs : StrengthReducedU64) : Nat :=
  if rhs.multiplier = 0 then
    numerator &&& (rhs.divisor - 1)
  else
    let quotient := StrengthReducedU64.div numerator rhs
    numerator - quotient * rhs.divisor

/-- `StrengthReducedU64::div_rem` (macro `strength_reduced_u64!`): the
multiply-and-shift formula is inlined in the source, with the remainder
obtained by subtraction. -/
def StrengthReducedU64.div_rem (numerator : Nat) (denom : StrengthReducedU64) : Nat × Nat :=
  if denom.multiplier = 0 then
    (numerator >>> trailing_zeros_fuel 64 denom.divisor, numerator &&& (denom.divisor - 1))
  else
    let multiplied_hi := (numerator * (denom.multiplier >>> 64)) % 2 ^ 128
    let multiplied_lo := ((numerator * (denom.multiplier % 2 ^ 64)) % 2 ^ 128) >>> 64
    let quotient := ((multiplied_hi + multiplied_lo) % 2 ^ 128) >>> 64 % 2 ^ 64
    let remainder := numerator - quotient * denom.divisor
    (quotient, remainder)

/-- `StrengthReducedU64::get`. -/
def StrengthReducedU64.get (s : StrengthReducedU64) : Nat := s.divisor

/-- `long_division::divide_128_by_64_preshifted_reduced`: same arithmetic as
`divide_128_by_64_preshifted`, but the two guess divisions by the top 32
divisor bits go through a `StrengthReducedU64` instance. -/
def divide_128_by_64_preshifted_reduced (numerator_hi numerator_lo : Nat)
    (divisor_hi : StrengthReducedU64) (divisor_full : Nat) : Nat :=
  let numerator_mid := numerator_lo >>> 32
  let numerator_lo2 := numerator_lo % 2 ^ 32
  let divisor_full_128 := divisor_full
  let full_upper_numerator := (numerator_hi <<< 32) ||| numerator_mid
  let guess_hi := min (StrengthReducedU64.div numerator_hi divisor_hi) U32_MAX
  let corrected_hi := quotient_correction full_upper_numerator divisor_full_128 guess_hi (guess_hi * divisor_full_128)
  let quotient_hi := corrected_hi.1
  let full_upper_remainder := full_upper_numerator - corrected_hi.2
  let full_lower_numerator := (full_upper_remainder <<< 32) ||| numerator_lo2
  let guess_lo := min (StrengthReducedU64.div (full_upper_remainder % 2 ^ 64) divisor_hi) U32_MAX
  let corrected_lo := quotient_correction full_lower_numerator divisor_full_128 guess_lo (guess_lo * divisor_full_128)
  (quotient_hi <<< 32) ||| corrected_lo.1

/-- One pass of `long_division::long_division`, over the digits in
most-significant-first order (the Rust loop iterates the zipped slices
`.rev()`).  Returns the quotient digits (most-significant first) and the
final remainder. -/
def long_division_msf (reduced_divisor : StrengthReducedU64) : List Nat → Nat → List Nat × Nat
  | [], remainder => ([], remainder)
  | numerator_element :: rest, remainder =>
    if 0 < remainder then
      let upper_numerator := ((remainder <<< 32) % 2 ^ 64) ||| (numerator_element >>> 32)
      let upper := StrengthReducedU64.div_rem upper_numerator reduced_divisor
      let lower_numerator := ((upper.2 <<< 32) % 2 ^ 64) ||| (numerator_element % 2 ^ 32)
      let lower := StrengthReducedU64.div_rem lower_numerator reduced_divisor
      let tail := long_division_msf reduced_divisor rest lower.2
      ((((upper.1 <<< 32) % 2 ^ 64) ||| lower.1) :: tail.1, tail.2)
    else
      let digit := StrengthReducedU64.div_rem numerator_element reduced_divisor
      let tail := long_division_msf reduced_divisor rest digit.2
      (digit.1 :: tail.1, tail.2)

/-- `long_division::long_division` on little-endian digit slices: quotient
digits are written back little-endian, the running remainder starts at 0. -/
def long_division (numerator_slice : List Nat) (reduced_divisor : StrengthReducedU64) : List Nat :=
  ((long_division_msf reduced_divisor numerator_slice.reverse 0).1).reverse

/-- `long_division::normalize_slice`: drop zero digits from the
most-significant (little-endian trailing) end. -/
def normalize_slice (input : List Nat) : List Nat :=
  (input.reverse.dropWhile (· == 0)).reverse

/-- Most-significant-first lexicographic comparison used by
`long_division::is_slice_greater` once the lengths are equal. -/
def slice_gt_msf : List Nat → List Nat → Bool
  | a :: as2, b :: bs =>
    if a < b then false
    else if a > b then true
    else slice_gt_msf as2 bs
  | _, _ => false

/-- `long_division::is_slice_greater`: longer slice wins, equal lengths
compare digit-by-digit from the most-significant end. -/
def is_slice_greater (a b : List Nat) : Bool :=
  if a.length > b.length then true
  else if b.length > a.length then false
  else slice_gt_msf a.reverse b.reverse

/-- Digit step of `long_division::sub_assign`'s first loop: `borrow += *a;
borrow -= *b; *a = borrow as u64; borrow >>= 64` with an `i128` borrow.
The cast `as u64` takes the low 64 two's-complement bits (`Int` `%`, i.e.
`Int.emod`, always non-negative) and `>>= 64` is an arithmetic shift (`Int`
`/`, i.e. `Int.ediv`, floor division for this positive modulus). -/
def sub_digits : List Nat → List Nat → Int → List Nat × Int
  | as2, [], borrow => (as2, borrow)
  | [], _ :: _, borrow => ([], borrow)
  | a :: as2, b :: bs, borrow =>
    let borrow2 : Int := borrow + (a : Int) - (b : Int)
    let rest := sub_digits as2 bs (borrow2 / 2 ^ 64)
    ((borrow2 % 2 ^ 64).toNat :: rest.1, rest.2)

/-- The trailing `while borrow != 0` loop of `long_division::sub_assign`;
a non-zero leftover borrow is the `expect("borrow underflow during
sub_assign")` panic. -/
def sub_borrow_prop : List Nat → Int → List Nat × Int
  | as2, 0 => (as2, 0)
  | [], borrow => ([], borrow)
  | a :: as2, borrow =>
    let borrow2 : Int := borrow + (a : Int)
    let rest := sub_borrow_prop as2 (borrow2 / 2 ^ 64)
    ((borrow2 % 2 ^ 64).toNat :: rest.1, rest.2)

/-- `long_division::sub_assign` (`a -= b` over little-endian digits): the
borrow runs through the first `b.len()` digits, then propagates. -/
def sub_assign (a b : List Nat) : List Nat :=
  let lo := sub_digits (a.take b.length) b 0
  let hi := sub_borrow_prop (a.drop b.length) lo.2
  lo.1 ++ hi.1

/-- The `while is_slice_greater(sub_product, …) { sub_assign(sub_product,
divisor_slice); sub_quotient -= 1; }` correction loop of
`divide_256_max_by_128`, by structural recursion on the guessed quotient
digit.  (The `0` case is unreachable: there `sub_product` has value `0`, so
the comparison is false.) -/
def slice_correction (divisor_slice window : List Nat) : Nat → List Nat → Nat × List Nat
  | 0, sub_product => (0, sub_product)
  | g + 1, sub_product =>
    if is_slice_greater sub_product window then
      slice_correction divisor_slice window g (sub_assign sub_product divisor_slice)
    else (g + 1, sub_product)

/-- `long_division::divide_256_max_by_32`: `[u64::MAX; 4]` divided by a small
divisor through `long_division`, recombined into two `u128` halves. -/
def divide_256_max_by_32 (divisor : Nat) : Nat × Nat :=
  let reduced_divisor := StrengthReducedU64.make divisor
  let numerator_chunks : List Nat := [U64_MAX, U64_MAX, U64_MAX, U64_MAX]
  let quotient_chunks := long_division numerator_chunks reduced_divisor
  let quotient_lo := quotient_chunks.getD 0 0 ||| (quotient_chunks.getD 1 0 <<< 64)
  let quotient_hi := quotient_chunks.getD 2 0 ||| (quotient_chunks.getD 3 0 <<< 64)
  (quotient_hi, quotient_lo)

/-- The main digit loop of `long_division::divide_256_max_by_128`, iterating
`quotient_idx` from `num_quotient_chunks - 1` down to `0`.  `num` is the live
prefix `numerator_chunks[..numerator_max_idx]` (the source trims
`numerator_max_idx` by the trailing-zero count each round, i.e. normalizes). -/
def div256_loop (divisor_slice : List Nat) (reduced_divisor_hi : StrengthReducedU64)
    (divisor_hi : Nat) : Nat → List Nat → List Nat → List Nat × List Nat
  | 0, num, quot => (num, quot)
  | quotient_idx + 1, num, quot =>
    let qi := quotient_idx
    let numerator_start_idx := qi + divisor_slice.length - 1
    if num.length ≤ numerator_start_idx then
      div256_loop divisor_slice reduced_divisor_hi divisor_hi qi num quot
    else
      let numerator_hi := if 1 < num.length - numerator_start_idx then num.getD (numerator_start_idx + 1) 0 else 0
      let numerator_lo := num.getD numerator_start_idx 0
      let sub_quotient0 := divide_128_by_64_preshifted_reduced numerator_hi numerator_lo reduced_divisor_hi divisor_hi
      let tmp_product := long_multiply divisor_slice sub_quotient0 [0, 0, 0]
      let sub_product0 := normalize_slice tmp_product
      let window := num.drop qi
      let corrected := slice_correction divisor_slice window sub_quotient0 sub_product0
      let quot2 := quot.set qi corrected.1
      let window2 := sub_assign window corrected.2
      let num2 := normalize_slice (num.take qi ++ window2)
      div256_loop divisor_slice reduced_divisor_hi divisor_hi qi num2 quot2

/-- `long_division::divide_256_max_by_128`: `(2^256 - 1) / divisor` as a
`(hi, lo)` pair of `u128` halves — small divisors via
`divide_256_max_by_32`, otherwise normalized schoolbook division with one or
two divisor digits and `3 + empty_divisor_chunks` quotient digits. -/
def divide_256_max_by_128 (divisor : Nat) : Nat × Nat :=
  let leading_zeros := leading_zeros_fuel 128 divisor
  if 96 ≤ leading_zeros then divide_256_max_by_32 (divisor % 2 ^ 32)
  else
    let empty_divisor_chunks := leading_zeros / 64
    let shift_amount := leading_zeros % 64
    let divisor_shifted := (divisor <<< shift_amount) % 2 ^ 128
    let divisor_chunks : List Nat := [divisor_shifted % 2 ^ 64, (divisor_shifted >>> 64) % 2 ^ 64]
    let divisor_slice := divisor_chunks.take (divisor_chunks.length - empty_divisor_chunks)
    let reduced_divisor_hi := StrengthReducedU64.make ((divisor_slice.getLast?.getD 0) >>> 32)
    let divisor_hi := divisor_slice.getLast?.getD 0
    let num0 : List Nat :=
      if 0 < shift_amount then
        [(U64_MAX <<< shift_amount) % 2 ^ 64, U64_MAX, U64_MAX, U64_MAX, U64_MAX >>> (64 - shift_amount)]
      else [U64_MAX, U64_MAX, U64_MAX, U64_MAX]
    let num_quotient_chunks := 3 + empty_divisor_chunks
    let looped := div256_loop divisor_slice reduced_divisor_hi divisor_hi num_quotient_chunks num0 [0, 0, 0, 0]
    let quotient_chunks := looped.2
    let quotient_lo := quotient_chunks.getD 0 0 ||| (quotient_chunks.getD 1 0 <<< 64)
    let quotient_hi := quotient_chunks.getD 2 0 ||| (quotient_chunks.getD 3 0 <<< 64)
    (quotient_hi, quotient_lo)

/-- `struct StrengthReducedU128 { multiplier_hi: u128, multiplier_lo: u128,
divisor: u128 }` from `lib.rs`. -/
structure StrengthReducedU128 where
  multiplier_hi : Nat
  multiplier_lo : Nat
  divisor : Nat
deriving DecidableEq

/-- Assertion-free body of `StrengthReducedU128::new`: the 256-bit quotient
pair from `divide_256_max_by_128` plus one, the `+ 1` applied with
`wrapping_add` on the low half and an explicit carry into the high half. -/
def StrengthReducedU128.make (divisor : Nat) : StrengthReducedU128 :=
  if is_power_of_two_fuel 128 divisor then
    { multiplier_hi := 0, multiplier_lo := 0, divisor := divisor }
  else
    let quotient := divide_256_max_by_128 divisor
    let multiplier_lo := (quotient.2 + 1) % 2 ^ 128
    let multiplier_hi := if multiplier_lo = 0 then quotient.1 + 1 else quotient.1
    { multiplier_hi := multiplier_hi, multiplier_lo := multiplier_lo, divisor := divisor }

/-- `StrengthReducedU128::new`; `none` models the `assert!(divisor > 0)` panic. -/
def StrengthReducedU128.new (divisor : Nat) : Option StrengthReducedU128 :=
  if 0 < divisor then some (StrengthReducedU128.make divisor) else none

/-- `impl Div<StrengthReducedU128> for u128`: dispatch on `multiplier_hi == 0`,
multiply path via `multiply_256_by_128_upperbits`. -/
def StrengthReducedU128.div (numerator : Nat) (rhs : StrengthReducedU128) : Nat :=
  if rhs.multiplier_hi = 0 then
    numerator >>> trailing_zeros_fuel 128 rhs.divisor
  else
    multiply_256_by_128_upperbits rhs.multiplier_hi rhs.multiplier_lo numerator

/-- `impl Rem<StrengthReducedU128> for u128`: quotient via
`multiply_256_by_128_upperbits`, remainder by subtraction. -/
def StrengthReducedU128.rem (numerator : Nat) (rhs : StrengthReducedU128) : Nat :=
  if rhs.multiplier_hi = 0 then
    numerator &&& (rhs.divisor - 1)
  else
    let quotient := multiply_256_by_128_upperbits rhs.multiplier_hi rhs.multiplier_lo numerator
    numerator - quotient * rhs.divisor

/-- `StrengthReducedU128::div_rem`: quotient via the `Div` impl, remainder by
subtraction. -/
def StrengthReducedU128.div_rem (numerator : Nat) (denom : StrengthReducedU128) : Nat × Nat :=
  let quotient := StrengthReducedU128.div numerator denom
  let remainder := numerator - quotient * denom.divisor
  (quotient, remainder)

/-- `StrengthReducedU128::get`. -/
def StrengthReducedU128.get (s : StrengthReducedU128) : Nat := s.divisor

/-! ### Basic facts about the bit-level helpers -/

/-- With adequate fuel, `is_power_of_two_fuel` recognizes exactly the powers
of two. -/
theorem is_power_of_two_fuel_iff : ∀ {f n : Nat}, 0 < n → n < 2 ^ f →
    (is_power_of_two_fuel f n = true ↔ ∃ k, n = 2 ^ k) := by
  intro f
  induction f with
  | zero => intro n hn hf; omega
  | succ f ih =>
    intro n hn hf
    by_cases h1 : n = 1
    · subst h1
      constructor
      · intro _
        exact ⟨0, rfl⟩
      · intro _
        rw [is_power_of_two_fuel]
        simp
    · by_cases h2 : n % 2 = 0
      · have hn2 : 0 < n / 2 := by omega
        have hf2 : n / 2 < 2 ^ f := by
          have : 2 ^ (f + 1) = 2 ^ f * 2 := by rw [Nat.pow_succ]
          omega
        have := ih hn2 hf2
        rw [is_power_of_two_fuel, if_neg h1, if_pos h2, this]
        constructor
        · rintro ⟨k, hk⟩
          refine ⟨k + 1, ?_⟩
          rw [Nat.pow_succ]
          omega
        · rintro ⟨k, hk⟩
          match k, hk with
          | 0, hk => omega
          | k + 1, hk =>
            refine ⟨k, ?_⟩
            rw [Nat.pow_succ] at hk
            omega
      · rw [is_power_of_two_fuel, if_neg h1, if_neg h2]
        simp only [Bool.false_eq_true, false_iff]
        rintro ⟨k, rfl⟩
        match k with
        | 0 => omega
        | k + 1 =>
          rw [Nat.pow_succ] at h2
          omega

/-- `trailing_zeros_fuel` of `2^k` is `k` whenever the fuel exceeds `k`. -/
theorem trailing_zeros_fuel_pow : ∀ {k f : Nat}, k < f → trailing_zeros_fuel f (2 ^ k) = k := by
  intro k
  induction k with
  | zero =>
    intro f hf
    match f, hf with
    | f + 1, _ =>
      rw [trailing_zeros_fuel]
      norm_num
  | succ k ih =>
    intro f hf
    match f, hf with
    | f + 1, hf =>
      have h2 : 2 ^ (k + 1) % 2 = 0 := by
        rw [Nat.pow_succ]
        omega
      have hdiv : 2 ^ (k + 1) / 2 = 2 ^ k := by
        rw [Nat.pow_succ]
        omega
      rw [trailing_zeros_fuel, if_neg (by omega), hdiv, ih (by omega)]

/-- `bit_length_fuel` gives genuine bit length on inputs within the fuel
range: `n < 2 ^ len`, `2 ^ len ≤ 2 * n` for positive `n`, and `len ≤ f`. -/
theorem bit_length_fuel_spec : ∀ {f n : Nat}, n < 2 ^ f →
    n < 2 ^ bit_length_fuel f n ∧ (0 < n → 2 ^ bit_length_fuel f n ≤ 2 * n) ∧
      bit_length_fuel f n ≤ f := by
  intro f
  induction f with
  | zero => intro n hf; simp [bit_length_fuel]; omega
  | succ f ih =>
    intro n hf
    by_cases h0 : n = 0
    · subst h0; simp [bit_length_fuel]
    · have hf2 : n / 2 < 2 ^ f := by
        have : 2 ^ (f + 1) = 2 ^ f * 2 := by rw [Nat.pow_succ]
        omega
      obtain ⟨ih1, ih2, ih3⟩ := ih hf2
      rw [bit_length_fuel, if_neg h0]
      have hpow : 2 ^ (bit_length_fuel f (n / 2) + 1) = 2 ^ bit_length_fuel f (n / 2) * 2 := by
        rw [Nat.pow_succ]
      refine ⟨by omega, fun _ => ?_, by omega⟩
      by_cases hn2 : 0 < n / 2
      · have := ih2 hn2
        omega
      · have hbl : bit_length_fuel f (n / 2) = 0 := by
          have : n / 2 = 0 := by omega
          match f with
          | 0 => simp [bit_length_fuel]
          | f + 1 => simp [bit_length_fuel, this]
        rw [hbl] at hpow ⊢
        omega

/-- Bitwise-or of a left shift with a small value is addition. -/
theorem shiftLeft_or_eq_add {b k : Nat} (a : Nat) (h : b < 2 ^ k) :
    a <<< k ||| b = a * 2 ^ k + b := by
  rw [Nat.shiftLeft_eq, Nat.mul_comm, ← Nat.mul_add_lt_is_or h, Nat.mul_comm]

/-- Dividing `x - 1` and `x` by `d` agree when `d` does not divide `x`. -/
theorem pred_div_eq {x d : Nat} (hd : 0 < d) (hx : x % d ≠ 0) : (x - 1) / d = x / d := by
  have h1 := Nat.div_add_mod x d
  have h2 := Nat.mod_lt x hd
  refine Nat.div_eq_of_lt_le ?_ ?_
  · rw [Nat.mul_comm]; omega
  · rw [Nat.succ_mul, Nat.mul_comm]; omega

/-- A power of two leaves a positive remainder modulo any non-power-of-two. -/
theorem pow2_mod_pos {d : Nat} (k : Nat) (_hd : 0 < d) (hnp : ¬∃ j, d = 2 ^ j) :
    0 < 2 ^ k % d := by
  rcases Nat.eq_zero_or_pos (2 ^ k % d) with h | h
  · exfalso
    have hdvd : d ∣ 2 ^ k := Nat.dvd_of_mod_eq_zero h
    obtain ⟨i, _, hi⟩ := (Nat.dvd_prime_pow Nat.prime_two).mp hdvd
    exact hnp ⟨i, hi⟩
  · exact h

/-- A positive non-power-of-two is at least 3. -/
theorem three_le_of_not_pow2 {d : Nat} (hd : 0 < d) (hnp : ¬∃ j, d = 2 ^ j) : 3 ≤ d := by
  rcases d with _ | _ | _ | d
  · omega
  · exact absurd ⟨0, rfl⟩ hnp
  · exact absurd ⟨1, rfl⟩ hnp
  · omega

/-- Schoolbook digit step for quotients:
`(a·2^k + c) / d = (a/d)·2^k + ((a%d)·2^k + c) / d`. -/
theorem digit_div (a c k : Nat) {d : Nat} (hd : 0 < d) :
    (a * 2 ^ k + c) / d = a / d * 2 ^ k + (a % d * 2 ^ k + c) / d := by
  have h1 := Nat.div_add_mod a d
  have expand : a * 2 ^ k + c = a % d * 2 ^ k + c + a / d * 2 ^ k * d := by
    have : a * 2 ^ k = (d * (a / d) + a % d) * 2 ^ k := by rw [h1]
    rw [this]; ring
  rw [expand, Nat.add_mul_div_right _ _ hd, Nat.add_comm]

/-- Schoolbook digit step for remainders. -/
theorem digit_mod (a c k : Nat) (d : Nat) :
    (a * 2 ^ k + c) % d = (a % d * 2 ^ k + c) % d := by
  have h1 := Nat.div_add_mod a d
  have expand : a * 2 ^ k + c = a % d * 2 ^ k + c + a / d * 2 ^ k * d := by
    have : a * 2 ^ k = (d * (a / d) + a % d) * 2 ^ k := by rw [h1]
    rw [this]; ring
  rw [expand, Nat.add_mul_mod_self_right]

/-- The low digit produced by `digit_div` fits in `k` bits. -/
theorem digit_div_lt (a c k : Nat) {d : Nat} (hd : 0 < d) (hc : c < 2 ^ k) :
    (a % d * 2 ^ k + c) / d < 2 ^ k := by
  have hmod : a % d < d := Nat.mod_lt a hd
  rw [Nat.div_lt_iff_lt_mul hd]
  calc a % d * 2 ^ k + c < a % d * 2 ^ k + 2 ^ k := by omega
    _ = (a % d + 1) * 2 ^ k := by ring
    _ ≤ d * 2 ^ k := by
        have : a % d + 1 ≤ d := hmod
        exact Nat.mul_le_mul_right _ this
    _ = 2 ^ k * d := by ring

/-- Closed form of the guess-correction loops: starting from the invariant
`product = g * d`, the loop returns the guess unchanged if it already fits,
and otherwise the true quotient, together with the matching product. -/
theorem quotient_correction_spec (num d : Nat) :
    ∀ g, quotient_correction num d g (g * d) =
      if g * d ≤ num then (g, g * d) else (num / d, num / d * d) := by
  intro g
  induction g with
  | zero => simp [quotient_correction]
  | succ g ih =>
    rw [quotient_correction]
    by_cases hle : (g + 1) * d ≤ num
    · rw [if_neg (show ¬((g + 1) * d > num) by omega), if_pos hle]
    · have hgt : (g + 1) * d > num := by omega
      have hrw : (g + 1) * d - d = g * d := by rw [Nat.succ_mul]; omega
      rw [if_pos hgt, hrw, ih, if_neg hle]
      by_cases h2 : g * d ≤ num
      · have heq : num / d = g := Nat.div_eq_of_lt_le h2 hgt
        rw [if_pos h2, heq]
      · rw [if_neg h2]

/-- Whenever the guess is at least the true quotient, the correction loop
lands exactly on the true quotient. -/
theorem quotient_correction_ge (num : Nat) {d : Nat} (hd : 0 < d) {g : Nat}
    (hge : num / d ≤ g) :
    quotient_correction num d g (g * d) = (num / d, num / d * d) := by
  rw [quotient_correction_spec num d g]
  by_cases h : g * d ≤ num
  · have hle : g ≤ num / d := (Nat.le_div_iff_mul_le hd).mpr h
    have : g = num / d := by omega
    rw [if_pos h, this]
  · rw [if_neg h]

/-! ### The multiply-and-shift multiplier: generic facts for every width -/

/-- The stored non-power-of-two multiplier times the divisor overshoots the
double-width power of two by `d - 2^(2W) % d`. -/
theorem multiplier_times_d (W : Nat) {d : Nat} (hd : 0 < d) (hnp : ¬∃ j, d = 2 ^ j) :
    ((2 ^ (2 * W) - 1) / d + 1) * d = 2 ^ (2 * W) + (d - 2 ^ (2 * W) % d) := by
  have hr := pow2_mod_pos (2 * W) hd hnp
  have hrd : 2 ^ (2 * W) % d < d := Nat.mod_lt _ hd
  have hpred : (2 ^ (2 * W) - 1) / d = 2 ^ (2 * W) / d := pred_div_eq hd (by omega)
  have hdm := Nat.div_add_mod (2 ^ (2 * W)) d
  rw [hpred, Nat.add_mul, Nat.one_mul, Nat.mul_comm]
  omega

/-- The central floor identity: multiplying by the stored multiplier and
shifting by the double width computes the exact quotient for every numerator
below `2^W`. -/
theorem mul_shift_floor (W : Nat) {d n m : Nat} (hd : 0 < d) (hnp : ¬∃ j, d = 2 ^ j)
    (hdW : d < 2 ^ W) (hn : n < 2 ^ W) (hm : m = (2 ^ (2 * W) - 1) / d + 1) :
    n * m / 2 ^ (2 * W) = n / d := by
  have hr1 : 0 < 2 ^ (2 * W) % d := pow2_mod_pos (2 * W) hd hnp
  have hrd : 2 ^ (2 * W) % d < d := Nat.mod_lt _ hd
  have hmd : m * d = 2 ^ (2 * W) + (d - 2 ^ (2 * W) % d) := by
    rw [hm]; exact multiplier_times_d W hd hnp
  have hPW : (2 : Nat) ^ (2 * W) = 2 ^ W * 2 ^ W := by rw [two_mul, pow_add]
  have hlow : n / d * 2 ^ (2 * W) ≤ n * m := by
    have h1 : n / d * 2 ^ (2 * W) * d ≤ n * m * d := by
      calc n / d * 2 ^ (2 * W) * d = n / d * d * 2 ^ (2 * W) := by ring
        _ ≤ n * 2 ^ (2 * W) := Nat.mul_le_mul_right _ (Nat.div_mul_le_self n d)
        _ ≤ n * 2 ^ (2 * W) + n * (d - 2 ^ (2 * W) % d) := Nat.le_add_right _ _
        _ = n * (2 ^ (2 * W) + (d - 2 ^ (2 * W) % d)) := by ring
        _ = n * (m * d) := by rw [hmd]
        _ = n * m * d := by ring
    exact Nat.le_of_mul_le_mul_right h1 hd
  have hbound : n * (d - 2 ^ (2 * W) % d) < 2 ^ (2 * W) := by
    calc n * (d - 2 ^ (2 * W) % d) ≤ n * d := Nat.mul_le_mul_left n (by omega)
      _ ≤ (2 ^ W - 1) * d := Nat.mul_le_mul_right d (by omega)
      _ < 2 ^ W * 2 ^ W := by
          have h5 : (2 ^ W - 1) * d ≤ (2 ^ W - 1) * 2 ^ W := Nat.mul_le_mul_left _ (by omega)
          have h6 : (2 ^ W - 1) * 2 ^ W = 2 ^ W * 2 ^ W - 2 ^ W := Nat.sub_one_mul _ _
          have h7 : 0 < 2 ^ W := Nat.two_pow_pos W
          have h8 : 2 ^ W ≤ 2 ^ W * 2 ^ W := Nat.le_mul_of_pos_left _ h7
          omega
      _ = 2 ^ (2 * W) := hPW.symm
  have hhigh : n * m < (n / d + 1) * 2 ^ (2 * W) := by
    have hsplit := Nat.div_add_mod n d
    have hmodlt : n % d < d := Nat.mod_lt _ hd
    have hq : n % d * 2 ^ (2 * W) ≤ d * 2 ^ (2 * W) - 2 ^ (2 * W) := by
      have h3 : n % d * 2 ^ (2 * W) ≤ (d - 1) * 2 ^ (2 * W) :=
        Nat.mul_le_mul_right _ (by omega)
      have h4 : (d - 1) * 2 ^ (2 * W) = d * 2 ^ (2 * W) - 2 ^ (2 * W) := Nat.sub_one_mul _ _
      omega
    have h2 : n * m * d < (n / d + 1) * 2 ^ (2 * W) * d := by
      have key : n * m * d = n / d * 2 ^ (2 * W) * d + (n % d * 2 ^ (2 * W) + n * (d - 2 ^ (2 * W) % d)) := by
        calc n * m * d = n * (m * d) := by ring
          _ = n * (2 ^ (2 * W) + (d - 2 ^ (2 * W) % d)) := by rw [hmd]
          _ = (d * (n / d) + n % d) * 2 ^ (2 * W) + n * (d - 2 ^ (2 * W) % d) := by
              rw [hsplit]; ring
          _ = n / d * 2 ^ (2 * W) * d + (n % d * 2 ^ (2 * W) + n * (d - 2 ^ (2 * W) % d)) := by
              ring
      have hfin : (n / d + 1) * 2 ^ (2 * W) * d = n / d * 2 ^ (2 * W) * d + 2 ^ (2 * W) * d := by
        ring
      have hdp : 2 ^ (2 * W) ≤ 2 ^ (2 * W) * d := Nat.le_mul_of_pos_right _ hd
      have hcomm : d * 2 ^ (2 * W) = 2 ^ (2 * W) * d := Nat.mul_comm _ _
      omega
    exact lt_of_mul_lt_mul_right h2 (Nat.zero_le d)
  exact Nat.div_eq_of_lt_le hlow hhigh

/-- Splitting the double-width product into the high/low halves used by the
`Div` impls computes the same floor. -/
theorem mulhi_split (W n m : Nat) :
    (n * (m / 2 ^ W) + n * (m % 2 ^ W) / 2 ^ W) / 2 ^ W = n * m / 2 ^ (2 * W) := by
  have hpos : 0 < 2 ^ W := Nat.two_pow_pos W
  have hm := Nat.div_add_mod m (2 ^ W)
  have hsplit : n * m = n * (m % 2 ^ W) + n * (m / 2 ^ W) * 2 ^ W := by
    calc n * m = n * (2 ^ W * (m / 2 ^ W) + m % 2 ^ W) := by rw [hm]
      _ = n * (m % 2 ^ W) + n * (m / 2 ^ W) * 2 ^ W := by ring
  have h1 : n * m / 2 ^ W = n * (m % 2 ^ W) / 2 ^ W + n * (m / 2 ^ W) := by
    rw [hsplit, Nat.add_mul_div_right _ _ hpos]
  have h2 : n * m / 2 ^ (2 * W) = n * m / 2 ^ W / 2 ^ W := by
    rw [Nat.div_div_eq_div_mul, ← pow_add, two_mul]
  rw [h2, h1, Nat.add_comm]

/-- Overflow-freedom of the multiply-and-shift intermediates: the multiplier
fits the double width (here `3 ≤ d` is essential) and so do both partial
products and their recombined sum. -/
theorem mulhi_bounds (W : Nat) {d n m : Nat} (hd : 0 < d) (hnp : ¬∃ j, d = 2 ^ j)
    (hdW : d < 2 ^ W) (hn : n < 2 ^ W) (hm : m = (2 ^ (2 * W) - 1) / d + 1) :
    m < 2 ^ (2 * W) ∧ n * (m / 2 ^ W) < 2 ^ (2 * W) ∧ n * (m % 2 ^ W) < 2 ^ (2 * W) ∧
      n * (m / 2 ^ W) + n * (m % 2 ^ W) / 2 ^ W < 2 ^ (2 * W) := by
  have h3d : 3 ≤ d := three_le_of_not_pow2 hd hnp
  have hWpos : 0 < 2 ^ W := Nat.two_pow_pos W
  have hP : (2 : Nat) ^ (2 * W) = 2 ^ W * 2 ^ W := by rw [two_mul, pow_add]
  have h4 : 4 ≤ 2 ^ W := by omega
  have h16 : 16 ≤ 2 ^ (2 * W) := by
    have := Nat.mul_le_mul h4 h4
    omega
  have hm1 : m < 2 ^ (2 * W) := by
    have hdiv : (2 ^ (2 * W) - 1) / d ≤ (2 ^ (2 * W) - 1) / 3 := Nat.div_le_div_left h3d (by omega)
    have hlt : (2 ^ (2 * W) - 1) / 3 < 2 ^ (2 * W) - 1 := Nat.div_lt_self (by omega) (by omega)
    omega
  have hdiv2 : m / 2 ^ W < 2 ^ W := by
    rw [Nat.div_lt_iff_lt_mul hWpos, ← hP]
    exact hm1
  have hhi : n * (m / 2 ^ W) < 2 ^ (2 * W) := by
    rw [hP]
    exact Nat.mul_lt_mul'' hn hdiv2
  have hmod : m % 2 ^ W < 2 ^ W := Nat.mod_lt _ hWpos
  have hlo : n * (m % 2 ^ W) < 2 ^ (2 * W) := by
    rw [hP]
    exact Nat.mul_lt_mul'' hn hmod
  refine ⟨hm1, hhi, hlo, ?_⟩
  have hA : n * (m / 2 ^ W) ≤ (2 ^ W - 1) * (2 ^ W - 1) :=
    Nat.mul_le_mul (by omega) (by omega)
  have hB : n * (m % 2 ^ W) / 2 ^ W < 2 ^ W := by
    rw [Nat.div_lt_iff_lt_mul hWpos, ← hP]
    exact hlo
  have f1 : (2 ^ W - 1) * (2 ^ W - 1) ≤ (2 ^ W - 1) * 2 ^ W :=
    Nat.mul_le_mul_left _ (by omega)
  have f2 : (2 ^ W - 1) * 2 ^ W = 2 ^ W * 2 ^ W - 2 ^ W := Nat.sub_one_mul _ _
  have f3 : 2 ^ W ≤ 2 ^ W * 2 ^ W := Nat.le_mul_of_pos_left _ hWpos
  omega

/-- The exact shape computed by the `Div` impls (with the release-mode
wrap-arounds in place) equals the true quotient. -/
theorem mulhi_formula (W : Nat) {d n m : Nat} (hd : 0 < d) (hnp : ¬∃ j, d = 2 ^ j)
    (hdW : d < 2 ^ W) (hn : n < 2 ^ W) (hm : m = (2 ^ (2 * W) - 1) / d + 1) :
    (n * (m / 2 ^ W) % 2 ^ (2 * W) + n * (m % 2 ^ W) % 2 ^ (2 * W) / 2 ^ W) % 2 ^ (2 * W) /
      2 ^ W = n / d := by
  obtain ⟨hm1, hhi, hlo, hsum⟩ := mulhi_bounds W hd hnp hdW hn hm
  rw [Nat.mod_eq_of_lt hhi, Nat.mod_eq_of_lt hlo, Nat.mod_eq_of_lt hsum, mulhi_split,
    mul_shift_floor W hd hnp hdW hn hm]

/-- The fractional-remainder identity used by the `u8`/`u32` `Rem` impls: the
wrapped product `m * n mod 2^(2W)` is the scaled fractional part of `n / d`,
so multiplying by `d` and shifting recovers `n % d` exactly. -/
theorem frac_rem_core (W : Nat) {d n m : Nat} (hd : 0 < d) (hnp : ¬∃ j, d = 2 ^ j)
    (hdW : d < 2 ^ W) (hn : n < 2 ^ W) (hm : m = (2 ^ (2 * W) - 1) / d + 1) :
    m * n % 2 ^ (2 * W) * d % 2 ^ (4 * W) / 2 ^ (2 * W) = n % d := by
  have hr1 : 0 < 2 ^ (2 * W) % d := pow2_mod_pos (2 * W) hd hnp
  have hrd : 2 ^ (2 * W) % d < d := Nat.mod_lt _ hd
  have hmd : m * d = 2 ^ (2 * W) + (d - 2 ^ (2 * W) % d) := by
    rw [hm]; exact multiplier_times_d W hd hnp
  have hPW : (2 : Nat) ^ (2 * W) = 2 ^ W * 2 ^ W := by rw [two_mul, pow_add]
  have hPpos : 0 < 2 ^ (2 * W) := Nat.two_pow_pos _
  have hsplit := Nat.div_add_mod n d
  have hmodlt : n % d < d := Nat.mod_lt _ hd
  have hbound : n * (d - 2 ^ (2 * W) % d) < 2 ^ (2 * W) := by
    calc n * (d - 2 ^ (2 * W) % d) ≤ n * d := Nat.mul_le_mul_left n (by omega)
      _ ≤ (2 ^ W - 1) * d := Nat.mul_le_mul_right d (by omega)
      _ < 2 ^ W * 2 ^ W := by
          have h5 : (2 ^ W - 1) * d ≤ (2 ^ W - 1) * 2 ^ W := Nat.mul_le_mul_left _ (by omega)
          have h6 : (2 ^ W - 1) * 2 ^ W = 2 ^ W * 2 ^ W - 2 ^ W := Nat.sub_one_mul _ _
          have h7 : 0 < 2 ^ W := Nat.two_pow_pos W
          have h8 : 2 ^ W ≤ 2 ^ W * 2 ^ W := Nat.le_mul_of_pos_left _ h7
          omega
      _ = 2 ^ (2 * W) := hPW.symm
  -- `S` is the scaled fractional part times `d`.
  have hS : n % d * 2 ^ (2 * W) + n * (d - 2 ^ (2 * W) % d) < d * 2 ^ (2 * W) := by
    have h3 : n % d * 2 ^ (2 * W) ≤ (d - 1) * 2 ^ (2 * W) :=
      Nat.mul_le_mul_right _ (by omega)
    have h4 : (d - 1) * 2 ^ (2 * W) = d * 2 ^ (2 * W) - 2 ^ (2 * W) := Nat.sub_one_mul _ _
    have h5 : 2 ^ (2 * W) ≤ d * 2 ^ (2 * W) := Nat.le_mul_of_pos_left _ hd
    omega
  have key : n * m * d = n / d * 2 ^ (2 * W) * d + (n % d * 2 ^ (2 * W) + n * (d - 2 ^ (2 * W) % d)) := by
    calc n * m * d = n * (m * d) := by ring
      _ = n * (2 ^ (2 * W) + (d - 2 ^ (2 * W) % d)) := by rw [hmd]
      _ = (d * (n / d) + n % d) * 2 ^ (2 * W) + n * (d - 2 ^ (2 * W) % d) := by
          rw [hsplit]; ring
      _ = n / d * 2 ^ (2 * W) * d + (n % d * 2 ^ (2 * W) + n * (d - 2 ^ (2 * W) % d)) := by
          ring
  have hge : n / d * 2 ^ (2 * W) * d ≤ n * m * d := by omega
  have hge2 : n / d * 2 ^ (2 * W) ≤ n * m := Nat.le_of_mul_le_mul_right hge hd
  have ht : (n * m - n / d * 2 ^ (2 * W)) * d = n % d * 2 ^ (2 * W) + n * (d - 2 ^ (2 * W) % d) := by
    have expand : (n * m - n / d * 2 ^ (2 * W)) * d = n * m * d - n / d * 2 ^ (2 * W) * d :=
      Nat.sub_mul _ _ _
    omega
  have htlt : n * m - n / d * 2 ^ (2 * W) < 2 ^ (2 * W) := by
    have h1 : (n * m - n / d * 2 ^ (2 * W)) * d < d * 2 ^ (2 * W) := by omega
    have h2 : d * 2 ^ (2 * W) = 2 ^ (2 * W) * d := Nat.mul_comm _ _
    by_contra hcon
    push_neg at hcon
    have h9 : 2 ^ (2 * W) * d ≤ (n * m - n / d * 2 ^ (2 * W)) * d := Nat.mul_le_mul_right d hcon
    omega
  have hmodP : n * m % 2 ^ (2 * W) = n * m - n / d * 2 ^ (2 * W) := by
    have hval : n * m = (n * m - n / d * 2 ^ (2 * W)) + n / d * 2 ^ (2 * W) := by omega
    rw [hval, Nat.add_mul_mod_self_right _ _ _, Nat.mod_eq_of_lt htlt]
    omega
  have hcomm : m * n = n * m := Nat.mul_comm m n
  rw [hcomm, hmodP, ht]
  have hsmall : n % d * 2 ^ (2 * W) + n * (d - 2 ^ (2 * W) % d) < 2 ^ (4 * W) := by
    have hd2W : d * 2 ^ (2 * W) ≤ 2 ^ W * 2 ^ (2 * W) := Nat.mul_le_mul_right _ (by omega)
    have hWle : (2 : Nat) ^ W * 2 ^ (2 * W) ≤ 2 ^ (4 * W) := by
      rw [← pow_add]
      exact Nat.pow_le_pow_right (by omega) (by omega)
    omega
  rw [Nat.mod_eq_of_lt hsmall]
  have hfin : (n % d * 2 ^ (2 * W) + n * (d - 2 ^ (2 * W) % d)) / 2 ^ (2 * W) = n % d := by
    rw [Nat.add_comm, Nat.add_mul_div_right _ _ hPpos, Nat.div_eq_of_lt hbound, Nat.zero_add]
  exact hfin

/-! ### Correctness of the small widths (8, 16, 32) -/

/-- `make` keeps the divisor (width 8). -/
theorem SRU8_make_divisor (d : Nat) : (StrengthReducedU8.make d).divisor = d := by
  rw [StrengthReducedU8.make]
  split <;> rfl

/-- The multiplier stored for width 8: zero exactly on powers of two,
otherwise `u16::MAX / d + 1`. -/
theorem SRU8_multiplier_spec {d : Nat} (hd : 0 < d) (hdw : d < 2 ^ 8) :
    ((∃ k, d = 2 ^ k) → (StrengthReducedU8.make d).multiplier = 0) ∧
      (¬(∃ k, d = 2 ^ k) → (StrengthReducedU8.make d).multiplier = (2 ^ 16 - 1) / d + 1) := by
  constructor
  · intro hex
    rw [StrengthReducedU8.make, if_pos ((is_power_of_two_fuel_iff hd hdw).mpr hex)]
  · intro hnp
    rw [StrengthReducedU8.make, if_neg (fun hp => hnp ((is_power_of_two_fuel_iff hd hdw).mp hp))]
    simp [U16_MAX]

/-- Width-8 reduced division is exact. -/
theorem SRU8_div_make {d n : Nat} (hd : 0 < d) (hdw : d < 2 ^ 8) (hn : n < 2 ^ 8) :
    StrengthReducedU8.div n (StrengthReducedU8.make d) = n / d := by
  rw [StrengthReducedU8.make]
  by_cases hp : is_power_of_two_fuel 8 d
  · obtain ⟨k, hk_eq⟩ := (is_power_of_two_fuel_iff hd hdw).mp hp
    subst hk_eq
    have hk : k < 8 := (Nat.pow_lt_pow_iff_right (by norm_num)).mp hdw
    rw [if_pos hp, StrengthReducedU8.div]
    simp only [if_pos rfl]
    rw [trailing_zeros_fuel_pow hk, Nat.shiftRight_eq_div_pow]
    exact Nat.mod_eq_of_lt (lt_of_le_of_lt (Nat.div_le_self _ _) hn)
  · have hnp : ¬∃ j, d = 2 ^ j := fun hex => hp ((is_power_of_two_fuel_iff hd hdw).mpr hex)
    rw [if_neg hp, StrengthReducedU8.div]
    simp only
    rw [if_neg (by simp [U16_MAX])]
    have hm16 : U16_MAX / d + 1 = (2 ^ (2 * 8) - 1) / d + 1 := by norm_num [U16_MAX]
    rw [hm16, show (2 : Nat) ^ 16 = 2 ^ (2 * 8) from by norm_num]
    simp only [Nat.shiftRight_eq_div_pow]
    rw [mulhi_formula 8 hd hnp hdw hn rfl]
    exact Nat.mod_eq_of_lt (lt_of_le_of_lt (Nat.div_le_self _ _) hn)

/-- Width-8 reduced modulo is exact. -/
theorem SRU8_rem_make {d n : Nat} (hd : 0 < d) (hdw : d < 2 ^ 8) (hn : n < 2 ^ 8) :
    StrengthReducedU8.rem n (StrengthReducedU8.make d) = n % d := by
  rw [StrengthReducedU8.make]
  by_cases hp : is_power_of_two_fuel 8 d
  · obtain ⟨k, hk_eq⟩ := (is_power_of_two_fuel_iff hd hdw).mp hp
    subst hk_eq
    rw [if_pos hp, StrengthReducedU8.rem]
    simp only [if_pos rfl]
    exact Nat.and_pow_two_sub_one_eq_mod n k
  · have hnp : ¬∃ j, d = 2 ^ j := fun hex => hp ((is_power_of_two_fuel_iff hd hdw).mpr hex)
    rw [if_neg hp, StrengthReducedU8.rem]
    simp only
    rw [if_neg (by simp [U16_MAX])]
    have hm16 : U16_MAX / d + 1 = (2 ^ (2 * 8) - 1) / d + 1 := by norm_num [U16_MAX]
    rw [hm16, show (2 : Nat) ^ 16 = 2 ^ (2 * 8) from by norm_num,
      show (2 : Nat) ^ 32 = 2 ^ (4 * 8) from by norm_num]
    simp only [Nat.shiftRight_eq_div_pow]
    rw [show (2 : Nat) ^ 16 = 2 ^ (2 * 8) from by norm_num,
      frac_rem_core 8 hd hnp hdw hn rfl]
    exact Nat.mod_eq_of_lt (lt_of_le_of_lt (Nat.le_of_lt_succ (Nat.lt_succ_of_lt (Nat.mod_lt n hd))) (by omega))

/-- `div_rem` for width 8 is the pair of the division and modulo results. -/
theorem SRU8_div_rem_make {d n : Nat} (hd : 0 < d) (hdw : d < 2 ^ 8) (hn : n < 2 ^ 8) :
    StrengthReducedU8.div_rem n (StrengthReducedU8.make d) = (n / d, n % d) := by
  rw [StrengthReducedU8.div_rem, SRU8_div_make hd hdw hn, SRU8_rem_make hd hdw hn]

/-- `make` keeps the divisor (width 16). -/
theorem SRU16_make_divisor (d : Nat) : (StrengthReducedU16.make d).divisor = d := by
  rw [StrengthReducedU16.make]
  split <;> rfl

/-- The multiplier stored for width 16. -/
theorem SRU16_multiplier_spec {d : Nat} (hd : 0 < d) (hdw : d < 2 ^ 16) :
    ((∃ k, d = 2 ^ k) → (StrengthReducedU16.make d).multiplier = 0) ∧
      (¬(∃ k, d = 2 ^ k) → (StrengthReducedU16.make d).multiplier = (2 ^ 32 - 1) / d + 1) := by
  constructor
  · intro hex
    rw [StrengthReducedU16.make, if_pos ((is_power_of_two_fuel_iff hd hdw).mpr hex)]
  · intro hnp
    rw [StrengthReducedU16.make, if_neg (fun hp => hnp ((is_power_of_two_fuel_iff hd hdw).mp hp))]
    simp [U32_MAX]

/-- Width-16 reduced division is exact. -/
theorem SRU16_div_make {d n : Nat} (hd : 0 < d) (hdw : d < 2 ^ 16) (hn : n < 2 ^ 16) :
    StrengthReducedU16.div n (StrengthReducedU16.make d) = n / d := by
  rw [StrengthReducedU16.make]
  by_cases hp : is_power_of_two_fuel 16 d
  · obtain ⟨k, hk_eq⟩ := (is_power_of_two_fuel_iff hd hdw).mp hp
    subst hk_eq
    have hk : k < 16 := (Nat.pow_lt_pow_iff_right (by norm_num)).mp hdw
    rw [if_pos hp, StrengthReducedU16.div]
    simp only [if_pos rfl]
    rw [trailing_zeros_fuel_pow hk, Nat.shiftRight_eq_div_pow]
    simp
  · have hnp : ¬∃ j, d = 2 ^ j := fun hex => hp ((is_power_of_two_fuel_iff hd hdw).mpr hex)
    rw [if_neg hp, StrengthReducedU16.div]
    simp only
    rw [if_neg (by simp [U32_MAX])]
    have hm32 : U32_MAX / d + 1 = (2 ^ (2 * 16) - 1) / d + 1 := by norm_num [U32_MAX]
    rw [hm32, show (2 : Nat) ^ 32 = 2 ^ (2 * 16) from by norm_num]
    simp only [Nat.shiftRight_eq_div_pow]
    rw [mulhi_formula 16 hd hnp hdw hn rfl]
    exact Nat.mod_eq_of_lt (lt_of_le_of_lt (Nat.div_le_self _ _) hn)

/-- Width-16 reduced modulo is exact. -/
theorem SRU16_rem_make {d n : Nat} (hd : 0 < d) (hdw : d < 2 ^ 16) (hn : n < 2 ^ 16) :
    StrengthReducedU16.rem n (StrengthReducedU16.make d) = n % d := by
  rw [StrengthReducedU16.rem]
  by_cases hp : is_power_of_two_fuel 16 d
  · obtain ⟨k, hk_eq⟩ := (is_power_of_two_fuel_iff hd hdw).mp hp
    have hz : (StrengthReducedU16.make d).multiplier = 0 :=
      (SRU16_multiplier_spec hd hdw).1 ⟨k, hk_eq⟩
    rw [if_pos hz, SRU16_make_divisor, hk_eq]
    exact Nat.and_pow_two_sub_one_eq_mod n k
  · have hnp : ¬∃ j, d = 2 ^ j := fun hex => hp ((is_power_of_two_fuel_iff hd hdw).mpr hex)
    have hnz : (StrengthReducedU16.make d).multiplier ≠ 0 := by
      rw [(SRU16_multiplier_spec hd hdw).2 hnp]
      exact Nat.succ_ne_zero _
    rw [if_neg hnz]
    show n - StrengthReducedU16.div n (StrengthReducedU16.make d) * (StrengthReducedU16.make d).divisor = n % d
    rw [SRU16_div_make hd hdw hn, SRU16_make_divisor]
    have hdm := Nat.div_add_mod n d
    have hmc : n / d * d = d * (n / d) := Nat.mul_comm _ _
    omega

/-- `div_rem` for width 16 is the pair of the division and modulo results. -/
theorem SRU16_div_rem_make {d n : Nat} (hd : 0 < d) (hdw : d < 2 ^ 16) (hn : n < 2 ^ 16) :
    StrengthReducedU16.div_rem n (StrengthReducedU16.make d) = (n / d, n % d) := by
  rw [StrengthReducedU16.div_rem]
  simp only [SRU16_div_make hd hdw hn, SRU16_make_divisor]
  have hdm := Nat.div_add_mod n d
  have hmc : n / d * d = d * (n / d) := Nat.mul_comm _ _
  have : n - n / d * d = n % d := by omega
  rw [this]

/-- `make` keeps the divisor (width 32). -/
theorem SRU32_make_divisor (d : Nat) : (StrengthReducedU32.make d).divisor = d := by
  rw [StrengthReducedU32.make]
  split <;> rfl

/-- The multiplier stored for width 32. -/
theorem SRU32_multiplier_spec {d : Nat} (hd : 0 < d) (hdw : d < 2 ^ 32) :
    ((∃ k, d = 2 ^ k) → (StrengthReducedU32.make d).multiplier = 0) ∧
      (¬(∃ k, d = 2 ^ k) → (StrengthReducedU32.make d).multiplier = (2 ^ 64 - 1) / d + 1) := by
  constructor
  · intro hex
    rw [StrengthReducedU32.make, if_pos ((is_power_of_two_fuel_iff hd hdw).mpr hex)]
  · intro hnp
    rw [StrengthReducedU32.make, if_neg (fun hp => hnp ((is_power_of_two_fuel_iff hd hdw).mp hp))]
    simp [U64_MAX]

/-- Width-32 reduced division is exact. -/
theorem SRU32_div_make {d n : Nat} (hd : 0 < d) (hdw : d < 2 ^ 32) (hn : n < 2 ^ 32) :
    StrengthReducedU32.div n (StrengthReducedU32.make d) = n / d := by
  rw [StrengthReducedU32.make]
  by_cases hp : is_power_of_two_fuel 32 d
  · obtain ⟨k, hk_eq⟩ := (is_power_of_two_fuel_iff hd hdw).mp hp
    subst hk_eq
    have hk : k < 32 := (Nat.pow_lt_pow_iff_right (by norm_num)).mp hdw
    rw [if_pos hp, StrengthReducedU32.div]
    simp only [if_pos rfl]
    rw [trailing_zeros_fuel_pow hk, Nat.shiftRight_eq_div_pow]
    simp
  · have hnp : ¬∃ j, d = 2 ^ j := fun hex => hp ((is_power_of_two_fuel_iff hd hdw).mpr hex)
    rw [if_neg hp, StrengthReducedU32.div]
    simp only
    rw [if_neg (by simp [U64_MAX])]
    have hm64 : U64_MAX / d + 1 = (2 ^ (2 * 32) - 1) / d + 1 := by norm_num [U64_MAX]
    rw [hm64, show (2 : Nat) ^ 64 = 2 ^ (2 * 32) from by norm_num]
    simp only [Nat.shiftRight_eq_div_pow]
    rw [mulhi_formula 32 hd hnp hdw hn rfl]
    exact Nat.mod_eq_of_lt (lt_of_le_of_lt (Nat.div_le_self _ _) hn)

/-- Width-32 reduced modulo is exact. -/
theorem SRU32_rem_make {d n : Nat} (hd : 0 < d) (hdw : d < 2 ^ 32) (hn : n < 2 ^ 32) :
    StrengthReducedU32.rem n (StrengthReducedU32.make d) = n % d := by
  rw [StrengthReducedU32.make]
  by_cases hp : is_power_of_two_fuel 32 d
  · obtain ⟨k, hk_eq⟩ := (is_power_of_two_fuel_iff hd hdw).mp hp
    subst hk_eq
    rw [if_pos hp, StrengthReducedU32.rem]
    simp only [if_pos rfl]
    exact Nat.and_pow_two_sub_one_eq_mod n k
  · have hnp : ¬∃ j, d = 2 ^ j := fun hex => hp ((is_power_of_two_fuel_iff hd hdw).mpr hex)
    rw [if_neg hp, StrengthReducedU32.rem]
    simp only
    rw [if_neg (by simp [U64_MAX])]
    have hm64 : U64_MAX / d + 1 = (2 ^ (2 * 32) - 1) / d + 1 := by norm_num [U64_MAX]
    rw [hm64, show (2 : Nat) ^ 128 = 2 ^ (4 * 32) from by norm_num]
    simp only [Nat.shiftRight_eq_div_pow]
    rw [show (2 : Nat) ^ 64 = 2 ^ (2 * 32) from by norm_num,
      frac_rem_core 32 hd hnp hdw hn rfl]
    exact Nat.mod_eq_of_lt (lt_of_le_of_lt (Nat.le_of_lt_succ (Nat.lt_succ_of_lt (Nat.mod_lt n hd))) (by omega))

/-- `div_rem` for width 32 is the pair of the division and modulo results. -/
theorem SRU32_div_rem_make {d n : Nat} (hd : 0 < d) (hdw : d < 2 ^ 32) (hn : n < 2 ^ 32) :
    StrengthReducedU32.div_rem n (StrengthReducedU32.make d) = (n / d, n % d) := by
  rw [StrengthReducedU32.div_rem]
  by_cases hp : is_power_of_two_fuel 32 d
  · obtain ⟨k, hk_eq⟩ := (is_power_of_two_fuel_iff hd hdw).mp hp
    have hz : (StrengthReducedU32.make d).multiplier = 0 :=
      (SRU32_multiplier_spec hd hdw).1 ⟨k, hk_eq⟩
    have hk : k < 32 := by
      rw [hk_eq] at hdw
      exact (Nat.pow_lt_pow_iff_right (by norm_num)).mp hdw
    rw [if_pos hz, SRU32_make_divisor, hk_eq, trailing_zeros_fuel_pow hk,
      Nat.shiftRight_eq_div_pow, Nat.and_pow_two_sub_one_eq_mod]
  · have hnp : ¬∃ j, d = 2 ^ j := fun hex => hp ((is_power_of_two_fuel_iff hd hdw).mpr hex)
    have hnz : (StrengthReducedU32.make d).multiplier ≠ 0 := by
      rw [(SRU32_multiplier_spec hd hdw).2 hnp]
      exact Nat.succ_ne_zero _
    rw [if_neg hnz, SRU32_make_divisor]
    have hmul : (StrengthReducedU32.make d).multiplier = (2 ^ (2 * 32) - 1) / d + 1 := by
      rw [(SRU32_multiplier_spec hd hdw).2 hnp]
    rw [hmul, show (2 : Nat) ^ 64 = 2 ^ (2 * 32) from by norm_num]
    simp only [Nat.shiftRight_eq_div_pow]
    rw [mulhi_formula 32 hd hnp hdw hn rfl]
    have hq : n / d % 2 ^ 32 = n / d :=
      Nat.mod_eq_of_lt (lt_of_le_of_lt (Nat.div_le_self _ _) hn)
    rw [hq]
    have hdm := Nat.div_add_mod n d
    have hmc : n / d * d = d * (n / d) := Nat.mul_comm _ _
    have hrem : n - n / d * d = n % d := by omega
    rw [hrem]

/-! ### Values of little-endian digit slices -/

/-- `chunks_value` on `[]`. -/
theorem chunks_value_nil : chunks_value [] = 0 := rfl

/-- `chunks_value` unfolds one digit at a time. -/
theorem chunks_value_cons (a : Nat) (l : List Nat) :
    chunks_value (a :: l) = a + 2 ^ 64 * chunks_value l := rfl

/-- Splitting a digit slice splits its value. -/
theorem chunks_value_append (l1 l2 : List Nat) :
    chunks_value (l1 ++ l2) = chunks_value l1 + 2 ^ (64 * l1.length) * chunks_value l2 := by
  induction l1 with
  | nil => simp [chunks_value]
  | cons a t ih =>
    have hp : (2 : Nat) ^ (64 * (t.length + 1)) = 2 ^ 64 * 2 ^ (64 * t.length) := by
      rw [Nat.mul_add, pow_add]; ring
    rw [List.cons_append, chunks_value_cons, chunks_value_cons, ih, List.length_cons, hp]
    ring

/-- A digit-bounded slice has value below `2^(64·len)`. -/
theorem chunks_value_lt : ∀ {l : List Nat}, (∀ x ∈ l, x < 2 ^ 64) →
    chunks_value l < 2 ^ (64 * l.length) := by
  intro l
  induction l with
  | nil => intro _; simp [chunks_value]
  | cons a t ih =>
    intro h
    have ha := h a (List.mem_cons_self a t)
    have ht := ih (fun x hx => h x (List.mem_cons_of_mem a hx))
    have hp : (2 : Nat) ^ (64 * (t.length + 1)) = 2 ^ 64 * 2 ^ (64 * t.length) := by
      rw [Nat.mul_add, pow_add]; ring
    have h2 : 2 ^ 64 * chunks_value t ≤ 2 ^ 64 * (2 ^ (64 * t.length) - 1) :=
      Nat.mul_le_mul_left _ (by omega)
    rw [chunks_value_cons, List.length_cons, hp]
    have h3 : (0:Nat) < 2 ^ (64 * t.length) := Nat.two_pow_pos _
    have h4 : 2 ^ 64 * (2 ^ (64 * t.length) - 1) = 2 ^ 64 * 2 ^ (64 * t.length) - 2 ^ 64 := by
      rw [Nat.mul_sub_one]
    omega

/-- An all-zero slice has value zero. -/
theorem chunks_value_zero : ∀ {l : List Nat}, (∀ x ∈ l, x = 0) → chunks_value l = 0 := by
  intro l
  induction l with
  | nil => intro _; rfl
  | cons a t ih =>
    intro h
    rw [chunks_value_cons, h a (List.mem_cons_self a t),
      ih (fun x hx => h x (List.mem_cons_of_mem a hx))]
    simp

/-- The most-significant digit bounds the value from below. -/
theorem chunks_value_getLast : ∀ {l : List Nat} {t : Nat}, l.getLast? = some t →
    t * 2 ^ (64 * (l.length - 1)) ≤ chunks_value l := by
  intro l
  induction l with
  | nil => intro t h; simp at h
  | cons a l2 ih =>
    intro t h
    cases l2 with
    | nil =>
      have : a = t := by simpa using h
      subst this
      simp [chunks_value]
    | cons b t2 =>
      have h2 : (b :: t2).getLast? = some t := by rwa [List.getLast?_cons_cons] at h
      have ihh := ih h2
      rw [chunks_value_cons]
      have hlen : (a :: b :: t2).length - 1 = (b :: t2).length := by simp
      rw [hlen]
      have hp : (2 : Nat) ^ (64 * (b :: t2).length) =
          2 ^ 64 * 2 ^ (64 * ((b :: t2).length - 1)) := by
        have : 64 * (b :: t2).length = 64 + 64 * ((b :: t2).length - 1) := by
          simp [List.length_cons]; ring
        rw [this, pow_add]
      calc t * 2 ^ (64 * (b :: t2).length)
          = 2 ^ 64 * (t * 2 ^ (64 * ((b :: t2).length - 1))) := by rw [hp]; ring
        _ ≤ 2 ^ 64 * chunks_value (b :: t2) := Nat.mul_le_mul_left _ ihh
        _ ≤ a + 2 ^ 64 * chunks_value (b :: t2) := Nat.le_add_left _ _

/-- Value of a slice split at position `k`. -/
theorem chunks_value_split (l : List Nat) (k : Nat) :
    chunks_value l = chunks_value (l.take k) +
      2 ^ (64 * (l.take k).length) * chunks_value (l.drop k) := by
  conv_lhs => rw [← List.take_append_drop k l]
  rw [chunks_value_append]

/-- Shifting a digit-bounded slice's value right by whole digits drops them. -/
theorem chunks_value_div {l : List Nat} {k : Nat} (hk : k ≤ l.length)
    (h : ∀ x ∈ l, x < 2 ^ 64) :
    chunks_value l / 2 ^ (64 * k) = chunks_value (l.drop k) := by
  have hlen : (l.take k).length = k := by rw [List.length_take]; omega
  have htake : chunks_value (l.take k) < 2 ^ (64 * k) := by
    have := chunks_value_lt (l := l.take k) (fun x hx => h x (List.mem_of_mem_take hx))
    rwa [hlen] at this
  rw [chunks_value_split l k, hlen, Nat.mul_comm ((2:Nat) ^ (64 * k)),
    Nat.add_mul_div_right _ _ (Nat.two_pow_pos _), Nat.div_eq_of_lt htake, Nat.zero_add]

/-! ### The borrow-propagating subtraction `sub_assign` -/

/-- Per-digit spec of `sub_digits` on equal-length slices: output digits are
the low 64 bits of `borrow + a - b`, the outgoing borrow is `0` or `-1`, and
the values balance exactly. -/
theorem sub_digits_spec : ∀ (as2 bs : List Nat) (borrow : Int),
    as2.length = bs.length → (∀ x ∈ as2, x < 2 ^ 64) → (∀ x ∈ bs, x < 2 ^ 64) →
    (borrow = 0 ∨ borrow = -1) →
    (sub_digits as2 bs borrow).1.length = as2.length ∧
      (∀ x ∈ (sub_digits as2 bs borrow).1, x < 2 ^ 64) ∧
      ((sub_digits as2 bs borrow).2 = 0 ∨ (sub_digits as2 bs borrow).2 = -1) ∧
      (chunks_value (sub_digits as2 bs borrow).1 : Int) =
        chunks_value as2 - chunks_value bs + borrow -
          (sub_digits as2 bs borrow).2 * 2 ^ (64 * as2.length) := by
  intro as2
  induction as2 with
  | nil =>
    intro bs borrow hlen _ _ hb0
    cases bs with
    | nil =>
      refine ⟨rfl, by simp [sub_digits], by simpa [sub_digits] using hb0, ?_⟩
      rcases hb0 with h | h <;> simp [sub_digits, chunks_value, h]
    | cons b bs => simp at hlen
  | cons a as2 ih =>
    intro bs borrow hlen ha hb hb0
    cases bs with
    | nil => simp at hlen
    | cons b bs =>
      have hlen2 : as2.length = bs.length := by simpa using hlen
      have ha2 : ∀ x ∈ as2, x < 2 ^ 64 := fun x hx => ha x (List.mem_cons_of_mem a hx)
      have hb2 : ∀ x ∈ bs, x < 2 ^ 64 := fun x hx => hb x (List.mem_cons_of_mem b hx)
      have haa := ha a (List.mem_cons_self a as2)
      have hbb := hb b (List.mem_cons_self b bs)
      have hβ2 : (borrow + (a : Int) - b) / 2 ^ 64 = 0 ∨
          (borrow + (a : Int) - b) / 2 ^ 64 = -1 := by omega
      obtain ⟨ih1, ih2, ih3, ih4⟩ := ih bs ((borrow + (a : Int) - b) / 2 ^ 64) hlen2 ha2 hb2 hβ2
      have hfst : (sub_digits (a :: as2) (b :: bs) borrow).1 =
          ((borrow + (a : Int) - b) % 2 ^ 64).toNat ::
            (sub_digits as2 bs ((borrow + (a : Int) - b) / 2 ^ 64)).1 := rfl
      have hsnd : (sub_digits (a :: as2) (b :: bs) borrow).2 =
          (sub_digits as2 bs ((borrow + (a : Int) - b) / 2 ^ 64)).2 := rfl
      have hpow : ((2 : Int) ^ (64 * (a :: as2).length)) =
          2 ^ (64 * as2.length) * 2 ^ 64 := by
        have he : 64 * (a :: as2).length = 64 * as2.length + 64 := by
          rw [List.length_cons]; ring
        rw [he, pow_add]
      refine ⟨?_, ?_, ?_, ?_⟩
      · rw [hfst, List.length_cons, List.length_cons, ih1]
      · rw [hfst]
        intro x hx
        rcases List.mem_cons.mp hx with h | h
        · subst h; omega
        · exact ih2 x h
      · rw [hsnd]; exact ih3
      · rw [hfst, hsnd, hpow]
        simp only [chunks_value_cons]
        rcases ih3 with h3 | h3 <;> rw [h3] at ih4 ⊢ <;> omega

/-- Spec of the trailing borrow loop `sub_borrow_prop`. -/
theorem sub_borrow_prop_spec : ∀ (as2 : List Nat) (borrow : Int),
    (∀ x ∈ as2, x < 2 ^ 64) → (borrow = 0 ∨ borrow = -1) →
    (sub_borrow_prop as2 borrow).1.length = as2.length ∧
      (∀ x ∈ (sub_borrow_prop as2 borrow).1, x < 2 ^ 64) ∧
      ((sub_borrow_prop as2 borrow).2 = 0 ∨ (sub_borrow_prop as2 borrow).2 = -1) ∧
      (chunks_value (sub_borrow_prop as2 borrow).1 : Int) =
        chunks_value as2 + borrow -
          (sub_borrow_prop as2 borrow).2 * 2 ^ (64 * as2.length) := by
  intro as2
  induction as2 with
  | nil =>
    intro borrow ha hb0
    rcases hb0 with h | h <;> subst h
    · exact ⟨rfl, by simp [sub_borrow_prop], Or.inl rfl, by simp [sub_borrow_prop]⟩
    · have hred : sub_borrow_prop [] (-1) = ([], -1) := rfl
      rw [hred]
      exact ⟨rfl, by simp, Or.inr rfl, by simp [chunks_value]⟩
  | cons a as2 ih =>
    intro borrow ha hb0
    rcases hb0 with h | h <;> subst h
    · have hred : sub_borrow_prop (a :: as2) 0 = (a :: as2, 0) := rfl
      rw [hred]
      refine ⟨rfl, ha, Or.inl rfl, by simp⟩
    · have haa := ha a (List.mem_cons_self a as2)
      have ha2 : ∀ x ∈ as2, x < 2 ^ 64 := fun x hx => ha x (List.mem_cons_of_mem a hx)
      have hβ2 : (-1 + (a : Int)) / 2 ^ 64 = 0 ∨ (-1 + (a : Int)) / 2 ^ 64 = -1 := by omega
      obtain ⟨ih1, ih2, ih3, ih4⟩ := ih ((-1 + (a : Int)) / 2 ^ 64) ha2 hβ2
      have hfst : (sub_borrow_prop (a :: as2) (-1)).1 =
          (((-1) + (a : Int)) % 2 ^ 64).toNat ::
            (sub_borrow_prop as2 ((-1 + (a : Int)) / 2 ^ 64)).1 := rfl
      have hsnd : (sub_borrow_prop (a :: as2) (-1)).2 =
          (sub_borrow_prop as2 ((-1 + (a : Int)) / 2 ^ 64)).2 := rfl
      have hpow : ((2 : Int) ^ (64 * (a :: as2).length)) =
          2 ^ (64 * as2.length) * 2 ^ 64 := by
        have he : 64 * (a :: as2).length = 64 * as2.length + 64 := by
          rw [List.length_cons]; ring
        rw [he, pow_add]
      refine ⟨?_, ?_, ?_, ?_⟩
      · rw [hfst, List.length_cons, List.length_cons, ih1]
      · rw [hfst]
        intro x hx
        rcases List.mem_cons.mp hx with h | h
        · subst h; omega
        · exact ih2 x h
      · rw [hsnd]; exact ih3
      · rw [hfst, hsnd, hpow]
        simp only [chunks_value_cons]
        rcases ih3 with h3 | h3 <;> rw [h3] at ih4 ⊢ <;> omega

/-- `sub_assign a b` computes `a - b` exactly when `b`'s value is at most
`a`'s, preserving digit count and digit bounds; no borrow is left over, so
the `expect("borrow underflow")` panic cannot fire. -/
theorem sub_assign_spec {a b : List Nat} (hlen : b.length ≤ a.length)
    (ha : ∀ x ∈ a, x < 2 ^ 64) (hb : ∀ x ∈ b, x < 2 ^ 64)
    (hle : chunks_value b ≤ chunks_value a) :
    (sub_assign a b).length = a.length ∧ (∀ x ∈ sub_assign a b, x < 2 ^ 64) ∧
      chunks_value (sub_assign a b) = chunks_value a - chunks_value b := by
  have htlen : (a.take b.length).length = b.length := by rw [List.length_take]; omega
  have hta : ∀ x ∈ a.take b.length, x < 2 ^ 64 := fun x hx => ha x (List.mem_of_mem_take hx)
  have hda : ∀ x ∈ a.drop b.length, x < 2 ^ 64 := fun x hx => ha x (List.mem_of_mem_drop hx)
  obtain ⟨l1, l2, l3, l4⟩ := sub_digits_spec (a.take b.length) b 0 htlen hta hb (Or.inl rfl)
  obtain ⟨h1, h2, h3, h4⟩ := sub_borrow_prop_spec (a.drop b.length)
    (sub_digits (a.take b.length) b 0).2 hda l3
  have hred : sub_assign a b = (sub_digits (a.take b.length) b 0).1 ++
      (sub_borrow_prop (a.drop b.length) (sub_digits (a.take b.length) b 0).2).1 := rfl
  rw [hred]
  have hlenf : ((sub_digits (a.take b.length) b 0).1 ++
      (sub_borrow_prop (a.drop b.length) (sub_digits (a.take b.length) b 0).2).1).length
      = a.length := by
    rw [List.length_append, l1, h1, htlen, List.length_drop]
    omega
  have hdig : ∀ x ∈ (sub_digits (a.take b.length) b 0).1 ++
      (sub_borrow_prop (a.drop b.length) (sub_digits (a.take b.length) b 0).2).1, x < 2 ^ 64 := by
    intro x hx
    rcases List.mem_append.mp hx with h | h
    · exact l2 x h
    · exact h2 x h
  refine ⟨hlenf, hdig, ?_⟩
  have hval : (chunks_value ((sub_digits (a.take b.length) b 0).1 ++
      (sub_borrow_prop (a.drop b.length) (sub_digits (a.take b.length) b 0).2).1) : Int) =
      chunks_value a - chunks_value b -
        (sub_borrow_prop (a.drop b.length) (sub_digits (a.take b.length) b 0).2).2 *
          2 ^ (64 * a.length) := by
    have hsplit : chunks_value a = chunks_value (a.take b.length) +
        2 ^ (64 * b.length) * chunks_value (a.drop b.length) := by
      have := chunks_value_split a b.length
      rwa [htlen] at this
    have hexp : 64 * a.length = 64 * b.length + 64 * (a.length - b.length) := by omega
    have hpowN : ((2 : Int) ^ (64 * a.length)) =
        2 ^ (64 * b.length) * 2 ^ (64 * (a.drop b.length).length) := by
      rw [List.length_drop, hexp, pow_add]
    have hsplitZ : (chunks_value a : Int) = chunks_value (a.take b.length) +
        2 ^ (64 * b.length) * chunks_value (a.drop b.length) := by exact_mod_cast hsplit
    rw [chunks_value_append, l1, htlen, Nat.cast_add, Nat.cast_mul, Nat.cast_pow,
      Nat.cast_ofNat]
    rw [htlen] at l4
    rw [l4, h4, hpowN, hsplitZ]
    ring
  have hout : (sub_borrow_prop (a.drop b.length) (sub_digits (a.take b.length) b 0).2).2 = 0 := by
    rcases h3 with h | h
    · exact h
    · exfalso
      rw [h] at hval
      have hv2 : chunks_value ((sub_digits (a.take b.length) b 0).1 ++
          (sub_borrow_prop (a.drop b.length) (sub_digits (a.take b.length) b 0).2).1)
          < 2 ^ (64 * a.length) := by
        have := chunks_value_lt hdig
        rwa [hlenf] at this
      have hcast : (chunks_value ((sub_digits (a.take b.length) b 0).1 ++
          (sub_borrow_prop (a.drop b.length) (sub_digits (a.take b.length) b 0).2).1) : Int)
          < (2 : Int) ^ (64 * a.length) := by exact_mod_cast hv2
      have hbc : (chunks_value b : Int) ≤ chunks_value a := by exact_mod_cast hle
      omega
  rw [hout] at hval
  have hfin : (chunks_value ((sub_digits (a.take b.length) b 0).1 ++
      (sub_borrow_prop (a.drop b.length) (sub_digits (a.take b.length) b 0).2).1) : Int) =
      chunks_value a - chunks_value b := by rw [hval]; ring
  have hbc : (chunks_value b : Int) ≤ chunks_value a := by exact_mod_cast hle
  omega

/-! ### Slice comparison and normalization -/

/-- The most-significant-first lexicographic comparison decides strict value
order for equal-length digit-bounded slices (stated over the little-endian
values of the reversed operands). -/
theorem slice_gt_msf_iff : ∀ (A B : List Nat), A.length = B.length →
    (∀ x ∈ A, x < 2 ^ 64) → (∀ x ∈ B, x < 2 ^ 64) →
    (slice_gt_msf A B = true ↔ chunks_value B.reverse < chunks_value A.reverse) := by
  intro A
  induction A with
  | nil =>
    intro B hlen _ _
    cases B with
    | nil => simp [slice_gt_msf, chunks_value]
    | cons b bs => simp at hlen
  | cons a A ih =>
    intro B hlen ha hb
    cases B with
    | nil => simp at hlen
    | cons b B =>
      have hlen2 : A.length = B.length := by simpa using hlen
      have ha2 : ∀ x ∈ A, x < 2 ^ 64 := fun x hx => ha x (List.mem_cons_of_mem a hx)
      have hb2 : ∀ x ∈ B, x < 2 ^ 64 := fun x hx => hb x (List.mem_cons_of_mem b hx)
      have hAv : chunks_value A.reverse < 2 ^ (64 * A.length) := by
        have := chunks_value_lt (l := A.reverse) (fun x hx => ha2 x (List.mem_reverse.mp hx))
        rwa [List.length_reverse] at this
      have hBv : chunks_value B.reverse < 2 ^ (64 * A.length) := by
        have := chunks_value_lt (l := B.reverse) (fun x hx => hb2 x (List.mem_reverse.mp hx))
        rwa [List.length_reverse, ← hlen2] at this
      have hrevA : chunks_value (a :: A).reverse =
          chunks_value A.reverse + 2 ^ (64 * A.length) * a := by
        rw [List.reverse_cons, chunks_value_append, List.length_reverse]
        simp [chunks_value]
      have hrevB : chunks_value (b :: B).reverse =
          chunks_value B.reverse + 2 ^ (64 * B.length) * b := by
        rw [List.reverse_cons, chunks_value_append, List.length_reverse]
        simp [chunks_value]
      rw [slice_gt_msf, hrevA, hrevB, ← hlen2]
      by_cases h1 : a < b
      · rw [if_pos h1]
        simp only [Bool.false_eq_true, false_iff, not_lt]
        have : a + 1 ≤ b := h1
        have h2 : 2 ^ (64 * A.length) * (a + 1) ≤ 2 ^ (64 * A.length) * b :=
          Nat.mul_le_mul_left _ this
        have h3 : 2 ^ (64 * A.length) * (a + 1) = 2 ^ (64 * A.length) * a + 2 ^ (64 * A.length) := by
          ring
        omega
      · by_cases h2 : a > b
        · rw [if_neg h1, if_pos h2]
          simp only [true_iff]
          have : b + 1 ≤ a := h2
          have h3 : 2 ^ (64 * A.length) * (b + 1) ≤ 2 ^ (64 * A.length) * a :=
            Nat.mul_le_mul_left _ this
          have h4 : 2 ^ (64 * A.length) * (b + 1) = 2 ^ (64 * A.length) * b + 2 ^ (64 * A.length) := by
            ring
          omega
        · have hab : a = b := by omega
          subst hab
          rw [if_neg h1, if_neg h2, ih B hlen2 ha2 hb2]
          constructor
          · intro h; omega
          · intro h; omega

/-- `is_slice_greater a b` decides `value b < value a` whenever `a` is no
longer than `b`, both are digit-bounded, and `b` (when strictly longer) has
value filling its digit count. -/
theorem is_slice_greater_iff {a b : List Nat} (hab : a.length ≤ b.length)
    (ha : ∀ x ∈ a, x < 2 ^ 64) (hb : ∀ x ∈ b, x < 2 ^ 64)
    (hlow : a.length < b.length → 2 ^ (64 * (b.length - 1)) ≤ chunks_value b) :
    (is_slice_greater a b = true ↔ chunks_value b < chunks_value a) := by
  rw [is_slice_greater]
  by_cases h1 : a.length > b.length
  · omega
  · rw [if_neg h1]
    by_cases h2 : b.length > a.length
    · rw [if_pos h2]
      simp only [Bool.false_eq_true, false_iff, not_lt]
      have hav : chunks_value a < 2 ^ (64 * a.length) := chunks_value_lt ha
      have hstep : 2 ^ (64 * a.length) ≤ 2 ^ (64 * (b.length - 1)) :=
        Nat.pow_le_pow_right (by omega) (by omega)
      have := hlow h2
      omega
    · rw [if_neg h2]
      have hlen : a.length = b.length := by omega
      have hlenr : a.reverse.length = b.reverse.length := by
        rw [List.length_reverse, List.length_reverse, hlen]
      have har : ∀ x ∈ a.reverse, x < 2 ^ 64 := fun x hx => ha x (List.mem_reverse.mp hx)
      have hbr : ∀ x ∈ b.reverse, x < 2 ^ 64 := fun x hx => hb x (List.mem_reverse.mp hx)
      have := slice_gt_msf_iff a.reverse b.reverse hlenr har hbr
      rwa [List.reverse_reverse, List.reverse_reverse] at this

/-- The head of a `dropWhile` output refutes the predicate. -/
theorem dropWhile_head_false {p : Nat → Bool} : ∀ {xs : List Nat} {x : Nat} {l : List Nat},
    List.dropWhile p xs = x :: l → p x = false := by
  intro xs
  induction xs with
  | nil => intro x l h; simp [List.dropWhile] at h
  | cons a t ih =>
    intro x l h
    rw [List.dropWhile_cons] at h
    by_cases hp : p a
    · rw [if_pos hp] at h
      exact ih h
    · rw [if_neg hp] at h
      have : a = x := by injection h
      rw [← this]
      simpa using hp

/-- `normalize_slice` preserves the value: only most-significant zeros are
dropped. -/
theorem normalize_slice_value (l : List Nat) :
    chunks_value (normalize_slice l) = chunks_value l := by
  rw [normalize_slice]
  conv_rhs => rw [← List.reverse_reverse l,
    ← List.takeWhile_append_dropWhile (fun x => x == 0) l.reverse]
  rw [List.reverse_append, chunks_value_append]
  have hz : chunks_value (List.takeWhile (fun x => x == 0) l.reverse).reverse = 0 := by
    apply chunks_value_zero
    intro x hx
    have := List.mem_takeWhile_imp (List.mem_reverse.mp hx)
    simpa using this
  rw [hz]
  simp

/-- Digits of `normalize_slice l` are digits of `l`. -/
theorem normalize_slice_mem {l : List Nat} {x : Nat} (h : x ∈ normalize_slice l) : x ∈ l := by
  rw [normalize_slice] at h
  have h2 := List.mem_reverse.mp h
  have h3 := (List.dropWhile_sublist (fun x => x == 0)).mem h2
  exact List.mem_reverse.mp h3

/-- `normalize_slice` never lengthens a slice. -/
theorem normalize_slice_length_le (l : List Nat) : (normalize_slice l).length ≤ l.length := by
  rw [normalize_slice, List.length_reverse]
  have := (List.dropWhile_sublist (α := Nat) (l := l.reverse) (fun x => x == 0)).length_le
  rwa [List.length_reverse] at this

/-- A non-empty normalized slice ends in a non-zero digit. -/
theorem normalize_slice_getLast {l : List Nat} (h : normalize_slice l ≠ []) :
    ∃ t, (normalize_slice l).getLast? = some t ∧ t ≠ 0 := by
  rw [normalize_slice] at h ⊢
  rcases hd : List.dropWhile (fun x => x == 0) l.reverse with _ | ⟨x, xs⟩
  · rw [hd] at h
    simp at h
  · refine ⟨x, ?_, ?_⟩
    · rw [List.getLast?_reverse]
      rfl
    · have := dropWhile_head_false hd
      simpa using this

/-- A non-empty normalized slice's value reaches its top digit's weight. -/
theorem normalize_slice_ge {l : List Nat} (h : normalize_slice l ≠ []) :
    2 ^ (64 * ((normalize_slice l).length - 1)) ≤ chunks_value (normalize_slice l) := by
  obtain ⟨t, hg, ht⟩ := normalize_slice_getLast h
  have h1 := chunks_value_getLast hg
  have h2 : 1 ≤ t := Nat.pos_of_ne_zero ht
  calc 2 ^ (64 * ((normalize_slice l).length - 1))
      = 1 * 2 ^ (64 * ((normalize_slice l).length - 1)) := by ring
    _ ≤ t * 2 ^ (64 * ((normalize_slice l).length - 1)) := Nat.mul_le_mul_right _ h2
    _ ≤ chunks_value (normalize_slice l) := h1

/-- The normalized digit count is bounded by any digit count whose range
covers the value. -/
theorem normalize_slice_length_le_of_lt {l : List Nat} {k : Nat}
    (h : chunks_value l < 2 ^ (64 * k)) : (normalize_slice l).length ≤ k := by
  by_cases hn : normalize_slice l = []
  · rw [hn]; simp
  · have h1 := normalize_slice_ge hn
    rw [normalize_slice_value] at h1
    have h2 : (2 : Nat) ^ (64 * ((normalize_slice l).length - 1)) < 2 ^ (64 * k) := by omega
    have h3 := (Nat.pow_lt_pow_iff_right (a := 2) (by omega)).mp h2
    have hne : (normalize_slice l).length ≠ 0 := fun hc => hn (List.length_eq_zero.mp hc)
    omega

/-! ### The chunked multiply-accumulate -/

/-- Value spec of the zipped multiply-accumulate loop on equal-length slices. -/
theorem mul_add_digits_spec (b : Nat) : ∀ (ps as2 : List Nat) (carry : Nat),
    ps.length = as2.length →
    (mul_add_digits b ps as2 carry).1.length = ps.length ∧
      (∀ x ∈ (mul_add_digits b ps as2 carry).1, x < 2 ^ 64) ∧
      chunks_value (mul_add_digits b ps as2 carry).1 +
          (mul_add_digits b ps as2 carry).2 * 2 ^ (64 * ps.length) =
        chunks_value ps + chunks_value as2 * b + carry := by
  intro ps
  induction ps with
  | nil =>
    intro as2 carry hlen
    cases as2 with
    | nil => exact ⟨rfl, by simp [mul_add_digits], by simp [mul_add_digits, chunks_value]⟩
    | cons a t => simp at hlen
  | cons p ps ih =>
    intro as2 carry hlen
    cases as2 with
    | nil => simp at hlen
    | cons a as2 =>
      have hlen2 : ps.length = as2.length := by simpa using hlen
      obtain ⟨ih1, ih2, ih3⟩ := ih as2 ((carry + p + a * b) / 2 ^ 64) hlen2
      have hfst : (mul_add_digits b (p :: ps) (a :: as2) carry).1 =
          (carry + p + a * b) % 2 ^ 64 ::
            (mul_add_digits b ps as2 ((carry + p + a * b) / 2 ^ 64)).1 := rfl
      have hsnd : (mul_add_digits b (p :: ps) (a :: as2) carry).2 =
          (mul_add_digits b ps as2 ((carry + p + a * b) / 2 ^ 64)).2 := rfl
      have hpow : (2 : Nat) ^ (64 * (p :: ps).length) = 2 ^ (64 * ps.length) * 2 ^ 64 := by
        have he : 64 * (p :: ps).length = 64 * ps.length + 64 := by
          rw [List.length_cons]; ring
        rw [he, pow_add]
      refine ⟨?_, ?_, ?_⟩
      · rw [hfst, List.length_cons, List.length_cons, ih1]
      · rw [hfst]
        intro x hx
        rcases List.mem_cons.mp hx with h | h
        · subst h
          exact Nat.mod_lt _ (Nat.two_pow_pos 64)
        · exact ih2 x h
      · rw [hfst, hsnd, hpow]
        simp only [chunks_value_cons]
        have hdm := Nat.div_add_mod (carry + p + a * b) (2 ^ 64)
        have e3 : (mul_add_digits b ps as2 ((carry + p + a * b) / 2 ^ 64)).2 *
            (2 ^ (64 * ps.length) * 2 ^ 64) =
            2 ^ 64 * ((mul_add_digits b ps as2 ((carry + p + a * b) / 2 ^ 64)).2 *
              2 ^ (64 * ps.length)) := by ring
        have e4 : (a + 2 ^ 64 * chunks_value as2) * b =
            a * b + 2 ^ 64 * (chunks_value as2 * b) := by ring
        rw [e3, e4]
        omega

/-- Value spec of the trailing carry-propagation loop. -/
theorem mul_carry_prop_spec : ∀ (ps : List Nat) (carry : Nat),
    (∀ x ∈ ps, x < 2 ^ 64) →
    (mul_carry_prop ps carry).1.length = ps.length ∧
      (∀ x ∈ (mul_carry_prop ps carry).1, x < 2 ^ 64) ∧
      chunks_value (mul_carry_prop ps carry).1 +
          (mul_carry_prop ps carry).2 * 2 ^ (64 * ps.length) =
        chunks_value ps + carry := by
  intro ps
  induction ps with
  | nil =>
    intro carry hp
    match carry with
    | 0 => exact ⟨rfl, by simp [mul_carry_prop], by simp [mul_carry_prop]⟩
    | carry + 1 =>
      have hred : mul_carry_prop [] (carry + 1) = ([], carry + 1) := rfl
      rw [hred]
      exact ⟨rfl, by simp, by simp [chunks_value]⟩
  | cons p ps ih =>
    intro carry hp
    match carry with
    | 0 => exact ⟨rfl, hp, by simp [mul_carry_prop]⟩
    | carry + 1 =>
      have hp2 : ∀ x ∈ ps, x < 2 ^ 64 := fun x hx => hp x (List.mem_cons_of_mem p hx)
      obtain ⟨ih1, ih2, ih3⟩ := ih ((carry + 1 + p) / 2 ^ 64) hp2
      have hfst : (mul_carry_prop (p :: ps) (carry + 1)).1 =
          (carry + 1 + p) % 2 ^ 64 ::
            (mul_carry_prop ps ((carry + 1 + p) / 2 ^ 64)).1 := rfl
      have hsnd : (mul_carry_prop (p :: ps) (carry + 1)).2 =
          (mul_carry_prop ps ((carry + 1 + p) / 2 ^ 64)).2 := rfl
      have hpow : (2 : Nat) ^ (64 * (p :: ps).length) = 2 ^ (64 * ps.length) * 2 ^ 64 := by
        have he : 64 * (p :: ps).length = 64 * ps.length + 64 := by
          rw [List.length_cons]; ring
        rw [he, pow_add]
      refine ⟨?_, ?_, ?_⟩
      · rw [hfst, List.length_cons, List.length_cons, ih1]
      · rw [hfst]
        intro x hx
        rcases List.mem_cons.mp hx with h | h
        · subst h
          exact Nat.mod_lt _ (Nat.two_pow_pos 64)
        · exact ih2 x h
      · rw [hfst, hsnd, hpow]
        simp only [chunks_value_cons]
        have hdm := Nat.div_add_mod (carry + 1 + p) (2 ^ 64)
        have lhs_eq : (carry + 1 + p) % 2 ^ 64 +
            2 ^ 64 * chunks_value (mul_carry_prop ps ((carry + 1 + p) / 2 ^ 64)).1 +
            (mul_carry_prop ps ((carry + 1 + p) / 2 ^ 64)).2 *
              (2 ^ (64 * ps.length) * 2 ^ 64) =
            (carry + 1 + p) % 2 ^ 64 + 2 ^ 64 *
              (chunks_value (mul_carry_prop ps ((carry + 1 + p) / 2 ^ 64)).1 +
                (mul_carry_prop ps ((carry + 1 + p) / 2 ^ 64)).2 *
                  2 ^ (64 * ps.length)) := by ring
        rw [lhs_eq, ih3]
        have hc : (carry + 1 + p) % 2 ^ 64 + 2 ^ 64 *
            (chunks_value ps + (carry + 1 + p) / 2 ^ 64) =
            (carry + 1 + p) % 2 ^ 64 + 2 ^ 64 * ((carry + 1 + p) / 2 ^ 64) +
              2 ^ 64 * chunks_value ps := by ring
        rw [hc]
        omega

/-- `long_multiply a b product` adds `value a * b` into `product` exactly
whenever the result fits the buffer; in that case the final carry is zero, so
the `expect("carry overflow")` panic cannot fire. -/
theorem long_multiply_spec {a product : List Nat} (b : Nat)
    (hlen : a.length ≤ product.length) (hpd : ∀ x ∈ product, x < 2 ^ 64)
    (hfit : chunks_value product + chunks_value a * b < 2 ^ (64 * product.length)) :
    (long_multiply a b product).length = product.length ∧
      (∀ x ∈ long_multiply a b product, x < 2 ^ 64) ∧
      chunks_value (long_multiply a b product) =
        chunks_value product + chunks_value a * b := by
  by_cases hb : b = 0
  · subst hb
    have hred : long_multiply a 0 product = product := by rw [long_multiply]; simp
    rw [hred]
    exact ⟨rfl, hpd, by ring⟩
  · have hred : long_multiply a b product =
        (mul_add_digits b (product.take a.length) a 0).1 ++
          (mul_carry_prop (product.drop a.length)
            (mul_add_digits b (product.take a.length) a 0).2).1 := by
      rw [long_multiply, if_neg hb]
    rw [hred]
    have htlen : (product.take a.length).length = a.length := by
      rw [List.length_take]; omega
    have hta : ∀ x ∈ product.take a.length, x < 2 ^ 64 :=
      fun x hx => hpd x (List.mem_of_mem_take hx)
    have hda : ∀ x ∈ product.drop a.length, x < 2 ^ 64 :=
      fun x hx => hpd x (List.mem_of_mem_drop hx)
    obtain ⟨l1, l2, l3⟩ := mul_add_digits_spec b (product.take a.length) a 0 htlen
    obtain ⟨h1, h2, h3⟩ := mul_carry_prop_spec (product.drop a.length)
      (mul_add_digits b (product.take a.length) a 0).2 hda
    have hlenf : ((mul_add_digits b (product.take a.length) a 0).1 ++
        (mul_carry_prop (product.drop a.length)
          (mul_add_digits b (product.take a.length) a 0).2).1).length = product.length := by
      rw [List.length_append, l1, h1, htlen, List.length_drop]
      omega
    have hdig : ∀ x ∈ (mul_add_digits b (product.take a.length) a 0).1 ++
        (mul_carry_prop (product.drop a.length)
          (mul_add_digits b (product.take a.length) a 0).2).1, x < 2 ^ 64 := by
      intro x hx
      rcases List.mem_append.mp hx with h | h
      · exact l2 x h
      · exact h2 x h
    refine ⟨hlenf, hdig, ?_⟩
    have hsplit : chunks_value product = chunks_value (product.take a.length) +
        2 ^ (64 * a.length) * chunks_value (product.drop a.length) := by
      have := chunks_value_split product a.length
      rwa [htlen] at this
    have hpowN : (2 : Nat) ^ (64 * product.length) =
        2 ^ (64 * a.length) * 2 ^ (64 * (product.drop a.length).length) := by
      rw [List.length_drop, ← pow_add, ← Nat.mul_add]
      congr 1
      omega
    have hval : chunks_value ((mul_add_digits b (product.take a.length) a 0).1 ++
        (mul_carry_prop (product.drop a.length)
          (mul_add_digits b (product.take a.length) a 0).2).1) +
        (mul_carry_prop (product.drop a.length)
          (mul_add_digits b (product.take a.length) a 0).2).2 * 2 ^ (64 * product.length) =
        chunks_value product + chunks_value a * b := by
      rw [chunks_value_append, l1, htlen, hsplit, hpowN]
      have e1 : chunks_value (mul_add_digits b (product.take a.length) a 0).1 +
          2 ^ (64 * a.length) * chunks_value (mul_carry_prop (product.drop a.length)
            (mul_add_digits b (product.take a.length) a 0).2).1 +
          (mul_carry_prop (product.drop a.length)
            (mul_add_digits b (product.take a.length) a 0).2).2 *
            (2 ^ (64 * a.length) * 2 ^ (64 * (product.drop a.length).length)) =
          chunks_value (mul_add_digits b (product.take a.length) a 0).1 +
            2 ^ (64 * a.length) * (chunks_value (mul_carry_prop (product.drop a.length)
              (mul_add_digits b (product.take a.length) a 0).2).1 +
              (mul_carry_prop (product.drop a.length)
                (mul_add_digits b (product.take a.length) a 0).2).2 *
                2 ^ (64 * (product.drop a.length).length)) := by ring
      rw [htlen] at l3
      rw [e1, h3]
      have e2 : chunks_value (mul_add_digits b (product.take a.length) a 0).1 +
          2 ^ (64 * a.length) * (chunks_value (product.drop a.length) +
            (mul_add_digits b (product.take a.length) a 0).2) =
          chunks_value (mul_add_digits b (product.take a.length) a 0).1 +
            (mul_add_digits b (product.take a.length) a 0).2 * 2 ^ (64 * a.length) +
            2 ^ (64 * a.length) * chunks_value (product.drop a.length) := by ring
      rw [e2, l3]
      ring
    have hcout : (mul_carry_prop (product.drop a.length)
        (mul_add_digits b (product.take a.length) a 0).2).2 = 0 := by
      by_contra hc
      have h1c : 1 ≤ (mul_carry_prop (product.drop a.length)
          (mul_add_digits b (product.take a.length) a 0).2).2 := Nat.pos_of_ne_zero hc
      have : 2 ^ (64 * product.length) ≤ (mul_carry_prop (product.drop a.length)
          (mul_add_digits b (product.take a.length) a 0).2).2 * 2 ^ (64 * product.length) :=
        Nat.le_mul_of_pos_left _ h1c
      omega
    rw [hcout] at hval
    omega

/-! ### Correctness of the preshifted 128-by-64 division -/

/-- The correction loop never increases the guess. -/
theorem quotient_correction_le (num d : Nat) : ∀ (g p : Nat),
    (quotient_correction num d g p).1 ≤ g := by
  intro g
  induction g with
  | zero => intro p; simp [quotient_correction]
  | succ g ih =>
    intro p
    rw [quotient_correction]
    split
    · exact le_trans (ih _) (Nat.le_succ g)
    · exact Nat.le_refl _

/-- The guess `min (a / (dv / 2^32)) U32_MAX` taken from the top 32 divisor
bits is at least the true quotient of `a * 2^32 + c` by `dv`, so the
correction loop lands exactly on that quotient (`dv` normalized, `a < dv`). -/
theorem guess_correction_exact {dv : Nat} (h63 : 2 ^ 63 ≤ dv) (h64 : dv < 2 ^ 64)
    {a c : Nat} (ha : a < dv) (hc : c < 2 ^ 32) :
    quotient_correction (a * 2 ^ 32 + c) dv (min (a / (dv / 2 ^ 32)) U32_MAX)
        (min (a / (dv / 2 ^ 32)) U32_MAX * dv) =
      ((a * 2 ^ 32 + c) / dv, (a * 2 ^ 32 + c) / dv * dv) := by
  have hdvpos : 0 < dv := by omega
  apply quotient_correction_ge _ hdvpos
  refine le_min ?_ ?_
  · have h1 : dv / 2 ^ 32 * 2 ^ 32 ≤ dv := by
      have h2 := Nat.div_add_mod dv (2 ^ 32)
      omega
    have hpos2 : 0 < dv / 2 ^ 32 * 2 ^ 32 := by
      have : (2 : Nat) ^ 32 ≤ dv := le_trans (by norm_num) h63
      have := Nat.div_pos this (show 0 < 2 ^ 32 by norm_num)
      positivity
    calc (a * 2 ^ 32 + c) / dv
        ≤ (a * 2 ^ 32 + c) / (dv / 2 ^ 32 * 2 ^ 32) := Nat.div_le_div_left h1 hpos2
      _ = (a * 2 ^ 32 + c) / 2 ^ 32 / (dv / 2 ^ 32) := by
          rw [Nat.div_div_eq_div_mul, Nat.mul_comm ((2:Nat) ^ 32) (dv / 2 ^ 32)]
      _ = a / (dv / 2 ^ 32) := by
          congr 1
          rw [Nat.add_comm, Nat.add_mul_div_right _ _ (show (0:Nat) < 2 ^ 32 by norm_num),
            Nat.div_eq_of_lt hc, Nat.zero_add]
  · have h3 : a + 1 ≤ dv := ha
    have h4 : (a + 1) * 2 ^ 32 ≤ dv * 2 ^ 32 := Nat.mul_le_mul_right _ h3
    have h5 : (a + 1) * 2 ^ 32 = a * 2 ^ 32 + 2 ^ 32 := by ring
    have h6 : dv * 2 ^ 32 = 2 ^ 32 * dv := by ring
    have h2 : a * 2 ^ 32 + c < 2 ^ 32 * dv := by omega
    have := (Nat.div_lt_iff_lt_mul hdvpos).mpr h2
    rw [U32_MAX]
    omega

/-- `divide_128_by_64_preshifted` is exact division whenever the divisor is
normalized (`2^63 ≤ dv < 2^64`) and the upper numerator half is below the
divisor (so the quotient fits 64 bits). -/
theorem divide_128_by_64_preshifted_eq {dv n_hi n_lo : Nat} (h63 : 2 ^ 63 ≤ dv)
    (h64 : dv < 2 ^ 64) (hhi : n_hi < dv) (hlo : n_lo < 2 ^ 64) :
    divide_128_by_64_preshifted n_hi n_lo dv = (n_hi * 2 ^ 64 + n_lo) / dv := by
  have hdvpos : 0 < dv := by omega
  have hdh : dv >>> 32 = dv / 2 ^ 32 := Nat.shiftRight_eq_div_pow dv 32
  have hnmid : n_lo >>> 32 = n_lo / 2 ^ 32 := Nat.shiftRight_eq_div_pow n_lo 32
  have hmidlt : n_lo / 2 ^ 32 < 2 ^ 32 := by
    rw [Nat.div_lt_iff_lt_mul (show (0:Nat) < 2 ^ 32 by norm_num)]
    have : (2:Nat) ^ 32 * 2 ^ 32 = 2 ^ 64 := by norm_num
    omega
  have hU : (n_hi <<< 32) ||| (n_lo >>> 32) = n_hi * 2 ^ 32 + n_lo / 2 ^ 32 := by
    rw [hnmid]; exact shiftLeft_or_eq_add n_hi hmidlt
  have hred : divide_128_by_64_preshifted n_hi n_lo dv =
      ((quotient_correction ((n_hi <<< 32) ||| (n_lo >>> 32)) dv
          (min (n_hi / (dv >>> 32)) U32_MAX)
          (min (n_hi / (dv >>> 32)) U32_MAX * dv)).1 <<< 32) |||
        (quotient_correction
            (((((n_hi <<< 32) ||| (n_lo >>> 32)) -
              (quotient_correction ((n_hi <<< 32) ||| (n_lo >>> 32)) dv
                (min (n_hi / (dv >>> 32)) U32_MAX)
                (min (n_hi / (dv >>> 32)) U32_MAX * dv)).2) <<< 32) ||| (n_lo % 2 ^ 32)) dv
            (min ((((n_hi <<< 32) ||| (n_lo >>> 32)) -
              (quotient_correction ((n_hi <<< 32) ||| (n_lo >>> 32)) dv
                (min (n_hi / (dv >>> 32)) U32_MAX)
                (min (n_hi / (dv >>> 32)) U32_MAX * dv)).2) % 2 ^ 64 / (dv >>> 32)) U32_MAX)
            (min ((((n_hi <<< 32) ||| (n_lo >>> 32)) -
              (quotient_correction ((n_hi <<< 32) ||| (n_lo >>> 32)) dv
                (min (n_hi / (dv >>> 32)) U32_MAX)
                (min (n_hi / (dv >>> 32)) U32_MAX * dv)).2) % 2 ^ 64 / (dv >>> 32)) U32_MAX
              * dv)).1 := rfl
  rw [hred, hdh, hU, guess_correction_exact h63 h64 hhi hmidlt]
  have p1 : ((n_hi * 2 ^ 32 + n_lo / 2 ^ 32) / dv,
      (n_hi * 2 ^ 32 + n_lo / 2 ^ 32) / dv * dv).1 = (n_hi * 2 ^ 32 + n_lo / 2 ^ 32) / dv := rfl
  have p2 : ((n_hi * 2 ^ 32 + n_lo / 2 ^ 32) / dv,
      (n_hi * 2 ^ 32 + n_lo / 2 ^ 32) / dv * dv).2 =
      (n_hi * 2 ^ 32 + n_lo / 2 ^ 32) / dv * dv := rfl
  rw [p1, p2]
  have hr1 : n_hi * 2 ^ 32 + n_lo / 2 ^ 32 -
      (n_hi * 2 ^ 32 + n_lo / 2 ^ 32) / dv * dv = (n_hi * 2 ^ 32 + n_lo / 2 ^ 32) % dv := by
    have hdm := Nat.div_add_mod (n_hi * 2 ^ 32 + n_lo / 2 ^ 32) dv
    have hcm : (n_hi * 2 ^ 32 + n_lo / 2 ^ 32) / dv * dv =
        dv * ((n_hi * 2 ^ 32 + n_lo / 2 ^ 32) / dv) := Nat.mul_comm _ _
    omega
  rw [hr1]
  have hr1lt : (n_hi * 2 ^ 32 + n_lo / 2 ^ 32) % dv < dv := Nat.mod_lt _ hdvpos
  have hmod64 : (n_hi * 2 ^ 32 + n_lo / 2 ^ 32) % dv % 2 ^ 64 =
      (n_hi * 2 ^ 32 + n_lo / 2 ^ 32) % dv := Nat.mod_eq_of_lt (by omega)
  rw [hmod64]
  have hc2 : n_lo % 2 ^ 32 < 2 ^ 32 := Nat.mod_lt _ (by norm_num)
  have hLw : (((n_hi * 2 ^ 32 + n_lo / 2 ^ 32) % dv) <<< 32) ||| (n_lo % 2 ^ 32) =
      (n_hi * 2 ^ 32 + n_lo / 2 ^ 32) % dv * 2 ^ 32 + n_lo % 2 ^ 32 :=
    shiftLeft_or_eq_add _ hc2
  rw [hLw, guess_correction_exact h63 h64 hr1lt hc2]
  have p3 : (((n_hi * 2 ^ 32 + n_lo / 2 ^ 32) % dv * 2 ^ 32 + n_lo % 2 ^ 32) / dv,
      ((n_hi * 2 ^ 32 + n_lo / 2 ^ 32) % dv * 2 ^ 32 + n_lo % 2 ^ 32) / dv * dv).1 =
      ((n_hi * 2 ^ 32 + n_lo / 2 ^ 32) % dv * 2 ^ 32 + n_lo % 2 ^ 32) / dv := rfl
  rw [p3]
  have hqlo_lt : ((n_hi * 2 ^ 32 + n_lo / 2 ^ 32) % dv * 2 ^ 32 + n_lo % 2 ^ 32) / dv
      < 2 ^ 32 := digit_div_lt _ _ 32 hdvpos hc2
  rw [shiftLeft_or_eq_add _ hqlo_lt]
  have hN : n_hi * 2 ^ 64 + n_lo =
      (n_hi * 2 ^ 32 + n_lo / 2 ^ 32) * 2 ^ 32 + n_lo % 2 ^ 32 := by
    have hdm := Nat.div_add_mod n_lo (2 ^ 32)
    have hexp : (n_hi * 2 ^ 32 + n_lo / 2 ^ 32) * 2 ^ 32 =
        n_hi * 2 ^ 64 + n_lo / 2 ^ 32 * 2 ^ 32 := by ring
    omega
  rw [hN]
  conv_rhs => rw [digit_div _ _ 32 hdvpos]

/-- Bitwise-or of a shifted product with a small value is addition. -/
theorem mul_or_eq_add {b k : Nat} (a : Nat) (h : b < 2 ^ k) :
    a * 2 ^ k ||| b = a * 2 ^ k + b := by
  conv_lhs => rw [← Nat.shiftLeft_eq]
  exact shiftLeft_or_eq_add a h

/-- `divide_128_max_by_64` computes `(2^128 - 1) / d` exactly for every
non-zero 64-bit divisor. -/
theorem divide_128_max_by_64_eq {d : Nat} (hd : 0 < d) (hdw : d < 2 ^ 64) :
    divide_128_max_by_64 d = (2 ^ 128 - 1) / d := by
  obtain ⟨hb1, hb2, hb3⟩ := bit_length_fuel_spec (f := 64) hdw
  have hb2 := hb2 hd
  have hu32v : U32_MAX = 2 ^ 32 - 1 := rfl
  have hu64v : U64_MAX = 2 ^ 64 - 1 := rfl
  have hrr : U64_MAX - U64_MAX / d * d = U64_MAX % d := by
    have hdm := Nat.div_add_mod U64_MAX d
    have hcm : U64_MAX / d * d = d * (U64_MAX / d) := Nat.mul_comm _ _
    omega
  have hrlt : U64_MAX % d < d := Nat.mod_lt _ hd
  have hM : (2 : Nat) ^ 128 - 1 = U64_MAX * 2 ^ 64 + U64_MAX := by norm_num [U64_MAX]
  have hred : divide_128_max_by_64 d =
      ((U64_MAX / d) <<< 64) |||
        (if 32 ≤ leading_zeros_fuel 64 d then
          ((((((U64_MAX - U64_MAX / d * d) <<< 32) % 2 ^ 64 ||| U32_MAX) / d) <<< 32) % 2 ^ 64) |||
            (((((((U64_MAX - U64_MAX / d * d) <<< 32) % 2 ^ 64 ||| U32_MAX) -
              ((((U64_MAX - U64_MAX / d * d) <<< 32) % 2 ^ 64 ||| U32_MAX) / d) * d) <<< 32)
                % 2 ^ 64 ||| U32_MAX) / d)
        else
          divide_128_by_64_preshifted
            (if 0 < leading_zeros_fuel 64 d then
              (((U64_MAX - U64_MAX / d * d) <<< leading_zeros_fuel 64 d) % 2 ^ 64) |||
                (U64_MAX >>> (64 - leading_zeros_fuel 64 d))
            else U64_MAX - U64_MAX / d * d)
            ((U64_MAX <<< leading_zeros_fuel 64 d) % 2 ^ 64)
            ((d <<< leading_zeros_fuel 64 d) % 2 ^ 64)) := rfl
  rw [hred, hrr, hM]
  conv_rhs => rw [digit_div U64_MAX U64_MAX 64 hd]
  by_cases hcase : 32 ≤ leading_zeros_fuel 64 d
  · -- small divisor: three native divisions
    have hbl32 : bit_length_fuel 64 d ≤ 32 := by
      rw [leading_zeros_fuel] at hcase
      omega
    have hd32 : d < 2 ^ 32 :=
      lt_of_lt_of_le hb1 (Nat.pow_le_pow_right (by norm_num) hbl32)
    rw [if_pos hcase]
    have hs1 : ((U64_MAX % d) <<< 32) % 2 ^ 64 = U64_MAX % d * 2 ^ 32 := by
      rw [Nat.shiftLeft_eq]
      exact Nat.mod_eq_of_lt (by omega)
    rw [hs1]
    have hu32 : U32_MAX < 2 ^ 32 := by omega
    rw [mul_or_eq_add _ hu32]
    have hqmidlt : (U64_MAX % d * 2 ^ 32 + U32_MAX) / d < 2 ^ 32 :=
      digit_div_lt U64_MAX U32_MAX 32 hd hu32
    have hrm : U64_MAX % d * 2 ^ 32 + U32_MAX -
        (U64_MAX % d * 2 ^ 32 + U32_MAX) / d * d =
        (U64_MAX % d * 2 ^ 32 + U32_MAX) % d := by
      have hdm := Nat.div_add_mod (U64_MAX % d * 2 ^ 32 + U32_MAX) d
      have hcm : (U64_MAX % d * 2 ^ 32 + U32_MAX) / d * d =
          d * ((U64_MAX % d * 2 ^ 32 + U32_MAX) / d) := Nat.mul_comm _ _
      omega
    rw [hrm]
    have hrmlt : (U64_MAX % d * 2 ^ 32 + U32_MAX) % d < d := Nat.mod_lt _ hd
    have hs2 : (((U64_MAX % d * 2 ^ 32 + U32_MAX) % d) <<< 32) % 2 ^ 64 =
        (U64_MAX % d * 2 ^ 32 + U32_MAX) % d * 2 ^ 32 := by
      rw [Nat.shiftLeft_eq]
      exact Nat.mod_eq_of_lt (by omega)
    rw [hs2, mul_or_eq_add _ hu32]
    have hqlo2lt : ((U64_MAX % d * 2 ^ 32 + U32_MAX) % d * 2 ^ 32 + U32_MAX) / d < 2 ^ 32 :=
      digit_div_lt (U64_MAX % d * 2 ^ 32 + U32_MAX) U32_MAX 32 hd hu32
    have hs3 : (((U64_MAX % d * 2 ^ 32 + U32_MAX) / d) <<< 32) % 2 ^ 64 =
        (U64_MAX % d * 2 ^ 32 + U32_MAX) / d * 2 ^ 32 := by
      rw [Nat.shiftLeft_eq]
      exact Nat.mod_eq_of_lt (by omega)
    rw [hs3, mul_or_eq_add _ hqlo2lt]
    have hqlolt : (U64_MAX % d * 2 ^ 32 + U32_MAX) / d * 2 ^ 32 +
        ((U64_MAX % d * 2 ^ 32 + U32_MAX) % d * 2 ^ 32 + U32_MAX) / d < 2 ^ 64 := by omega
    have hsplit64 : U64_MAX % d * 2 ^ 64 + U64_MAX =
        (U64_MAX % d * 2 ^ 32 + U32_MAX) * 2 ^ 32 + U32_MAX := by
      have he : (U64_MAX % d * 2 ^ 32 + U32_MAX) * 2 ^ 32 =
          U64_MAX % d * 2 ^ 64 + U32_MAX * 2 ^ 32 := by
        have h2 : (2:Nat) ^ 32 * 2 ^ 32 = 2 ^ 64 := by norm_num
        rw [Nat.add_mul, Nat.mul_assoc, h2]
      omega
    rw [shiftLeft_or_eq_add _ hqlolt, hsplit64,
      digit_div (U64_MAX % d * 2 ^ 32 + U32_MAX) U32_MAX 32 hd]
  · -- large divisor: normalize and call the preshifted division
    have hbl33 : 33 ≤ bit_length_fuel 64 d := by
      rw [leading_zeros_fuel] at hcase
      by_contra hcon
      push_neg at hcon
      omega
    rw [if_neg hcase]
    set s := leading_zeros_fuel 64 d with hs_def
    have hs_eq : s = 64 - bit_length_fuel 64 d := by rw [hs_def, leading_zeros_fuel]
    have hs31 : s ≤ 31 := by omega
    have hsbl : bit_length_fuel 64 d = 64 - s := by omega
    have hpows : (2:Nat) ^ (64 - s) * 2 ^ s = 2 ^ 64 := by
      rw [← pow_add]
      congr 1
      omega
    have hpows2 : (2:Nat) ^ s * 2 ^ (64 - s) = 2 ^ 64 := by
      rw [Nat.mul_comm]
      exact hpows
    have hpow_le : (2:Nat) ^ s ≤ 2 ^ 63 := Nat.pow_le_pow_right (by norm_num) (by omega)
    have hppos : (0:Nat) < 2 ^ s := Nat.two_pow_pos s
    have hdlow : 2 ^ 63 ≤ d * 2 ^ s := by
      have h1 : (2 : Nat) ^ (64 - s) ≤ 2 * d := by rw [← hsbl]; exact hb2
      have h3 : (2:Nat) ^ 64 ≤ 2 * d * 2 ^ s := by
        calc (2 : Nat) ^ 64 = 2 ^ (64 - s) * 2 ^ s := hpows.symm
          _ ≤ 2 * d * 2 ^ s := Nat.mul_le_mul_right _ h1
      have h4 : 2 * d * 2 ^ s = 2 * (d * 2 ^ s) := by ring
      omega
    have hdhigh : d * 2 ^ s < 2 ^ 64 := by
      have h1 : d < 2 ^ (64 - s) := by rw [← hsbl]; exact hb1
      calc d * 2 ^ s < 2 ^ (64 - s) * 2 ^ s :=
            Nat.mul_lt_mul_of_lt_of_le h1 (le_refl _) hppos
        _ = 2 ^ 64 := hpows
    have hdv : (d <<< s) % 2 ^ 64 = d * 2 ^ s := by
      rw [Nat.shiftLeft_eq]
      exact Nat.mod_eq_of_lt hdhigh
    have hnlo : (U64_MAX <<< s) % 2 ^ 64 = 2 ^ 64 - 2 ^ s := by
      rw [Nat.shiftLeft_eq]
      have h1 : U64_MAX * 2 ^ s = (2 ^ 64 - 2 ^ s) + 2 ^ 64 * (2 ^ s - 1) := by
        rw [hu64v]
        have e1 : ((2:Nat) ^ 64 - 1) * 2 ^ s = 2 ^ 64 * 2 ^ s - 2 ^ s := by
          rw [Nat.sub_one_mul]
        have e2 : (2:Nat) ^ 64 * (2 ^ s - 1) = 2 ^ 64 * 2 ^ s - 2 ^ 64 := by
          rw [Nat.mul_sub_one]
        have e3 : (2:Nat) ^ 64 ≤ 2 ^ 64 * 2 ^ s := Nat.le_mul_of_pos_right _ hppos
        have e4 : (2:Nat) ^ s ≤ 2 ^ 64 * 2 ^ s := Nat.le_mul_of_pos_left _ (by norm_num)
        omega
      rw [h1, Nat.add_mul_mod_self_left]
      exact Nat.mod_eq_of_lt (by omega)
    have hnlolt : 2 ^ 64 - 2 ^ s < 2 ^ 64 := by omega
    have hqlo64 : (U64_MAX % d * 2 ^ 64 + U64_MAX) / d < 2 ^ 64 :=
      digit_div_lt U64_MAX U64_MAX 64 hd (by omega)
    by_cases hspos : 0 < s
    · rw [if_pos hspos]
      have hshr : U64_MAX >>> (64 - s) = 2 ^ s - 1 := by
        rw [Nat.shiftRight_eq_div_pow, hu64v]
        apply Nat.div_eq_of_lt_le
        · have e2 : ((2:Nat) ^ s - 1) * 2 ^ (64 - s) = 2 ^ s * 2 ^ (64 - s) - 2 ^ (64 - s) := by
            rw [Nat.sub_one_mul]
          have e4 : (2 : Nat) ^ (64 - s) ≤ 2 ^ 64 := Nat.pow_le_pow_right (by norm_num) (by omega)
          have e5 : (1:Nat) ≤ 2 ^ (64 - s) := Nat.one_le_two_pow
          omega
        · have e6 : ((2:Nat) ^ s - 1 + 1) * 2 ^ (64 - s) = 2 ^ s * 2 ^ (64 - s) := by
            congr 1
            omega
          rw [e6, hpows2]
          omega
      have hsh : ((U64_MAX % d) <<< s) % 2 ^ 64 = U64_MAX % d * 2 ^ s := by
        rw [Nat.shiftLeft_eq]
        refine Nat.mod_eq_of_lt ?_
        calc U64_MAX % d * 2 ^ s < d * 2 ^ s :=
              Nat.mul_lt_mul_of_lt_of_le hrlt (le_refl _) hppos
          _ < 2 ^ 64 := hdhigh
      rw [hshr, hsh, mul_or_eq_add _ (by omega), hdv, hnlo]
      have hnhi_lt : U64_MAX % d * 2 ^ s + (2 ^ s - 1) < d * 2 ^ s := by
        have h1 : U64_MAX % d + 1 ≤ d := hrlt
        have h2 : (U64_MAX % d + 1) * 2 ^ s ≤ d * 2 ^ s := Nat.mul_le_mul_right _ h1
        have h3 : (U64_MAX % d + 1) * 2 ^ s = U64_MAX % d * 2 ^ s + 2 ^ s := by ring
        omega
      rw [divide_128_by_64_preshifted_eq hdlow hdhigh hnhi_lt hnlolt]
      have hNval : (U64_MAX % d * 2 ^ s + (2 ^ s - 1)) * 2 ^ 64 + (2 ^ 64 - 2 ^ s) =
          2 ^ s * (U64_MAX % d * 2 ^ 64 + U64_MAX) := by
        have e1 : (U64_MAX % d * 2 ^ s + (2 ^ s - 1)) * 2 ^ 64 =
            U64_MAX % d * 2 ^ s * 2 ^ 64 + (2 ^ s - 1) * 2 ^ 64 := by ring
        have e2 : ((2:Nat) ^ s - 1) * 2 ^ 64 = 2 ^ s * 2 ^ 64 - 2 ^ 64 := by
          rw [Nat.sub_one_mul]
        have e3 : 2 ^ s * (U64_MAX % d * 2 ^ 64 + U64_MAX) =
            U64_MAX % d * 2 ^ s * 2 ^ 64 + 2 ^ s * U64_MAX := by ring
        have e4 : (2:Nat) ^ s * U64_MAX = 2 ^ s * 2 ^ 64 - 2 ^ s := by
          rw [hu64v]
          omega
        have e5 : (2:Nat) ^ 64 ≤ 2 ^ s * 2 ^ 64 := Nat.le_mul_of_pos_left _ hppos
        have e6 : (2:Nat) ^ s ≤ 2 ^ s * 2 ^ 64 := Nat.le_mul_of_pos_right _ (by norm_num)
        have e7 : (2:Nat) ^ s ≤ 2 ^ 64 := Nat.pow_le_pow_right (by norm_num) (by omega)
        omega
      rw [hNval, Nat.mul_comm d (2 ^ s), Nat.mul_div_mul_left _ _ hppos]
      rw [shiftLeft_or_eq_add _ hqlo64]
    · have hs0 : s = 0 := by omega
      rw [if_neg hspos, hs0]
      have hd0 : (d <<< 0) % 2 ^ 64 = d := by
        simpa using Nat.mod_eq_of_lt hdw
      have hn0 : (U64_MAX <<< 0) % 2 ^ 64 = U64_MAX := by
        norm_num [U64_MAX]
      rw [hd0, hn0]
      have hdlow0 : 2 ^ 63 ≤ d := by
        have := hdlow
        rw [hs0] at this
        simpa using this
      have hu64lt : U64_MAX < 2 ^ 64 := by omega
      rw [divide_128_by_64_preshifted_eq hdlow0 hdw hrlt hu64lt]
      rw [shiftLeft_or_eq_add _ hqlo64]

/-! ### Correctness of width 64 -/

/-- `make` keeps the divisor (width 64). -/
theorem SRU64_make_divisor (d : Nat) : (StrengthReducedU64.make d).divisor = d := by
  rw [StrengthReducedU64.make]
  split <;> rfl

/-- The multiplier stored for width 64: zero exactly on powers of two,
otherwise `divide_128_max_by_64 d + 1 = (2^128 - 1) / d + 1`. -/
theorem SRU64_multiplier_spec {d : Nat} (hd : 0 < d) (hdw : d < 2 ^ 64) :
    ((∃ k, d = 2 ^ k) → (StrengthReducedU64.make d).multiplier = 0) ∧
      (¬(∃ k, d = 2 ^ k) → (StrengthReducedU64.make d).multiplier = (2 ^ 128 - 1) / d + 1) := by
  constructor
  · intro hex
    rw [StrengthReducedU64.make, if_pos ((is_power_of_two_fuel_iff hd hdw).mpr hex)]
  · intro hnp
    rw [StrengthReducedU64.make, if_neg (fun hp => hnp ((is_power_of_two_fuel_iff hd hdw).mp hp))]
    show divide_128_max_by_64 d + 1 = (2 ^ 128 - 1) / d + 1
    rw [divide_128_max_by_64_eq hd hdw]

/-- Width-64 reduced division is exact. -/
theorem SRU64_div_make {d n : Nat} (hd : 0 < d) (hdw : d < 2 ^ 64) (hn : n < 2 ^ 64) :
    StrengthReducedU64.div n (StrengthReducedU64.make d) = n / d := by
  by_cases hp : is_power_of_two_fuel 64 d
  · obtain ⟨k, hk_eq⟩ := (is_power_of_two_fuel_iff hd hdw).mp hp
    subst hk_eq
    have hk : k < 64 := (Nat.pow_lt_pow_iff_right (by norm_num)).mp hdw
    rw [StrengthReducedU64.make, if_pos hp, StrengthReducedU64.div]
    simp only [if_pos rfl]
    rw [trailing_zeros_fuel_pow hk, Nat.shiftRight_eq_div_pow]
    simp
  · have hnp : ¬∃ j, d = 2 ^ j := fun hex => hp ((is_power_of_two_fuel_iff hd hdw).mpr hex)
    have hmul : (StrengthReducedU64.make d).multiplier = (2 ^ 128 - 1) / d + 1 :=
      (SRU64_multiplier_spec hd hdw).2 hnp
    have hnz : (StrengthReducedU64.make d).multiplier ≠ 0 := by
      rw [hmul]; exact Nat.succ_ne_zero _
    rw [StrengthReducedU64.div, if_neg hnz, hmul]
    have hm128 : (2 ^ 128 - 1) / d + 1 = (2 ^ (2 * 64) - 1) / d + 1 := by norm_num
    rw [hm128, show (2 : Nat) ^ 128 = 2 ^ (2 * 64) from by norm_num]
    simp only [Nat.shiftRight_eq_div_pow]
    rw [mulhi_formula 64 hd hnp hdw hn rfl]
    exact Nat.mod_eq_of_lt (lt_of_le_of_lt (Nat.div_le_self _ _) hn)

/-- Width-64 reduced modulo is exact. -/
theorem SRU64_rem_make {d n : Nat} (hd : 0 < d) (hdw : d < 2 ^ 64) (hn : n < 2 ^ 64) :
    StrengthReducedU64.rem n (StrengthReducedU64.make d) = n % d := by
  rw [StrengthReducedU64.rem]
  by_cases hp : is_power_of_two_fuel 64 d
  · obtain ⟨k, hk_eq⟩ := (is_power_of_two_fuel_iff hd hdw).mp hp
    have hz : (StrengthReducedU64.make d).multiplier = 0 :=
      (SRU64_multiplier_spec hd hdw).1 ⟨k, hk_eq⟩
    rw [if_pos hz, SRU64_make_divisor, hk_eq]
    exact Nat.and_pow_two_sub_one_eq_mod n k
  · have hnp : ¬∃ j, d = 2 ^ j := fun hex => hp ((is_power_of_two_fuel_iff hd hdw).mpr hex)
    have hnz : (StrengthReducedU64.make d).multiplier ≠ 0 := by
      rw [(SRU64_multiplier_spec hd hdw).2 hnp]
      exact Nat.succ_ne_zero _
    rw [if_neg hnz]
    show n - StrengthReducedU64.div n (StrengthReducedU64.make d) *
        (StrengthReducedU64.make d).divisor = n % d
    rw [SRU64_div_make hd hdw hn, SRU64_make_divisor]
    have hdm := Nat.div_add_mod n d
    have hmc : n / d * d = d * (n / d) := Nat.mul_comm _ _
    omega

/-- `div_rem` for width 64 is the pair of the division and modulo results. -/
theorem SRU64_div_rem_make {d n : Nat} (hd : 0 < d) (hdw : d < 2 ^ 64) (hn : n < 2 ^ 64) :
    StrengthReducedU64.div_rem n (StrengthReducedU64.make d) = (n / d, n % d) := by
  rw [StrengthReducedU64.div_rem]
  by_cases hp : is_power_of_two_fuel 64 d
  · obtain ⟨k, hk_eq⟩ := (is_power_of_two_fuel_iff hd hdw).mp hp
    have hz : (StrengthReducedU64.make d).multiplier = 0 :=
      (SRU64_multiplier_spec hd hdw).1 ⟨k, hk_eq⟩
    have hk : k < 64 := by
      rw [hk_eq] at hdw
      exact (Nat.pow_lt_pow_iff_right (by norm_num)).mp hdw
    rw [if_pos hz, SRU64_make_divisor, hk_eq, trailing_zeros_fuel_pow hk,
      Nat.shiftRight_eq_div_pow, Nat.and_pow_two_sub_one_eq_mod]
  · have hnp : ¬∃ j, d = 2 ^ j := fun hex => hp ((is_power_of_two_fuel_iff hd hdw).mpr hex)
    have hnz : (StrengthReducedU64.make d).multiplier ≠ 0 := by
      rw [(SRU64_multiplier_spec hd hdw).2 hnp]
      exact Nat.succ_ne_zero _
    rw [if_neg hnz, SRU64_make_divisor]
    have hmul : (StrengthReducedU64.make d).multiplier = (2 ^ (2 * 64) - 1) / d + 1 := by
      rw [(SRU64_multiplier_spec hd hdw).2 hnp]
    rw [hmul, show (2 : Nat) ^ 128 = 2 ^ (2 * 64) from by norm_num]
    simp only [Nat.shiftRight_eq_div_pow]
    rw [mulhi_formula 64 hd hnp hdw hn rfl]
    have hq : n / d % 2 ^ 64 = n / d :=
      Nat.mod_eq_of_lt (lt_of_le_of_lt (Nat.div_le_self _ _) hn)
    rw [hq]
    have hdm := Nat.div_add_mod n d
    have hmc : n / d * d = d * (n / d) := Nat.mul_comm _ _
    have hrem : n - n / d * d = n % d := by omega
    rw [hrem]

/-- Exactness of `divide_128_by_64_preshifted_reduced` when the strength-reduced
guess divisor is constructed from the top 32 bits of the normalized divisor. -/
theorem divide_128_by_64_preshifted_reduced_eq {dv n_hi n_lo : Nat} (h63 : 2 ^ 63 ≤ dv)
    (h64 : dv < 2 ^ 64) (hhi : n_hi < dv) (hlo : n_lo < 2 ^ 64) :
    divide_128_by_64_preshifted_reduced n_hi n_lo
        (StrengthReducedU64.make (dv >>> 32)) dv = (n_hi * 2 ^ 64 + n_lo) / dv := by
  have hdvpos : 0 < dv := by omega
  have hdh : dv >>> 32 = dv / 2 ^ 32 := Nat.shiftRight_eq_div_pow dv 32
  have hdhpos : 0 < dv >>> 32 := by
    rw [hdh]
    exact Nat.div_pos (le_trans (by norm_num) h63) (by norm_num)
  have hdhlt : dv >>> 32 < 2 ^ 64 := by
    rw [hdh]
    exact lt_of_le_of_lt (Nat.div_le_self _ _) h64
  have hnmid : n_lo >>> 32 = n_lo / 2 ^ 32 := Nat.shiftRight_eq_div_pow n_lo 32
  have hmidlt : n_lo / 2 ^ 32 < 2 ^ 32 := by
    rw [Nat.div_lt_iff_lt_mul (show (0:Nat) < 2 ^ 32 by norm_num)]
    have : (2:Nat) ^ 32 * 2 ^ 32 = 2 ^ 64 := by norm_num
    omega
  have hU : (n_hi <<< 32) ||| (n_lo >>> 32) = n_hi * 2 ^ 32 + n_lo / 2 ^ 32 := by
    rw [hnmid]; exact shiftLeft_or_eq_add n_hi hmidlt
  have hred : divide_128_by_64_preshifted_reduced n_hi n_lo
      (StrengthReducedU64.make (dv >>> 32)) dv =
      ((quotient_correction ((n_hi <<< 32) ||| (n_lo >>> 32)) dv
          (min (StrengthReducedU64.div n_hi (StrengthReducedU64.make (dv >>> 32))) U32_MAX)
          (min (StrengthReducedU64.div n_hi (StrengthReducedU64.make (dv >>> 32))) U32_MAX
            * dv)).1 <<< 32) |||
        (quotient_correction
            (((((n_hi <<< 32) ||| (n_lo >>> 32)) -
              (quotient_correction ((n_hi <<< 32) ||| (n_lo >>> 32)) dv
                (min (StrengthReducedU64.div n_hi (StrengthReducedU64.make (dv >>> 32))) U32_MAX)
                (min (StrengthReducedU64.div n_hi (StrengthReducedU64.make (dv >>> 32))) U32_MAX
                  * dv)).2) <<< 32) ||| (n_lo % 2 ^ 32)) dv
            (min (StrengthReducedU64.div
              ((((n_hi <<< 32) ||| (n_lo >>> 32)) -
                (quotient_correction ((n_hi <<< 32) ||| (n_lo >>> 32)) dv
                  (min (StrengthReducedU64.div n_hi (StrengthReducedU64.make (dv >>> 32))) U32_MAX)
                  (min (StrengthReducedU64.div n_hi (StrengthReducedU64.make (dv >>> 32))) U32_MAX
                    * dv)).2) % 2 ^ 64) (StrengthReducedU64.make (dv >>> 32))) U32_MAX)
            (min (StrengthReducedU64.div
              ((((n_hi <<< 32) ||| (n_lo >>> 32)) -
                (quotient_correction ((n_hi <<< 32) ||| (n_lo >>> 32)) dv
                  (min (StrengthReducedU64.div n_hi (StrengthReducedU64.make (dv >>> 32))) U32_MAX)
                  (min (StrengthReducedU64.div n_hi (StrengthReducedU64.make (dv >>> 32))) U32_MAX
                    * dv)).2) % 2 ^ 64) (StrengthReducedU64.make (dv >>> 32))) U32_MAX
              * dv)).1 := rfl
  have hn_hi64 : n_hi < 2 ^ 64 := lt_trans hhi h64
  rw [hred, SRU64_div_make hdhpos hdhlt hn_hi64, hdh, hU,
    guess_correction_exact h63 h64 hhi hmidlt]
  have p1 : ((n_hi * 2 ^ 32 + n_lo / 2 ^ 32) / dv,
      (n_hi * 2 ^ 32 + n_lo / 2 ^ 32) / dv * dv).1 = (n_hi * 2 ^ 32 + n_lo / 2 ^ 32) / dv := rfl
  have p2 : ((n_hi * 2 ^ 32 + n_lo / 2 ^ 32) / dv,
      (n_hi * 2 ^ 32 + n_lo / 2 ^ 32) / dv * dv).2 =
      (n_hi * 2 ^ 32 + n_lo / 2 ^ 32) / dv * dv := rfl
  rw [p1, p2]
  have hr1 : n_hi * 2 ^ 32 + n_lo / 2 ^ 32 -
      (n_hi * 2 ^ 32 + n_lo / 2 ^ 32) / dv * dv = (n_hi * 2 ^ 32 + n_lo / 2 ^ 32) % dv := by
    have hdm := Nat.div_add_mod (n_hi * 2 ^ 32 + n_lo / 2 ^ 32) dv
    have hcm : (n_hi * 2 ^ 32 + n_lo / 2 ^ 32) / dv * dv =
        dv * ((n_hi * 2 ^ 32 + n_lo / 2 ^ 32) / dv) := Nat.mul_comm _ _
    omega
  rw [hr1]
  have hr1lt : (n_hi * 2 ^ 32 + n_lo / 2 ^ 32) % dv < dv := Nat.mod_lt _ hdvpos
  have hmod64 : (n_hi * 2 ^ 32 + n_lo / 2 ^ 32) % dv % 2 ^ 64 =
      (n_hi * 2 ^ 32 + n_lo / 2 ^ 32) % dv := Nat.mod_eq_of_lt (by omega)
  have hdhpos2 : 0 < dv / 2 ^ 32 := by rw [← hdh]; exact hdhpos
  have hdhlt2 : dv / 2 ^ 32 < 2 ^ 64 := by rw [← hdh]; exact hdhlt
  rw [hmod64, SRU64_div_make hdhpos2 hdhlt2
    (by omega : (n_hi * 2 ^ 32 + n_lo / 2 ^ 32) % dv < 2 ^ 64)]
  have hc2 : n_lo % 2 ^ 32 < 2 ^ 32 := Nat.mod_lt _ (by norm_num)
  have hLw : (((n_hi * 2 ^ 32 + n_lo / 2 ^ 32) % dv) <<< 32) ||| (n_lo % 2 ^ 32) =
      (n_hi * 2 ^ 32 + n_lo / 2 ^ 32) % dv * 2 ^ 32 + n_lo % 2 ^ 32 :=
    shiftLeft_or_eq_add _ hc2
  rw [hLw, guess_correction_exact h63 h64 hr1lt hc2]
  have p3 : (((n_hi * 2 ^ 32 + n_lo / 2 ^ 32) % dv * 2 ^ 32 + n_lo % 2 ^ 32) / dv,
      ((n_hi * 2 ^ 32 + n_lo / 2 ^ 32) % dv * 2 ^ 32 + n_lo % 2 ^ 32) / dv * dv).1 =
      ((n_hi * 2 ^ 32 + n_lo / 2 ^ 32) % dv * 2 ^ 32 + n_lo % 2 ^ 32) / dv := rfl
  rw [p3]
  have hqlo_lt : ((n_hi * 2 ^ 32 + n_lo / 2 ^ 32) % dv * 2 ^ 32 + n_lo % 2 ^ 32) / dv
      < 2 ^ 32 := digit_div_lt _ _ 32 hdvpos hc2
  rw [shiftLeft_or_eq_add _ hqlo_lt]
  have hN : n_hi * 2 ^ 64 + n_lo =
      (n_hi * 2 ^ 32 + n_lo / 2 ^ 32) * 2 ^ 32 + n_lo % 2 ^ 32 := by
    have hdm := Nat.div_add_mod n_lo (2 ^ 32)
    have hexp : (n_hi * 2 ^ 32 + n_lo / 2 ^ 32) * 2 ^ 32 =
        n_hi * 2 ^ 64 + n_lo / 2 ^ 32 * 2 ^ 32 := by ring
    omega
  rw [hN]
  conv_rhs => rw [digit_div _ _ 32 hdvpos]

/-- The reduced preshifted division always returns a 64-bit value, whatever
its arguments (each 32-bit half is capped at `U32_MAX`). -/
theorem divide_128_by_64_preshifted_reduced_lt (n_hi n_lo : Nat)
    (R : StrengthReducedU64) (dv : Nat) :
    divide_128_by_64_preshifted_reduced n_hi n_lo R dv < 2 ^ 64 := by
  have hred : divide_128_by_64_preshifted_reduced n_hi n_lo R dv =
      ((quotient_correction ((n_hi <<< 32) ||| (n_lo >>> 32)) dv
          (min (StrengthReducedU64.div n_hi R) U32_MAX)
          (min (StrengthReducedU64.div n_hi R) U32_MAX * dv)).1 <<< 32) |||
        (quotient_correction
            (((((n_hi <<< 32) ||| (n_lo >>> 32)) -
              (quotient_correction ((n_hi <<< 32) ||| (n_lo >>> 32)) dv
                (min (StrengthReducedU64.div n_hi R) U32_MAX)
                (min (StrengthReducedU64.div n_hi R) U32_MAX * dv)).2) <<< 32) |||
              (n_lo % 2 ^ 32)) dv
            (min (StrengthReducedU64.div
              ((((n_hi <<< 32) ||| (n_lo >>> 32)) -
                (quotient_correction ((n_hi <<< 32) ||| (n_lo >>> 32)) dv
                  (min (StrengthReducedU64.div n_hi R) U32_MAX)
                  (min (StrengthReducedU64.div n_hi R) U32_MAX * dv)).2) % 2 ^ 64) R) U32_MAX)
            (min (StrengthReducedU64.div
              ((((n_hi <<< 32) ||| (n_lo >>> 32)) -
                (quotient_correction ((n_hi <<< 32) ||| (n_lo >>> 32)) dv
                  (min (StrengthReducedU64.div n_hi R) U32_MAX)
                  (min (StrengthReducedU64.div n_hi R) U32_MAX * dv)).2) % 2 ^ 64) R) U32_MAX
              * dv)).1 := rfl
  rw [hred]
  have h1 : (quotient_correction ((n_hi <<< 32) ||| (n_lo >>> 32)) dv
      (min (StrengthReducedU64.div n_hi R) U32_MAX)
      (min (StrengthReducedU64.div n_hi R) U32_MAX * dv)).1 ≤ U32_MAX :=
    le_trans (quotient_correction_le _ _ _ _) (min_le_right _ _)
  have h2 : (quotient_correction
      (((((n_hi <<< 32) ||| (n_lo >>> 32)) -
        (quotient_correction ((n_hi <<< 32) ||| (n_lo >>> 32)) dv
          (min (StrengthReducedU64.div n_hi R) U32_MAX)
          (min (StrengthReducedU64.div n_hi R) U32_MAX * dv)).2) <<< 32) |||
        (n_lo % 2 ^ 32)) dv
      (min (StrengthReducedU64.div
        ((((n_hi <<< 32) ||| (n_lo >>> 32)) -
          (quotient_correction ((n_hi <<< 32) ||| (n_lo >>> 32)) dv
            (min (StrengthReducedU64.div n_hi R) U32_MAX)
            (min (StrengthReducedU64.div n_hi R) U32_MAX * dv)).2) % 2 ^ 64) R) U32_MAX)
      (min (StrengthReducedU64.div
        ((((n_hi <<< 32) ||| (n_lo >>> 32)) -
          (quotient_correction ((n_hi <<< 32) ||| (n_lo >>> 32)) dv
            (min (StrengthReducedU64.div n_hi R) U32_MAX)
            (min (StrengthReducedU64.div n_hi R) U32_MAX * dv)).2) % 2 ^ 64) R) U32_MAX
        * dv)).1 ≤ U32_MAX :=
    le_trans (quotient_correction_le _ _ _ _) (min_le_right _ _)
  apply Nat.or_lt_two_pow
  · rw [Nat.shiftLeft_eq]
    have : U32_MAX * 2 ^ 32 < 2 ^ 64 := by norm_num [U32_MAX]
    have h3 := Nat.mul_le_mul_right (2 ^ 32) h1
    omega
  · have : U32_MAX < 2 ^ 64 := by norm_num [U32_MAX]
    omega

/-! ### The slice-level guess-correction loop -/

/-- The slice correction loop never increases the guessed digit. -/
theorem slice_correction_le (ds win : List Nat) : ∀ (g : Nat) (sp : List Nat),
    (slice_correction ds win g sp).1 ≤ g := by
  intro g
  induction g with
  | zero => intro sp; simp [slice_correction]
  | succ g ih =>
    intro sp
    rw [slice_correction]
    split
    · exact le_trans (ih _) (Nat.le_succ g)
    · exact Nat.le_refl _

/-- Closed form of the slice correction loop: starting from `sp = g · ds`, it
returns the largest digit at most `g` whose product fits below the window. -/
theorem slice_correction_spec (ds win : List Nat)
    (hds : ∀ x ∈ ds, x < 2 ^ 64) (hwin : ∀ x ∈ win, x < 2 ^ 64)
    (hV : 0 < chunks_value ds)
    (hdsnorm : 2 ^ (64 * (ds.length - 1)) ≤ chunks_value ds)
    (hwinlow : 2 ^ (64 * (win.length - 1)) ≤ chunks_value win) :
    ∀ (g : Nat) (sp : List Nat), chunks_value sp = g * chunks_value ds →
      sp.length ≤ win.length → (∀ x ∈ sp, x < 2 ^ 64) →
      (slice_correction ds win g sp).1 = min g (chunks_value win / chunks_value ds) := by
  intro g
  induction g with
  | zero =>
    intro sp _ _ _
    simp [slice_correction]
  | succ g ih =>
    intro sp hval hsplen hspd
    have hcmp := is_slice_greater_iff hsplen hspd hwin (fun _ => hwinlow)
    rw [slice_correction]
    by_cases hgt : is_slice_greater sp win = true
    · rw [if_pos hgt]
      have hWlt : chunks_value win < (g + 1) * chunks_value ds := by
        have := hcmp.mp hgt
        omega
      have hVle : chunks_value ds ≤ chunks_value sp := by
        rw [hval]
        exact Nat.le_mul_of_pos_left _ (Nat.succ_pos g)
      have hdsleq : ds.length ≤ sp.length := by
        have hsplt : chunks_value sp < 2 ^ (64 * sp.length) := chunks_value_lt hspd
        have h2 : (2:Nat) ^ (64 * (ds.length - 1)) < 2 ^ (64 * sp.length) := by omega
        have h3 := (Nat.pow_lt_pow_iff_right (a := 2) (by omega)).mp h2
        omega
      obtain ⟨s1, s2, s3⟩ := sub_assign_spec hdsleq hspd hds hVle
      have hsubval : chunks_value (sub_assign sp ds) = g * chunks_value ds := by
        rw [s3, hval]
        have : (g + 1) * chunks_value ds = g * chunks_value ds + chunks_value ds := by ring
        omega
      have := ih (sub_assign sp ds) hsubval (by omega) s2
      rw [this]
      have hdivlt : chunks_value win / chunks_value ds < g + 1 := by
        rw [Nat.div_lt_iff_lt_mul hV]
        omega
      omega
    · rw [if_neg hgt]
      have hWge : chunks_value sp ≤ chunks_value win := by
        by_contra hcon
        push_neg at hcon
        exact hgt (hcmp.mpr hcon)
      have hge : g + 1 ≤ chunks_value win / chunks_value ds := by
        rw [Nat.le_div_iff_mul_le hV]
        omega
      show (g + 1, sp).1 = min (g + 1) (chunks_value win / chunks_value ds)
      have p1 : ((g + 1, sp) : Nat × List Nat).1 = g + 1 := rfl
      rw [p1]
      omega

/-! ### Digit bounds through the 256-bit division loop -/

/-- `U64_MAX >>> (64 - s)` keeps the `s` low bits set. -/
theorem U64_MAX_shr {s : Nat} (h1 : 0 < s) (h2 : s ≤ 63) :
    U64_MAX >>> (64 - s) = 2 ^ s - 1 := by
  have hu64v : U64_MAX = 2 ^ 64 - 1 := rfl
  have hpows2 : (2:Nat) ^ s * 2 ^ (64 - s) = 2 ^ 64 := by
    rw [← pow_add]
    congr 1
    omega
  rw [Nat.shiftRight_eq_div_pow, hu64v]
  apply Nat.div_eq_of_lt_le
  · have e2 : ((2:Nat) ^ s - 1) * 2 ^ (64 - s) = 2 ^ s * 2 ^ (64 - s) - 2 ^ (64 - s) := by
      rw [Nat.sub_one_mul]
    have e4 : (2 : Nat) ^ (64 - s) ≤ 2 ^ 64 := Nat.pow_le_pow_right (by norm_num) (by omega)
    have e5 : (1:Nat) ≤ 2 ^ (64 - s) := Nat.one_le_two_pow
    omega
  · have e6 : ((2:Nat) ^ s - 1 + 1) * 2 ^ (64 - s) = 2 ^ s * 2 ^ (64 - s) := by
      congr 1
      have : (0:Nat) < 2 ^ s := Nat.two_pow_pos s
      omega
    rw [e6, hpows2]
    omega

/-- The `u64` reduced division cannot overflow a 64-bit result. -/
theorem SRU64_div_lt {n : Nat} (r : StrengthReducedU64) (hn : n < 2 ^ 64) :
    StrengthReducedU64.div n r < 2 ^ 64 := by
  rw [StrengthReducedU64.div]
  by_cases hz : r.multiplier = 0
  · rw [if_pos hz]
    rw [Nat.shiftRight_eq_div_pow]
    exact lt_of_le_of_lt (Nat.div_le_self _ _) hn
  · rw [if_neg hz]
    show (((n * (r.multiplier >>> 64)) % 2 ^ 128 +
        ((n * (r.multiplier % 2 ^ 64)) % 2 ^ 128) >>> 64) % 2 ^ 128) >>> 64 % 2 ^ 64 < 2 ^ 64
    exact Nat.mod_lt _ (by norm_num)

/-- The quotient half of a `u64` `div_rem` is below `2^64`. -/
theorem SRU64_div_rem_fst_lt {n : Nat} (r : StrengthReducedU64) (hn : n < 2 ^ 64) :
    (StrengthReducedU64.div_rem n r).1 < 2 ^ 64 := by
  rw [StrengthReducedU64.div_rem]
  by_cases hz : r.multiplier = 0
  · rw [if_pos hz]
    show n >>> trailing_zeros_fuel 64 r.divisor < 2 ^ 64
    rw [Nat.shiftRight_eq_div_pow]
    exact lt_of_le_of_lt (Nat.div_le_self _ _) hn
  · rw [if_neg hz]
    show (((n * (r.multiplier >>> 64)) % 2 ^ 128 +
        ((n * (r.multiplier % 2 ^ 64)) % 2 ^ 128) >>> 64) % 2 ^ 128) >>> 64 % 2 ^ 64 < 2 ^ 64
    exact Nat.mod_lt _ (by norm_num)

/-- The remainder half of a `u64` `div_rem` never exceeds the numerator. -/
theorem SRU64_div_rem_snd_le (n : Nat) (r : StrengthReducedU64) :
    (StrengthReducedU64.div_rem n r).2 ≤ n := by
  rw [StrengthReducedU64.div_rem]
  by_cases hz : r.multiplier = 0
  · rw [if_pos hz]
    show n &&& (r.divisor - 1) ≤ n
    exact Nat.and_le_left
  · rw [if_neg hz]
    show n - (((n * (r.multiplier >>> 64)) % 2 ^ 128 +
        ((n * (r.multiplier % 2 ^ 64)) % 2 ^ 128) >>> 64) % 2 ^ 128) >>> 64 % 2 ^ 64 *
          r.divisor ≤ n
    exact Nat.sub_le _ _

/-- `getD` of an everywhere-bounded list stays bounded. -/
theorem getD_lt_of_all {l : List Nat} (h : ∀ x ∈ l, x < 2 ^ 64) (j : Nat) :
    l.getD j 0 < 2 ^ 64 := by
  rcases Nat.lt_or_ge j l.length with hj | hj
  · rw [List.getD_eq_getElem?_getD, List.getElem?_eq_getElem hj]
    exact h _ (List.getElem_mem hj)
  · rw [List.getD_eq_default _ _ hj]
    norm_num

/-- Every quotient digit of `long_division` (most-significant-first pass) is
below `2^64`. -/
theorem long_division_msf_digits_lt (r : StrengthReducedU64) : ∀ (l : List Nat) (rem : Nat),
    (∀ x ∈ l, x < 2 ^ 64) → rem < 2 ^ 64 →
    ∀ x ∈ (long_division_msf r l rem).1, x < 2 ^ 64 := by
  intro l
  induction l with
  | nil =>
    intro rem _ _ x hx
    simp [long_division_msf] at hx
  | cons a rest ih =>
    intro rem hl hrem
    have ha := hl a (List.mem_cons_self a rest)
    have hrest : ∀ x ∈ rest, x < 2 ^ 64 := fun x hx => hl x (List.mem_cons_of_mem a hx)
    have hred : long_division_msf r (a :: rest) rem =
        if 0 < rem then
          (((((StrengthReducedU64.div_rem (((rem <<< 32) % 2 ^ 64) ||| (a >>> 32)) r).1 <<< 32)
              % 2 ^ 64) |||
            (StrengthReducedU64.div_rem
              ((((StrengthReducedU64.div_rem (((rem <<< 32) % 2 ^ 64) ||| (a >>> 32)) r).2
                <<< 32) % 2 ^ 64) ||| (a % 2 ^ 32)) r).1) ::
            (long_division_msf r rest (StrengthReducedU64.div_rem
              ((((StrengthReducedU64.div_rem (((rem <<< 32) % 2 ^ 64) ||| (a >>> 32)) r).2
                <<< 32) % 2 ^ 64) ||| (a % 2 ^ 32)) r).2).1,
            (long_division_msf r rest (StrengthReducedU64.div_rem
              ((((StrengthReducedU64.div_rem (((rem <<< 32) % 2 ^ 64) ||| (a >>> 32)) r).2
                <<< 32) % 2 ^ 64) ||| (a % 2 ^ 32)) r).2).2)
        else
          ((StrengthReducedU64.div_rem a r).1 ::
            (long_division_msf r rest (StrengthReducedU64.div_rem a r).2).1,
            (long_division_msf r rest (StrengthReducedU64.div_rem a r).2).2) := rfl
    rw [hred]
    by_cases hpos : 0 < rem
    · rw [if_pos hpos]
      intro x hx
      have hlownum : (((StrengthReducedU64.div_rem (((rem <<< 32) % 2 ^ 64) ||| (a >>> 32)) r).2
          <<< 32) % 2 ^ 64 ||| (a % 2 ^ 32)) < 2 ^ 64 := by
        apply Nat.or_lt_two_pow
        · exact Nat.mod_lt _ (by norm_num)
        · have : a % 2 ^ 32 < 2 ^ 32 := Nat.mod_lt _ (by norm_num)
          omega
      rcases List.mem_cons.mp hx with h | h
      · subst h
        apply Nat.or_lt_two_pow
        · exact Nat.mod_lt _ (by norm_num)
        · exact SRU64_div_rem_fst_lt r hlownum
      · refine ih _ hrest ?_ x h
        exact lt_of_le_of_lt (SRU64_div_rem_snd_le _ r) hlownum
    · rw [if_neg hpos]
      intro x hx
      rcases List.mem_cons.mp hx with h | h
      · subst h
        exact SRU64_div_rem_fst_lt r ha
      · exact ih _ hrest (lt_of_le_of_lt (SRU64_div_rem_snd_le a r) ha) x h

/-- The most-significant-first pass yields one digit per input digit. -/
theorem long_division_msf_len (r : StrengthReducedU64) : ∀ (l : List Nat) (rem : Nat),
    (long_division_msf r l rem).1.length = l.length := by
  intro l
  induction l with
  | nil => intro rem; rfl
  | cons a rest ih =>
    intro rem
    rw [long_division_msf]
    by_cases hpos : 0 < rem
    · rw [if_pos hpos]
      simp only [List.length_cons]
      rw [ih]
    · rw [if_neg hpos]
      simp only [List.length_cons]
      rw [ih]

/-- One unfolding of the 256-bit division loop, with the source's `let`s
expanded: skip when the window starts past the live numerator, otherwise
guess a digit, correct it, record it, and subtract. -/
theorem div256_loop_succ (ds : List Nat) (rdh : StrengthReducedU64) (dh : Nat)
    (k : Nat) (num quot : List Nat) :
    div256_loop ds rdh dh (k + 1) num quot =
      if num.length ≤ k + ds.length - 1 then div256_loop ds rdh dh k num quot
      else div256_loop ds rdh dh k
        (normalize_slice (num.take k ++ sub_assign (num.drop k)
          (slice_correction ds (num.drop k)
        (divide_128_by_64_preshifted_reduced
        (if 1 < num.length - (k + ds.length - 1) then num.getD (k + ds.length - 1 + 1) 0 else 0)
        (num.getD (k + ds.length - 1) 0) rdh dh)
        (normalize_slice (long_multiply ds
        (divide_128_by_64_preshifted_reduced
        (if 1 < num.length - (k + ds.length - 1) then num.getD (k + ds.length - 1 + 1) 0 else 0)
        (num.getD (k + ds.length - 1) 0) rdh dh) [0, 0, 0]))).2))
        (quot.set k
          (slice_correction ds (num.drop k)
        (divide_128_by_64_preshifted_reduced
        (if 1 < num.length - (k + ds.length - 1) then num.getD (k + ds.length - 1 + 1) 0 else 0)
        (num.getD (k + ds.length - 1) 0) rdh dh)
        (normalize_slice (long_multiply ds
        (divide_128_by_64_preshifted_reduced
        (if 1 < num.length - (k + ds.length - 1) then num.getD (k + ds.length - 1 + 1) 0 else 0)
        (num.getD (k + ds.length - 1) 0) rdh dh) [0, 0, 0]))).1) := rfl

/-- Digits at positions at or above the loop counter are never written. -/
theorem div256_loop_getD_stable (ds : List Nat) (rdh : StrengthReducedU64) (dh : Nat) :
    ∀ (k : Nat) (num quot : List Nat) (j : Nat), k ≤ j →
      ((div256_loop ds rdh dh k num quot).2).getD j 0 = quot.getD j 0 := by
  intro k
  induction k with
  | zero => intro num quot j _; rfl
  | succ k ih =>
    intro num quot j hj
    rw [div256_loop_succ]
    by_cases hg : num.length ≤ k + ds.length - 1
    · rw [if_pos hg]
      exact ih num quot j (by omega)
    · rw [if_neg hg, ih _ _ j (by omega)]
      rw [List.getD_eq_getElem?_getD, List.getD_eq_getElem?_getD,
        List.getElem?_set_ne (by omega : k ≠ j)]
      rw [← List.getD_eq_getElem?_getD]

/-- All digits the loop writes are below `2^64`. -/
theorem div256_loop_digits_lt (ds : List Nat) (rdh : StrengthReducedU64) (dh : Nat) :
    ∀ (k : Nat) (num quot : List Nat), (∀ x ∈ quot, x < 2 ^ 64) →
      ∀ x ∈ (div256_loop ds rdh dh k num quot).2, x < 2 ^ 64 := by
  intro k
  induction k with
  | zero => intro num quot hq; exact hq
  | succ k ih =>
    intro num quot hq
    rw [div256_loop_succ]
    by_cases hg : num.length ≤ k + ds.length - 1
    · rw [if_pos hg]
      exact ih num quot hq
    · rw [if_neg hg]
      apply ih
      intro x hx
      rcases List.mem_or_eq_of_mem_set hx with h | h
      · exact hq x h
      · subst h
        exact lt_of_le_of_lt (slice_correction_le _ _ _ _)
          (divide_128_by_64_preshifted_reduced_lt _ _ _ _)

/-- If the guess is positive and the window's value reaches the divisor
slice's value, the corrected digit is positive. -/
theorem slice_correction_pos {ds win : List Nat} {g : Nat} {sp : List Nat}
    (hds : ∀ x ∈ ds, x < 2 ^ 64) (hwin : ∀ x ∈ win, x < 2 ^ 64)
    (hV : 0 < chunks_value ds)
    (hdsnorm : 2 ^ (64 * (ds.length - 1)) ≤ chunks_value ds)
    (hwinlow : 2 ^ (64 * (win.length - 1)) ≤ chunks_value win)
    (hval : chunks_value sp = g * chunks_value ds) (hsplen : sp.length ≤ win.length)
    (hspd : ∀ x ∈ sp, x < 2 ^ 64) (hg : 1 ≤ g)
    (hWV : chunks_value ds ≤ chunks_value win) :
    1 ≤ (slice_correction ds win g sp).1 := by
  rw [slice_correction_spec ds win hds hwin hV hdsnorm hwinlow g sp hval hsplen hspd]
  have h1 : 1 ≤ chunks_value win / chunks_value ds := (Nat.one_le_div_iff hV).mpr hWV
  omega

/-- Value, length and digit facts for the normalized partial product
`normalize_slice (long_multiply ds g [0, 0, 0])`. -/
theorem sp0_facts {ds : List Nat} (g : Nat) (_hds : ∀ x ∈ ds, x < 2 ^ 64)
    (hlen : ds.length ≤ 3) (hfit : chunks_value ds * g < 2 ^ 192) :
    chunks_value (normalize_slice (long_multiply ds g [0, 0, 0])) = g * chunks_value ds ∧
      (normalize_slice (long_multiply ds g [0, 0, 0])).length ≤ 3 ∧
      (∀ x ∈ normalize_slice (long_multiply ds g [0, 0, 0]), x < 2 ^ 64) := by
  have h0 : chunks_value [0, 0, 0] = 0 := by simp [chunks_value]
  have hl : ([0, 0, 0] : List Nat).length = 3 := rfl
  have hd0 : ∀ x ∈ ([0, 0, 0] : List Nat), x < 2 ^ 64 := by
    intro x hx
    simp at hx
    omega
  have hfit2 : chunks_value [0, 0, 0] + chunks_value ds * g <
      2 ^ (64 * ([0, 0, 0] : List Nat).length) := by
    rw [h0, hl]
    norm_num
    exact hfit
  obtain ⟨m1, m2, m3⟩ := long_multiply_spec g (by rw [hl]; exact hlen) hd0 hfit2
  refine ⟨?_, ?_, ?_⟩
  · rw [normalize_slice_value, m3, h0, Nat.zero_add, Nat.mul_comm]
  · have := normalize_slice_length_le (long_multiply ds g [0, 0, 0])
    rw [m1, hl] at this
    exact this
  · intro x hx
    exact m2 x (normalize_slice_mem hx)

/-- The upper `u128` half of `divide_256_max_by_32` is positive for every
positive divisor below `2^32`. -/
theorem divide_256_max_by_32_hi_pos {d : Nat} (hd : 0 < d) (hdw : d < 2 ^ 32) :
    1 ≤ (divide_256_max_by_32 d).1 := by
  have hd64 : d < 2 ^ 64 := lt_trans hdw (by norm_num)
  have hu64v : U64_MAX = 2 ^ 64 - 1 := rfl
  have hM : U64_MAX < 2 ^ 64 := by omega
  have hMd : ∀ x ∈ ([U64_MAX, U64_MAX, U64_MAX, U64_MAX] : List Nat), x < 2 ^ 64 := by
    intro x hx
    simp at hx
    omega
  show 1 ≤ (long_division [U64_MAX, U64_MAX, U64_MAX, U64_MAX]
      (StrengthReducedU64.make d)).getD 2 0 |||
    ((long_division [U64_MAX, U64_MAX, U64_MAX, U64_MAX]
      (StrengthReducedU64.make d)).getD 3 0 <<< 64)
  have hstep : long_division_msf (StrengthReducedU64.make d)
      [U64_MAX, U64_MAX, U64_MAX, U64_MAX] 0 =
      ((StrengthReducedU64.div_rem U64_MAX (StrengthReducedU64.make d)).1 ::
        (long_division_msf (StrengthReducedU64.make d) [U64_MAX, U64_MAX, U64_MAX]
          (StrengthReducedU64.div_rem U64_MAX (StrengthReducedU64.make d)).2).1,
        (long_division_msf (StrengthReducedU64.make d) [U64_MAX, U64_MAX, U64_MAX]
          (StrengthReducedU64.div_rem U64_MAX (StrengthReducedU64.make d)).2).2) := rfl
  have hld : long_division [U64_MAX, U64_MAX, U64_MAX, U64_MAX] (StrengthReducedU64.make d) =
      ((long_division_msf (StrengthReducedU64.make d)
        [U64_MAX, U64_MAX, U64_MAX, U64_MAX] 0).1).reverse := rfl
  have hdr := SRU64_div_rem_make hd hd64 hM
  have hTlen : (long_division_msf (StrengthReducedU64.make d) [U64_MAX, U64_MAX, U64_MAX]
      (StrengthReducedU64.div_rem U64_MAX (StrengthReducedU64.make d)).2).1.length = 3 := by
    rw [long_division_msf_len]
    rfl
  have hq3 : (long_division [U64_MAX, U64_MAX, U64_MAX, U64_MAX]
      (StrengthReducedU64.make d)).getD 3 0 = U64_MAX / d := by
    rw [hld, hstep, List.reverse_cons, List.getD_eq_getElem?_getD,
      List.getElem?_append_right (by rw [List.length_reverse, hTlen])]
    rw [List.length_reverse, hTlen]
    rw [hdr]
    rfl
  have hdig : ∀ x ∈ long_division [U64_MAX, U64_MAX, U64_MAX, U64_MAX]
      (StrengthReducedU64.make d), x < 2 ^ 64 := by
    intro x hx
    rw [hld] at hx
    exact long_division_msf_digits_lt (StrengthReducedU64.make d) _ 0 hMd (by norm_num) x
      (List.mem_reverse.mp hx)
  have hq2lt : (long_division [U64_MAX, U64_MAX, U64_MAX, U64_MAX]
      (StrengthReducedU64.make d)).getD 2 0 < 2 ^ 64 := getD_lt_of_all hdig 2
  rw [hq3, Nat.or_comm, shiftLeft_or_eq_add _ hq2lt]
  have hdiv1 : 1 ≤ U64_MAX / d := (Nat.one_le_div_iff hd).mpr (by omega)
  have h2 : 1 * 2 ^ 64 ≤ U64_MAX / d * 2 ^ 64 := Nat.mul_le_mul_right _ hdiv1
  omega

/-- A bitwise `or` with a positive right operand is positive. -/
theorem one_le_or_right {x c : Nat} (hc : 1 ≤ c) : 1 ≤ x ||| c := by
  rcases Nat.eq_zero_or_pos (x ||| c) with h0 | h
  · exfalso
    obtain ⟨i, hi, _⟩ := Nat.exists_most_significant_bit (show c ≠ 0 by omega)
    have ht : (x ||| c).testBit i = (x.testBit i || c.testBit i) := Nat.testBit_or x c i
    rw [h0, Nat.zero_testBit, hi] at ht
    simp at ht
  · exact h

/-- A bitwise `or` with a positive left operand is positive. -/
theorem one_le_or_left {x c : Nat} (hc : 1 ≤ c) : 1 ≤ c ||| x := by
  rw [Nat.or_comm]
  exact one_le_or_right hc

/-- The upper half of `divide_256_max_by_128` is positive for every positive
divisor below `2^128`: the division loop's first corrected digit is positive
and is recorded in quotient chunk 2 or 3.  (This positivity holds regardless
of whether the computed quotient is exact.) -/
theorem divide_256_max_by_128_hi_pos {d : Nat} (hd : 0 < d) (hdw : d < 2 ^ 128) :
    1 ≤ (divide_256_max_by_128 d).1 := by
  obtain ⟨hb1, hb2, hb3⟩ := bit_length_fuel_spec (f := 128) hdw
  have hb2 := hb2 hd
  have hu64v : U64_MAX = 2 ^ 64 - 1 := rfl
  have hlzv : leading_zeros_fuel 128 d = 128 - bit_length_fuel 128 d := rfl
  have hred : divide_256_max_by_128 d =
      (if 96 ≤ leading_zeros_fuel 128 d then divide_256_max_by_32 (d % 2 ^ 32)
       else
        ((div256_loop
        (([((d <<< (leading_zeros_fuel 128 d % 64)) % 2 ^ 128) % 2 ^ 64,
        (((d <<< (leading_zeros_fuel 128 d % 64)) % 2 ^ 128) >>> 64) % 2 ^ 64] : List Nat).take (2 - leading_zeros_fuel 128 d / 64))
        (StrengthReducedU64.make (((([((d <<< (leading_zeros_fuel 128 d % 64)) % 2 ^ 128) % 2 ^ 64,
        (((d <<< (leading_zeros_fuel 128 d % 64)) % 2 ^ 128) >>> 64) % 2 ^ 64] : List Nat).take (2 - leading_zeros_fuel 128 d / 64)).getLast?.getD 0) >>> 32))
        ((([((d <<< (leading_zeros_fuel 128 d % 64)) % 2 ^ 128) % 2 ^ 64,
        (((d <<< (leading_zeros_fuel 128 d % 64)) % 2 ^ 128) >>> 64) % 2 ^ 64] : List Nat).take (2 - leading_zeros_fuel 128 d / 64)).getLast?.getD 0)
        (3 + leading_zeros_fuel 128 d / 64)
        (if 0 < leading_zeros_fuel 128 d % 64 then
        [(U64_MAX <<< (leading_zeros_fuel 128 d % 64)) % 2 ^ 64, U64_MAX, U64_MAX, U64_MAX,
          U64_MAX >>> (64 - leading_zeros_fuel 128 d % 64)]
        else ([U64_MAX, U64_MAX, U64_MAX, U64_MAX] : List Nat))
        [0, 0, 0, 0]).2.getD 2 0 |||
          ((div256_loop
        (([((d <<< (leading_zeros_fuel 128 d % 64)) % 2 ^ 128) % 2 ^ 64,
        (((d <<< (leading_zeros_fuel 128 d % 64)) % 2 ^ 128) >>> 64) % 2 ^ 64] : List Nat).take (2 - leading_zeros_fuel 128 d / 64))
        (StrengthReducedU64.make (((([((d <<< (leading_zeros_fuel 128 d % 64)) % 2 ^ 128) % 2 ^ 64,
        (((d <<< (leading_zeros_fuel 128 d % 64)) % 2 ^ 128) >>> 64) % 2 ^ 64] : List Nat).take (2 - leading_zeros_fuel 128 d / 64)).getLast?.getD 0) >>> 32))
        ((([((d <<< (leading_zeros_fuel 128 d % 64)) % 2 ^ 128) % 2 ^ 64,
        (((d <<< (leading_zeros_fuel 128 d % 64)) % 2 ^ 128) >>> 64) % 2 ^ 64] : List Nat).take (2 - leading_zeros_fuel 128 d / 64)).getLast?.getD 0)
        (3 + leading_zeros_fuel 128 d / 64)
        (if 0 < leading_zeros_fuel 128 d % 64 then
        [(U64_MAX <<< (leading_zeros_fuel 128 d % 64)) % 2 ^ 64, U64_MAX, U64_MAX, U64_MAX,
          U64_MAX >>> (64 - leading_zeros_fuel 128 d % 64)]
        else ([U64_MAX, U64_MAX, U64_MAX, U64_MAX] : List Nat))
        [0, 0, 0, 0]).2.getD 3 0 <<< 64),
         (div256_loop
        (([((d <<< (leading_zeros_fuel 128 d % 64)) % 2 ^ 128) % 2 ^ 64,
        (((d <<< (leading_zeros_fuel 128 d % 64)) % 2 ^ 128) >>> 64) % 2 ^ 64] : List Nat).take (2 - leading_zeros_fuel 128 d / 64))
        (StrengthReducedU64.make (((([((d <<< (leading_zeros_fuel 128 d % 64)) % 2 ^ 128) % 2 ^ 64,
        (((d <<< (leading_zeros_fuel 128 d % 64)) % 2 ^ 128) >>> 64) % 2 ^ 64] : List Nat).take (2 - leading_zeros_fuel 128 d / 64)).getLast?.getD 0) >>> 32))
        ((([((d <<< (leading_zeros_fuel 128 d % 64)) % 2 ^ 128) % 2 ^ 64,
        (((d <<< (leading_zeros_fuel 128 d % 64)) % 2 ^ 128) >>> 64) % 2 ^ 64] : List Nat).take (2 - leading_zeros_fuel 128 d / 64)).getLast?.getD 0)
        (3 + leading_zeros_fuel 128 d / 64)
        (if 0 < leading_zeros_fuel 128 d % 64 then
        [(U64_MAX <<< (leading_zeros_fuel 128 d % 64)) % 2 ^ 64, U64_MAX, U64_MAX, U64_MAX,
          U64_MAX >>> (64 - leading_zeros_fuel 128 d % 64)]
        else ([U64_MAX, U64_MAX, U64_MAX, U64_MAX] : List Nat))
        [0, 0, 0, 0]).2.getD 0 0 |||
          ((div256_loop
        (([((d <<< (leading_zeros_fuel 128 d % 64)) % 2 ^ 128) % 2 ^ 64,
        (((d <<< (leading_zeros_fuel 128 d % 64)) % 2 ^ 128) >>> 64) % 2 ^ 64] : List Nat).take (2 - leading_zeros_fuel 128 d / 64))
        (StrengthReducedU64.make (((([((d <<< (leading_zeros_fuel 128 d % 64)) % 2 ^ 128) % 2 ^ 64,
        (((d <<< (leading_zeros_fuel 128 d % 64)) % 2 ^ 128) >>> 64) % 2 ^ 64] : List Nat).take (2 - leading_zeros_fuel 128 d / 64)).getLast?.getD 0) >>> 32))
        ((([((d <<< (leading_zeros_fuel 128 d % 64)) % 2 ^ 128) % 2 ^ 64,
        (((d <<< (leading_zeros_fuel 128 d % 64)) % 2 ^ 128) >>> 64) % 2 ^ 64] : List Nat).take (2 - leading_zeros_fuel 128 d / 64)).getLast?.getD 0)
        (3 + leading_zeros_fuel 128 d / 64)
        (if 0 < leading_zeros_fuel 128 d % 64 then
        [(U64_MAX <<< (leading_zeros_fuel 128 d % 64)) % 2 ^ 64, U64_MAX, U64_MAX, U64_MAX,
          U64_MAX >>> (64 - leading_zeros_fuel 128 d % 64)]
        else ([U64_MAX, U64_MAX, U64_MAX, U64_MAX] : List Nat))
        [0, 0, 0, 0]).2.getD 1 0 <<< 64))) := rfl
  have hp : ∀ (x y : Nat), ((x, y) : Nat × Nat).1 = x := fun _ _ => rfl
  by_cases hcase : 96 ≤ leading_zeros_fuel 128 d
  · rw [hred, if_pos hcase]
    have hbl32 : bit_length_fuel 128 d ≤ 32 := by omega
    have hd32 : d < 2 ^ 32 :=
      lt_of_lt_of_le hb1 (Nat.pow_le_pow_right (by norm_num) hbl32)
    rw [Nat.mod_eq_of_lt hd32]
    exact divide_256_max_by_32_hi_pos hd hd32
  · rw [hred, if_neg hcase, hp]
    have htake2 : ∀ (a b : Nat), ([a, b] : List Nat).take (2 - 0) = [a, b] := fun _ _ => rfl
    have hlast2 : ∀ (a b : Nat), ([a, b] : List Nat).getLast?.getD 0 = b := fun _ _ => rfl
    have htake1 : ∀ (a b : Nat), ([a, b] : List Nat).take (2 - 1) = [a] := fun _ _ => rfl
    have hlast1 : ∀ (a : Nat), ([a] : List Nat).getLast?.getD 0 = a := fun _ => rfl
    have hif5 : ∀ (a0 a1 a2 a3 a4 b0 b1 : Nat),
        (if 1 < ([a0, a1, a2, a3, a4] : List Nat).length - (2 + ([b0, b1] : List Nat).length - 1)
         then ([a0, a1, a2, a3, a4] : List Nat).getD (2 + ([b0, b1] : List Nat).length - 1 + 1) 0
         else 0) = a4 := fun _ _ _ _ _ _ _ => rfl
    have hlo5 : ∀ (a0 a1 a2 a3 a4 b0 b1 : Nat),
        ([a0, a1, a2, a3, a4] : List Nat).getD (2 + ([b0, b1] : List Nat).length - 1) 0 = a3 :=
      fun _ _ _ _ _ _ _ => rfl
    have hdrop52 : ∀ (a0 a1 a2 a3 a4 : Nat),
        ([a0, a1, a2, a3, a4] : List Nat).drop 2 = [a2, a3, a4] := fun _ _ _ _ _ => rfl
    have hif4 : ∀ (a0 a1 a2 a3 b0 b1 : Nat),
        (if 1 < ([a0, a1, a2, a3] : List Nat).length - (2 + ([b0, b1] : List Nat).length - 1)
         then ([a0, a1, a2, a3] : List Nat).getD (2 + ([b0, b1] : List Nat).length - 1 + 1) 0
         else 0) = 0 := fun _ _ _ _ _ _ => rfl
    have hlo4 : ∀ (a0 a1 a2 a3 b0 b1 : Nat),
        ([a0, a1, a2, a3] : List Nat).getD (2 + ([b0, b1] : List Nat).length - 1) 0 = a3 :=
      fun _ _ _ _ _ _ => rfl
    have hdrop42 : ∀ (a0 a1 a2 a3 : Nat),
        ([a0, a1, a2, a3] : List Nat).drop 2 = [a2, a3] := fun _ _ _ _ => rfl
    have hif5b : ∀ (a0 a1 a2 a3 a4 b0 : Nat),
        (if 1 < ([a0, a1, a2, a3, a4] : List Nat).length - (3 + ([b0] : List Nat).length - 1)
         then ([a0, a1, a2, a3, a4] : List Nat).getD (3 + ([b0] : List Nat).length - 1 + 1) 0
         else 0) = a4 := fun _ _ _ _ _ _ => rfl
    have hlo5b : ∀ (a0 a1 a2 a3 a4 b0 : Nat),
        ([a0, a1, a2, a3, a4] : List Nat).getD (3 + ([b0] : List Nat).length - 1) 0 = a3 :=
      fun _ _ _ _ _ _ => rfl
    have hdrop53 : ∀ (a0 a1 a2 a3 a4 : Nat),
        ([a0, a1, a2, a3, a4] : List Nat).drop 3 = [a3, a4] := fun _ _ _ _ _ => rfl
    have hif4b : ∀ (a0 a1 a2 a3 b0 : Nat),
        (if 1 < ([a0, a1, a2, a3] : List Nat).length - (3 + ([b0] : List Nat).length - 1)
         then ([a0, a1, a2, a3] : List Nat).getD (3 + ([b0] : List Nat).length - 1 + 1) 0
         else 0) = 0 := fun _ _ _ _ _ => rfl
    have hlo4b : ∀ (a0 a1 a2 a3 b0 : Nat),
        ([a0, a1, a2, a3] : List Nat).getD (3 + ([b0] : List Nat).length - 1) 0 = a3 :=
      fun _ _ _ _ _ => rfl
    have hdrop43 : ∀ (a0 a1 a2 a3 : Nat),
        ([a0, a1, a2, a3] : List Nat).drop 3 = [a3] := fun _ _ _ _ => rfl
    have hset22 : ∀ (c : Nat), (([0, 0, 0, 0] : List Nat).set 2 c).getD 2 0 = c := fun _ => rfl
    have hset33 : ∀ (c : Nat), (([0, 0, 0, 0] : List Nat).set 3 c).getD 3 0 = c := fun _ => rfl
    have hg52 : ∀ (a0 a1 a2 a3 a4 b0 b1 : Nat),
        ¬ (([a0, a1, a2, a3, a4] : List Nat).length ≤ 2 + ([b0, b1] : List Nat).length - 1) := by
      intro a0 a1 a2 a3 a4 b0 b1
      simp only [List.length_cons, List.length_nil]
      omega
    have hg42 : ∀ (a0 a1 a2 a3 b0 b1 : Nat),
        ¬ (([a0, a1, a2, a3] : List Nat).length ≤ 2 + ([b0, b1] : List Nat).length - 1) := by
      intro a0 a1 a2 a3 b0 b1
      simp only [List.length_cons, List.length_nil]
      omega
    have hg51 : ∀ (a0 a1 a2 a3 a4 b0 : Nat),
        ¬ (([a0, a1, a2, a3, a4] : List Nat).length ≤ 3 + ([b0] : List Nat).length - 1) := by
      intro a0 a1 a2 a3 a4 b0
      simp only [List.length_cons, List.length_nil]
      omega
    have hg41 : ∀ (a0 a1 a2 a3 b0 : Nat),
        ¬ (([a0, a1, a2, a3] : List Nat).length ≤ 3 + ([b0] : List Nat).length - 1) := by
      intro a0 a1 a2 a3 b0
      simp only [List.length_cons, List.length_nil]
      omega
    by_cases he0 : leading_zeros_fuel 128 d < 64
    · -- chunk-aligned case: the divisor slice has two limbs
      have he : leading_zeros_fuel 128 d / 64 = 0 := Nat.div_eq_of_lt he0
      have hsm : leading_zeros_fuel 128 d % 64 = leading_zeros_fuel 128 d :=
        Nat.mod_eq_of_lt he0
      rw [he, hsm, show (3 + 0 : Nat) = 2 + 1 from rfl]
      set L := leading_zeros_fuel 128 d with hLdef
      have hbl65 : 65 ≤ bit_length_fuel 128 d := by omega
      have hdL128 : d * 2 ^ L < 2 ^ 128 := by
        have h1 : d * 2 ^ L < 2 ^ bit_length_fuel 128 d * 2 ^ L :=
          Nat.mul_lt_mul_of_lt_of_le hb1 (le_refl _) (Nat.two_pow_pos L)
        have h2 : (2 : Nat) ^ bit_length_fuel 128 d * 2 ^ L = 2 ^ 128 := by
          rw [← pow_add]
          congr 1
          all_goals omega
        omega
      have hdL127 : 2 ^ 127 ≤ d * 2 ^ L := by
        have h1 : (2 : Nat) ^ (bit_length_fuel 128 d - 1) * 2 ^ L = 2 ^ 127 := by
          rw [← pow_add]
          congr 1
          all_goals omega
        have h3 : (2 : Nat) ^ bit_length_fuel 128 d = 2 * 2 ^ (bit_length_fuel 128 d - 1) := by
          rw [← pow_succ']
          congr 1
          all_goals omega
        have h2 : (2 : Nat) ^ (bit_length_fuel 128 d - 1) ≤ d := by omega
        calc (2 : Nat) ^ 127 = 2 ^ (bit_length_fuel 128 d - 1) * 2 ^ L := h1.symm
        _ ≤ d * 2 ^ L := Nat.mul_le_mul_right _ h2
      have hshift : (d <<< L) % 2 ^ 128 = d * 2 ^ L := by
        rw [Nat.shiftLeft_eq, Nat.mod_eq_of_lt hdL128]
      rw [hshift]
      have hdhval : ((d * 2 ^ L) >>> 64) % 2 ^ 64 = d * 2 ^ L / 2 ^ 64 := by
        rw [Nat.shiftRight_eq_div_pow]
        apply Nat.mod_eq_of_lt
        rw [Nat.div_lt_iff_lt_mul (show (0 : Nat) < 2 ^ 64 by norm_num)]
        have h2 : (2 : Nat) ^ 64 * 2 ^ 64 = 2 ^ 128 := by norm_num
        omega
      rw [hdhval, htake2, hlast2]
      have hdh63 : 2 ^ 63 ≤ d * 2 ^ L / 2 ^ 64 := by
        rw [Nat.le_div_iff_mul_le (show (0 : Nat) < 2 ^ 64 by norm_num)]
        have h2 : (2 : Nat) ^ 63 * 2 ^ 64 = 2 ^ 127 := by norm_num
        omega
      have hdh64 : d * 2 ^ L / 2 ^ 64 < 2 ^ 64 := by
        rw [Nat.div_lt_iff_lt_mul (show (0 : Nat) < 2 ^ 64 by norm_num)]
        have h2 : (2 : Nat) ^ 64 * 2 ^ 64 = 2 ^ 128 := by norm_num
        omega
      have hdlval : (d * 2 ^ L) % 2 ^ 64 + 2 ^ 64 * (d * 2 ^ L / 2 ^ 64) = d * 2 ^ L := by
        omega
      set DV := d * 2 ^ L / 2 ^ 64 with hDVdef
      set DL := (d * 2 ^ L) % 2 ^ 64 with hDLdef
      have hdllt : DL < 2 ^ 64 := by omega
      have hpowL : (2 : Nat) ^ L ≤ 2 ^ 63 := Nat.pow_le_pow_right (by norm_num) (by omega)
      have hVds : chunks_value [DL, DV] = DL + 2 ^ 64 * DV := by
        rw [chunks_value_cons, chunks_value_cons, chunks_value_nil]
        ring
      have hdsb : ∀ x ∈ ([DL, DV] : List Nat), x < 2 ^ 64 := by
        intro x hx
        fin_cases hx <;> omega
      have hVpos : 0 < chunks_value [DL, DV] := by
        rw [hVds]
        omega
      have hdsnorm : 2 ^ (64 * (([DL, DV] : List Nat).length - 1)) ≤ chunks_value [DL, DV] := by
        have hexp : 64 * (([DL, DV] : List Nat).length - 1) = 64 := rfl
        rw [hexp, hVds]
        omega
      by_cases hsp : 0 < L
      · -- an in-chunk shift is applied: five numerator limbs
        rw [if_pos hsp, U64_MAX_shr hsp (show L ≤ 63 by omega), div256_loop_succ]
        rw [if_neg (hg52 _ _ _ _ _ _ _),
          hif5, hlo5, hdrop52,
          divide_128_by_64_preshifted_reduced_eq hdh63 hdh64 (show 2 ^ L - 1 < DV by omega)
            (show U64_MAX < 2 ^ 64 by omega)]
        set G0 := ((2 ^ L - 1) * 2 ^ 64 + U64_MAX) / DV with hG0def
        have hG0ge : 1 ≤ G0 := by
          rw [hG0def, Nat.one_le_div_iff (show 0 < DV by omega)]
          omega
        have hG0lt : G0 < 2 ^ 64 := by
          rw [hG0def, Nat.div_lt_iff_lt_mul (show 0 < DV by omega)]
          omega
        have h2L : (2 : Nat) ≤ 2 ^ L := by
          have := Nat.pow_le_pow_right (show 1 ≤ 2 by norm_num) hsp
          omega
        have hwinb : ∀ x ∈ ([U64_MAX, U64_MAX, 2 ^ L - 1] : List Nat), x < 2 ^ 64 := by
          intro x hx
          fin_cases hx <;> omega
        have hwinval : chunks_value [U64_MAX, U64_MAX, 2 ^ L - 1] =
            U64_MAX + 2 ^ 64 * U64_MAX + 2 ^ 128 * (2 ^ L - 1) := by
          rw [chunks_value_cons, chunks_value_cons, chunks_value_cons, chunks_value_nil]
          ring
        have hwlow : 2 ^ (64 * (([U64_MAX, U64_MAX, 2 ^ L - 1] : List Nat).length - 1)) ≤
            chunks_value [U64_MAX, U64_MAX, 2 ^ L - 1] := by
          have hexp : 64 * (([U64_MAX, U64_MAX, 2 ^ L - 1] : List Nat).length - 1) = 128 := rfl
          rw [hexp, hwinval]
          omega
        have hfit : chunks_value [DL, DV] * G0 < 2 ^ 192 := by
          rw [hVds]
          have h1 : DL + 2 ^ 64 * DV < 2 ^ 128 := by omega
          calc (DL + 2 ^ 64 * DV) * G0 < 2 ^ 128 * 2 ^ 64 := Nat.mul_lt_mul'' h1 hG0lt
          _ = 2 ^ 192 := by norm_num
        obtain ⟨hsp1, hsp2, hsp3⟩ := sp0_facts G0 hdsb (by simp) hfit
        have hsplen : (normalize_slice (long_multiply [DL, DV] G0 [0, 0, 0])).length ≤
            ([U64_MAX, U64_MAX, 2 ^ L - 1] : List Nat).length := by
          have hexp : ([U64_MAX, U64_MAX, 2 ^ L - 1] : List Nat).length = 3 := rfl
          rw [hexp]
          exact hsp2
        have hWV : chunks_value [DL, DV] ≤ chunks_value [U64_MAX, U64_MAX, 2 ^ L - 1] := by
          rw [hVds, hwinval]
          omega
        rw [div256_loop_getD_stable _ _ _ 2 _ _ 2 (le_refl 2), hset22]
        exact one_le_or_left
          (slice_correction_pos hdsb hwinb hVpos hdsnorm hwlow hsp1 hsplen hsp3 hG0ge hWV)
      · -- no shift: four numerator limbs and the first guessed digit is 1
        rw [if_neg hsp, div256_loop_succ]
        rw [if_neg (hg42 _ _ _ _ _ _),
          hif4, hlo4, hdrop42,
          divide_128_by_64_preshifted_reduced_eq hdh63 hdh64 (show 0 < DV by omega)
            (show U64_MAX < 2 ^ 64 by omega)]
        have hG0eq : (0 * 2 ^ 64 + U64_MAX) / DV = 1 := by
          apply Nat.div_eq_of_lt_le
          · omega
          · omega
        rw [hG0eq]
        have hwinb : ∀ x ∈ ([U64_MAX, U64_MAX] : List Nat), x < 2 ^ 64 := by
          intro x hx
          fin_cases hx <;> omega
        have hwinval : chunks_value [U64_MAX, U64_MAX] = U64_MAX + 2 ^ 64 * U64_MAX := by
          rw [chunks_value_cons, chunks_value_cons, chunks_value_nil]
          ring
        have hwlow : 2 ^ (64 * (([U64_MAX, U64_MAX] : List Nat).length - 1)) ≤
            chunks_value [U64_MAX, U64_MAX] := by
          have hexp : 64 * (([U64_MAX, U64_MAX] : List Nat).length - 1) = 64 := rfl
          rw [hexp, hwinval]
          omega
        have hfit : chunks_value [DL, DV] * 1 < 2 ^ 192 := by
          rw [hVds]
          omega
        obtain ⟨hsp1, hsp2, hsp3⟩ := sp0_facts 1 hdsb (by simp) hfit
        have hlval : chunks_value (long_multiply [DL, DV] 1 [0, 0, 0]) =
            1 * chunks_value [DL, DV] := by
          rw [← normalize_slice_value]
          exact hsp1
        have hsplen : (normalize_slice (long_multiply [DL, DV] 1 [0, 0, 0])).length ≤
            ([U64_MAX, U64_MAX] : List Nat).length := by
          have hexp : ([U64_MAX, U64_MAX] : List Nat).length = 2 := rfl
          rw [hexp]
          apply normalize_slice_length_le_of_lt
          rw [hlval, hVds]
          have h2 : (2 : Nat) ^ (64 * 2) = 2 ^ 128 := by norm_num
          omega
        have hWV : chunks_value [DL, DV] ≤ chunks_value [U64_MAX, U64_MAX] := by
          rw [hVds, hwinval]
          omega
        rw [div256_loop_getD_stable _ _ _ 2 _ _ 2 (le_refl 2), hset22]
        exact one_le_or_left
          (slice_correction_pos hdsb hwinb hVpos hdsnorm hwlow hsp1 hsplen hsp3 (le_refl 1) hWV)
    · -- one empty divisor chunk: the divisor slice is a single limb
      have he : leading_zeros_fuel 128 d / 64 = 1 := by omega
      rw [he]
      set S := leading_zeros_fuel 128 d % 64 with hSdef
      have hSeq : S = leading_zeros_fuel 128 d - 64 := by omega
      have hSlt : S < 32 := by omega
      have hblS : bit_length_fuel 128 d + S = 64 := by omega
      have hdS64 : d * 2 ^ S < 2 ^ 64 := by
        have h1 : d * 2 ^ S < 2 ^ bit_length_fuel 128 d * 2 ^ S :=
          Nat.mul_lt_mul_of_lt_of_le hb1 (le_refl _) (Nat.two_pow_pos S)
        have h2 : (2 : Nat) ^ bit_length_fuel 128 d * 2 ^ S = 2 ^ 64 := by
          rw [← pow_add]
          congr 1
        omega
      have hdS63 : 2 ^ 63 ≤ d * 2 ^ S := by
        have h1 : (2 : Nat) ^ (bit_length_fuel 128 d - 1) * 2 ^ S = 2 ^ 63 := by
          rw [← pow_add]
          congr 1
          all_goals omega
        have h3 : (2 : Nat) ^ bit_length_fuel 128 d = 2 * 2 ^ (bit_length_fuel 128 d - 1) := by
          rw [← pow_succ']
          congr 1
          all_goals omega
        have h2 : (2 : Nat) ^ (bit_length_fuel 128 d - 1) ≤ d := by omega
        calc (2 : Nat) ^ 63 = 2 ^ (bit_length_fuel 128 d - 1) * 2 ^ S := h1.symm
        _ ≤ d * 2 ^ S := Nat.mul_le_mul_right _ h2
      have hshift : (d <<< S) % 2 ^ 128 = d * 2 ^ S := by
        rw [Nat.shiftLeft_eq]
        apply Nat.mod_eq_of_lt
        have h2 : (2 : Nat) ^ 64 ≤ 2 ^ 128 := by norm_num
        omega
      rw [hshift, Nat.mod_eq_of_lt hdS64, htake1, hlast1]
      set DV := d * 2 ^ S with hDVdef
      have hpowS : (2 : Nat) ^ S ≤ 2 ^ 31 := Nat.pow_le_pow_right (by norm_num) (by omega)
      have hVds : chunks_value [DV] = DV := by
        rw [chunks_value_cons, chunks_value_nil]
        ring
      have hdsb : ∀ x ∈ ([DV] : List Nat), x < 2 ^ 64 := by
        intro x hx
        simp at hx
        omega
      have hVpos : 0 < chunks_value [DV] := by
        rw [hVds]
        omega
      have hdsnorm : 2 ^ (64 * (([DV] : List Nat).length - 1)) ≤ chunks_value [DV] := by
        have hexp : 64 * (([DV] : List Nat).length - 1) = 0 := rfl
        rw [hexp, hVds]
        have h1 : (2 : Nat) ^ 0 = 1 := by norm_num
        omega
      by_cases hsp : 0 < S
      · -- shifted case: five numerator limbs, digit recorded in chunk 3
        rw [if_pos hsp, U64_MAX_shr hsp (show S ≤ 63 by omega), div256_loop_succ]
        rw [if_neg (hg51 _ _ _ _ _ _),
          hif5b, hlo5b, hdrop53,
          divide_128_by_64_preshifted_reduced_eq hdS63 hdS64 (show 2 ^ S - 1 < DV by omega)
            (show U64_MAX < 2 ^ 64 by omega)]
        set G0 := ((2 ^ S - 1) * 2 ^ 64 + U64_MAX) / DV with hG0def
        have hG0ge : 1 ≤ G0 := by
          rw [hG0def, Nat.one_le_div_iff (show 0 < DV by omega)]
          omega
        have hG0lt : G0 < 2 ^ 64 := by
          rw [hG0def, Nat.div_lt_iff_lt_mul (show 0 < DV by omega)]
          omega
        have h2S : (2 : Nat) ≤ 2 ^ S := by
          have := Nat.pow_le_pow_right (show 1 ≤ 2 by norm_num) hsp
          omega
        have hwinb : ∀ x ∈ ([U64_MAX, 2 ^ S - 1] : List Nat), x < 2 ^ 64 := by
          intro x hx
          fin_cases hx <;> omega
        have hwinval : chunks_value [U64_MAX, 2 ^ S - 1] = U64_MAX + 2 ^ 64 * (2 ^ S - 1) := by
          rw [chunks_value_cons, chunks_value_cons, chunks_value_nil]
          ring
        have hwlow : 2 ^ (64 * (([U64_MAX, 2 ^ S - 1] : List Nat).length - 1)) ≤
            chunks_value [U64_MAX, 2 ^ S - 1] := by
          have hexp : 64 * (([U64_MAX, 2 ^ S - 1] : List Nat).length - 1) = 64 := rfl
          rw [hexp, hwinval]
          omega
        have hfit : chunks_value [DV] * G0 < 2 ^ 192 := by
          rw [hVds]
          have h1 : DV * G0 < 2 ^ 64 * 2 ^ 64 := Nat.mul_lt_mul'' hdS64 hG0lt
          have h2 : (2 : Nat) ^ 64 * 2 ^ 64 = 2 ^ 128 := by norm_num
          have h3 : (2 : Nat) ^ 128 < 2 ^ 192 := by norm_num
          omega
        obtain ⟨hsp1, hsp2, hsp3⟩ := sp0_facts G0 hdsb (by simp) hfit
        have hlval : chunks_value (long_multiply [DV] G0 [0, 0, 0]) =
            G0 * chunks_value [DV] := by
          rw [← normalize_slice_value]
          exact hsp1
        have hsplen : (normalize_slice (long_multiply [DV] G0 [0, 0, 0])).length ≤
            ([U64_MAX, 2 ^ S - 1] : List Nat).length := by
          have hexp : ([U64_MAX, 2 ^ S - 1] : List Nat).length = 2 := rfl
          rw [hexp]
          apply normalize_slice_length_le_of_lt
          rw [hlval, hVds]
          have h1 : G0 * DV < 2 ^ 64 * 2 ^ 64 := Nat.mul_lt_mul'' hG0lt hdS64
          have h2 : (2 : Nat) ^ 64 * 2 ^ 64 = 2 ^ 128 := by norm_num
          have h3 : (2 : Nat) ^ (64 * 2) = 2 ^ 128 := by norm_num
          omega
        have hWV : chunks_value [DV] ≤ chunks_value [U64_MAX, 2 ^ S - 1] := by
          rw [hVds, hwinval]
          omega
        rw [div256_loop_getD_stable _ _ _ 3 _ _ 3 (le_refl 3), hset33]
        apply one_le_or_right
        rw [Nat.shiftLeft_eq]
        exact le_trans
          (slice_correction_pos hdsb hwinb hVpos hdsnorm hwlow hsp1 hsplen hsp3 hG0ge hWV)
          (Nat.le_mul_of_pos_right _ (by norm_num))
      · -- no shift: four numerator limbs, first guessed digit is exactly 1
        rw [if_neg hsp, div256_loop_succ]
        rw [if_neg (hg41 _ _ _ _ _),
          hif4b, hlo4b, hdrop43,
          divide_128_by_64_preshifted_reduced_eq hdS63 hdS64 (show 0 < DV by omega)
            (show U64_MAX < 2 ^ 64 by omega)]
        have hG0eq : (0 * 2 ^ 64 + U64_MAX) / DV = 1 := by
          apply Nat.div_eq_of_lt_le
          · omega
          · omega
        rw [hG0eq]
        have hwinb : ∀ x ∈ ([U64_MAX] : List Nat), x < 2 ^ 64 := by
          intro x hx
          simp at hx
          omega
        have hwinval : chunks_value [U64_MAX] = U64_MAX := by
          rw [chunks_value_cons, chunks_value_nil]
          ring
        have hwlow : 2 ^ (64 * (([U64_MAX] : List Nat).length - 1)) ≤
            chunks_value [U64_MAX] := by
          have hexp : 64 * (([U64_MAX] : List Nat).length - 1) = 0 := rfl
          rw [hexp, hwinval]
          have h1 : (2 : Nat) ^ 0 = 1 := by norm_num
          omega
        have hfit : chunks_value [DV] * 1 < 2 ^ 192 := by
          rw [hVds]
          omega
        obtain ⟨hsp1, hsp2, hsp3⟩ := sp0_facts 1 hdsb (by simp) hfit
        have hlval : chunks_value (long_multiply [DV] 1 [0, 0, 0]) =
            1 * chunks_value [DV] := by
          rw [← normalize_slice_value]
          exact hsp1
        have hsplen : (normalize_slice (long_multiply [DV] 1 [0, 0, 0])).length ≤
            ([U64_MAX] : List Nat).length := by
          have hexp : ([U64_MAX] : List Nat).length = 1 := rfl
          rw [hexp]
          apply normalize_slice_length_le_of_lt
          rw [hlval, hVds]
          have h2 : (2 : Nat) ^ (64 * 1) = 2 ^ 64 := by norm_num
          omega
        have hWV : chunks_value [DV] ≤ chunks_value [U64_MAX] := by
          rw [hVds, hwinval]
          omega
        rw [div256_loop_getD_stable _ _ _ 3 _ _ 3 (le_refl 3), hset33]
        apply one_le_or_right
        rw [Nat.shiftLeft_eq]
        exact le_trans
          (slice_correction_pos hdsb hwinb hVpos hdsnorm hwlow hsp1 hsplen hsp3 (le_refl 1) hWV)
          (Nat.le_mul_of_pos_right _ (by norm_num))

/-- `StrengthReducedU128::new` keeps the divisor unchanged. -/
theorem SRU128_make_divisor (d : Nat) : (StrengthReducedU128.make d).divisor = d := by
  rw [StrengthReducedU128.make]
  split <;> rfl

/-- The 128-bit zero sentinel: `multiplier_hi` is zero exactly on powers of
two.  For a non-power-of-two the stored high half is the engine's high
quotient half (or that plus a carry), which is positive by
`divide_256_max_by_128_hi_pos`. -/
theorem SRU128_multiplier_hi_zero_iff {d : Nat} (hd : 0 < d) (hdw : d < 2 ^ 128) :
    ((StrengthReducedU128.make d).multiplier_hi = 0 ↔ ∃ k, d = 2 ^ k) := by
  by_cases hp : is_power_of_two_fuel 128 d
  · rw [StrengthReducedU128.make, if_pos hp]
    constructor
    · intro _
      exact (is_power_of_two_fuel_iff hd hdw).mp hp
    · intro _
      rfl
  · rw [StrengthReducedU128.make, if_neg hp]
    constructor
    · intro h0
      exfalso
      have hq := divide_256_max_by_128_hi_pos hd hdw
      have h0' : (if ((divide_256_max_by_128 d).2 + 1) % 2 ^ 128 = 0
          then (divide_256_max_by_128 d).1 + 1 else (divide_256_max_by_128 d).1) = 0 := h0
      by_cases hlo : ((divide_256_max_by_128 d).2 + 1) % 2 ^ 128 = 0
      · rw [if_pos hlo] at h0'
        omega
      · rw [if_neg hlo] at h0'
        omega
    · intro hex
      exact absurd ((is_power_of_two_fuel_iff hd hdw).mpr hex) hp

/-- A six-element list is the list of its first six `getD` values. -/
theorem list_eq_of_len6 {l : List Nat} (h : l.length = 6) :
    l = [l.getD 0 0, l.getD 1 0, l.getD 2 0, l.getD 3 0, l.getD 4 0, l.getD 5 0] := by
  rcases l with _ | ⟨a0, l⟩
  · simp at h
  rcases l with _ | ⟨a1, l⟩
  · simp at h
  rcases l with _ | ⟨a2, l⟩
  · simp at h
  rcases l with _ | ⟨a3, l⟩
  · simp at h
  rcases l with _ | ⟨a4, l⟩
  · simp at h
  rcases l with _ | ⟨a5, l⟩
  · simp at h
  rcases l with _ | ⟨a6, l⟩
  · rfl
  · simp at h

/-- `multiply_256_by_128_upperbits` returns exactly the top 128 bits of the
384-bit product `(a_hi * 2^128 + a_lo) * b`. -/
theorem multiply_256_by_128_upperbits_eq {a_hi a_lo b : Nat}
    (h1 : a_hi < 2 ^ 128) (h2 : a_lo < 2 ^ 128) (hb : b < 2 ^ 128) :
    multiply_256_by_128_upperbits a_hi a_lo b = (a_hi * 2 ^ 128 + a_lo) * b / 2 ^ 256 := by
  have hsrlo : a_lo >>> 64 = a_lo / 2 ^ 64 := Nat.shiftRight_eq_div_pow a_lo 64
  have hsrhi : a_hi >>> 64 = a_hi / 2 ^ 64 := Nat.shiftRight_eq_div_pow a_hi 64
  have hsrb : b >>> 64 = b / 2 ^ 64 := Nat.shiftRight_eq_div_pow b 64
  have hc4 : ∀ (x0 x1 x2 x3 : Nat), chunks_value [x0, x1, x2, x3] =
      x0 + 2 ^ 64 * x1 + 2 ^ 128 * x2 + 2 ^ 192 * x3 := by
    intro x0 x1 x2 x3
    rw [chunks_value_cons, chunks_value_cons, chunks_value_cons, chunks_value_cons,
      chunks_value_nil]
    ring
  have hc6 : ∀ (x0 x1 x2 x3 x4 x5 : Nat), chunks_value [x0, x1, x2, x3, x4, x5] =
      x0 + 2 ^ 64 * x1 + 2 ^ 128 * x2 + 2 ^ 192 * x3 + 2 ^ 256 * x4 + 2 ^ 320 * x5 := by
    intro x0 x1 x2 x3 x4 x5
    rw [chunks_value_cons, chunks_value_cons, chunks_value_cons, chunks_value_cons,
      chunks_value_cons, chunks_value_cons, chunks_value_nil]
    ring
  have hred : multiply_256_by_128_upperbits a_hi a_lo b =
      (((long_multiply [a_lo % 2 ^ 64, (a_lo >>> 64) % 2 ^ 64, a_hi % 2 ^ 64,
            (a_hi >>> 64) % 2 ^ 64] (b % 2 ^ 64) [0, 0, 0, 0, 0, 0]).take 1 ++
          long_multiply [a_lo % 2 ^ 64, (a_lo >>> 64) % 2 ^ 64, a_hi % 2 ^ 64,
            (a_hi >>> 64) % 2 ^ 64] ((b >>> 64) % 2 ^ 64)
            ((long_multiply [a_lo % 2 ^ 64, (a_lo >>> 64) % 2 ^ 64, a_hi % 2 ^ 64,
              (a_hi >>> 64) % 2 ^ 64] (b % 2 ^ 64) [0, 0, 0, 0, 0, 0]).drop 1)).getD 5 0 <<< 64) |||
        ((long_multiply [a_lo % 2 ^ 64, (a_lo >>> 64) % 2 ^ 64, a_hi % 2 ^ 64,
            (a_hi >>> 64) % 2 ^ 64] (b % 2 ^ 64) [0, 0, 0, 0, 0, 0]).take 1 ++
          long_multiply [a_lo % 2 ^ 64, (a_lo >>> 64) % 2 ^ 64, a_hi % 2 ^ 64,
            (a_hi >>> 64) % 2 ^ 64] ((b >>> 64) % 2 ^ 64)
            ((long_multiply [a_lo % 2 ^ 64, (a_lo >>> 64) % 2 ^ 64, a_hi % 2 ^ 64,
              (a_hi >>> 64) % 2 ^ 64] (b % 2 ^ 64) [0, 0, 0, 0, 0, 0]).drop 1)).getD 4 0 := rfl
  rw [hred]
  set AC : List Nat := [a_lo % 2 ^ 64, (a_lo >>> 64) % 2 ^ 64, a_hi % 2 ^ 64,
    (a_hi >>> 64) % 2 ^ 64] with hACdef
  set P1 := long_multiply AC (b % 2 ^ 64) [0, 0, 0, 0, 0, 0] with hP1def
  set LM2 := long_multiply AC ((b >>> 64) % 2 ^ 64) (P1.drop 1) with hLM2def
  set P2 := P1.take 1 ++ LM2 with hP2def
  -- digit-level facts about the chunked operand
  have hACdig : ∀ x ∈ AC, x < 2 ^ 64 := by
    intro x hx
    rw [hACdef] at hx
    fin_cases hx <;> omega
  have hACval : chunks_value AC = a_hi * 2 ^ 128 + a_lo := by
    rw [hACdef, hc4, hsrlo, hsrhi]
    omega
  have hAClen : AC.length = 4 := by
    rw [hACdef]
    rfl
  have hA : a_hi * 2 ^ 128 + a_lo < 2 ^ 256 := by omega
  -- first partial product: P1 = A * (b % 2^64)
  have hz6 : chunks_value ([0, 0, 0, 0, 0, 0] : List Nat) = 0 := rfl
  have hz6d : ∀ x ∈ ([0, 0, 0, 0, 0, 0] : List Nat), x < 2 ^ 64 := by
    intro x hx
    fin_cases hx <;> omega
  have hfit1 : chunks_value [0, 0, 0, 0, 0, 0] + chunks_value AC * (b % 2 ^ 64) <
      2 ^ (64 * ([0, 0, 0, 0, 0, 0] : List Nat).length) := by
    rw [hz6, hACval]
    have hm : (a_hi * 2 ^ 128 + a_lo) * (b % 2 ^ 64) < 2 ^ 256 * 2 ^ 64 :=
      Nat.mul_lt_mul'' hA (by omega)
    have he1 : (2 : Nat) ^ 256 * 2 ^ 64 = 2 ^ 320 := by norm_num
    have he2 : (64 * (([0, 0, 0, 0, 0, 0] : List Nat).length)) = 384 := rfl
    rw [he2]
    have he3 : (2 : Nat) ^ 320 ≤ 2 ^ 384 := by norm_num
    omega
  obtain ⟨hp1len, hp1dig, hp1val⟩ :=
    long_multiply_spec (b % 2 ^ 64) (by rw [hAClen]; norm_num) hz6d hfit1
  rw [← hP1def] at hp1len hp1dig hp1val
  rw [hz6, hACval] at hp1val
  have hp1len6 : P1.length = 6 := by
    rw [hp1len]
    rfl
  -- second partial product, written into P1[1..]
  have hdroplen : (P1.drop 1).length = 5 := by
    rw [List.length_drop, hp1len6]
  have hdropdig : ∀ x ∈ P1.drop 1, x < 2 ^ 64 := by
    intro x hx
    exact hp1dig x (List.mem_of_mem_drop hx)
  have hdropval : chunks_value (P1.drop 1) = chunks_value P1 / 2 ^ 64 := by
    have := chunks_value_div (show 1 ≤ P1.length by omega) hp1dig
    have he : (64 * 1) = 64 := rfl
    rw [he] at this
    omega
  have hfit2 : chunks_value (P1.drop 1) + chunks_value AC * ((b >>> 64) % 2 ^ 64) <
      2 ^ (64 * (P1.drop 1).length) := by
    rw [hdroplen, hACval, hdropval, hp1val]
    have e4 : (a_hi * 2 ^ 128 + a_lo) * ((b >>> 64) % 2 ^ 64) + (a_hi * 2 ^ 128 + a_lo) =
        (a_hi * 2 ^ 128 + a_lo) * ((b >>> 64) % 2 ^ 64 + 1) := by ring
    have e5 : (a_hi * 2 ^ 128 + a_lo) * ((b >>> 64) % 2 ^ 64 + 1) ≤
        (a_hi * 2 ^ 128 + a_lo) * 2 ^ 64 := Nat.mul_le_mul_left _ (by omega)
    have e6 : (a_hi * 2 ^ 128 + a_lo) * 2 ^ 64 ≤ (2 ^ 256 - 1) * 2 ^ 64 :=
      Nat.mul_le_mul_right _ (by omega)
    have e7 : ((2 : Nat) ^ 256 - 1) * 2 ^ 64 < 2 ^ 320 := by norm_num
    have e8 : (a_hi * 2 ^ 128 + a_lo) * (b % 2 ^ 64) ≤ (a_hi * 2 ^ 128 + a_lo) * 2 ^ 64 :=
      Nat.mul_le_mul_left _ (by omega)
    have he : (2 : Nat) ^ (64 * 5) = 2 ^ 320 := by norm_num
    rw [he]
    omega
  obtain ⟨hl2len, hl2dig, hl2val⟩ :=
    long_multiply_spec ((b >>> 64) % 2 ^ 64) (by rw [hAClen, hdroplen]; norm_num)
      hdropdig hfit2
  rw [← hLM2def] at hl2len hl2dig hl2val
  rw [hACval] at hl2val
  -- the combined product list P2 and its value
  have htklen : (P1.take 1).length = 1 := by
    rw [List.length_take, hp1len6]
    omega
  have hp2len : P2.length = 6 := by
    rw [hP2def, List.length_append, htklen, hl2len, hdroplen]
  have hp2dig : ∀ x ∈ P2, x < 2 ^ 64 := by
    intro x hx
    rw [hP2def] at hx
    rcases List.mem_append.mp hx with h | h
    · exact hp1dig x (List.mem_of_mem_take h)
    · exact hl2dig x h
  have hsplit1 : chunks_value P1 = chunks_value (P1.take 1) +
      2 ^ (64 * (P1.take 1).length) * chunks_value (P1.drop 1) :=
    chunks_value_split P1 1
  have hp2val : chunks_value P2 = (a_hi * 2 ^ 128 + a_lo) * b := by
    rw [hP2def, chunks_value_append, htklen, hl2val]
    have he : (2 : Nat) ^ (64 * 1) = 2 ^ 64 := by norm_num
    rw [he]
    rw [htklen, he] at hsplit1
    have e9 : (a_hi * 2 ^ 128 + a_lo) * (b % 2 ^ 64) +
        2 ^ 64 * ((a_hi * 2 ^ 128 + a_lo) * ((b >>> 64) % 2 ^ 64)) =
        (a_hi * 2 ^ 128 + a_lo) * (b % 2 ^ 64 + 2 ^ 64 * ((b >>> 64) % 2 ^ 64)) := by ring
    have e10 : b % 2 ^ 64 + 2 ^ 64 * ((b >>> 64) % 2 ^ 64) = b := by
      rw [hsrb]
      omega
    rw [e10] at e9
    omega
  -- read the two top digits off the digit expansion
  have hg4 : P2.getD 4 0 < 2 ^ 64 := getD_lt_of_all hp2dig 4
  have hg0 : P2.getD 0 0 < 2 ^ 64 := getD_lt_of_all hp2dig 0
  have hg1 : P2.getD 1 0 < 2 ^ 64 := getD_lt_of_all hp2dig 1
  have hg2 : P2.getD 2 0 < 2 ^ 64 := getD_lt_of_all hp2dig 2
  have hg3 : P2.getD 3 0 < 2 ^ 64 := getD_lt_of_all hp2dig 3
  rw [shiftLeft_or_eq_add _ hg4]
  have hexp := congrArg chunks_value (list_eq_of_len6 hp2len)
  rw [hc6, hp2val] at hexp
  omega

/-! ### Remainder/quotient consistency for each width -/

/-- Width-8 remainder agrees with `numerator - quotient * divisor`. -/
theorem SRU8_rem_sub {d n : Nat} (hd : 0 < d) (hdw : d < 2 ^ 8) (hn : n < 2 ^ 8) :
    StrengthReducedU8.rem n (StrengthReducedU8.make d) =
      n - StrengthReducedU8.div n (StrengthReducedU8.make d) * d := by
  rw [SRU8_rem_make hd hdw hn, SRU8_div_make hd hdw hn]
  have hdm := Nat.div_add_mod n d
  have hmc : n / d * d = d * (n / d) := Nat.mul_comm _ _
  omega

/-- Width-16 remainder agrees with `numerator - quotient * divisor`. -/
theorem SRU16_rem_sub {d n : Nat} (hd : 0 < d) (hdw : d < 2 ^ 16) (hn : n < 2 ^ 16) :
    StrengthReducedU16.rem n (StrengthReducedU16.make d) =
      n - StrengthReducedU16.div n (StrengthReducedU16.make d) * d := by
  rw [SRU16_rem_make hd hdw hn, SRU16_div_make hd hdw hn]
  have hdm := Nat.div_add_mod n d
  have hmc : n / d * d = d * (n / d) := Nat.mul_comm _ _
  omega

/-- Width-32 remainder agrees with `numerator - quotient * divisor`. -/
theorem SRU32_rem_sub {d n : Nat} (hd : 0 < d) (hdw : d < 2 ^ 32) (hn : n < 2 ^ 32) :
    StrengthReducedU32.rem n (StrengthReducedU32.make d) =
      n - StrengthReducedU32.div n (StrengthReducedU32.make d) * d := by
  rw [SRU32_rem_make hd hdw hn, SRU32_div_make hd hdw hn]
  have hdm := Nat.div_add_mod n d
  have hmc : n / d * d = d * (n / d) := Nat.mul_comm _ _
  omega

/-- Width-64 remainder agrees with `numerator - quotient * divisor`. -/
theorem SRU64_rem_sub {d n : Nat} (hd : 0 < d) (hdw : d < 2 ^ 64) (hn : n < 2 ^ 64) :
    StrengthReducedU64.rem n (StrengthReducedU64.make d) =
      n - StrengthReducedU64.div n (StrengthReducedU64.make d) * d := by
  rw [SRU64_rem_make hd hdw hn, SRU64_div_make hd hdw hn]
  have hdm := Nat.div_add_mod n d
  have hmc : n / d * d = d * (n / d) := Nat.mul_comm _ _
  omega

/-- Width-128 remainder agrees with `numerator - quotient * divisor`.  This
holds structurally — both operations take the same sentinel branch and the
multiply path subtracts the very same reduced quotient — so it is true even
where the 128-bit quotient itself is wrong. -/
theorem SRU128_rem_sub {d n : Nat} (hd : 0 < d) (hdw : d < 2 ^ 128) :
    StrengthReducedU128.rem n (StrengthReducedU128.make d) =
      n - StrengthReducedU128.div n (StrengthReducedU128.make d) * d := by
  rw [StrengthReducedU128.rem, StrengthReducedU128.div]
  by_cases hz : (StrengthReducedU128.make d).multiplier_hi = 0
  · rw [if_pos hz, if_pos hz, SRU128_make_divisor]
    obtain ⟨k, hk⟩ := (SRU128_multiplier_hi_zero_iff hd hdw).mp hz
    subst hk
    have hklt : k < 128 := (Nat.pow_lt_pow_iff_right (by norm_num)).mp hdw
    rw [trailing_zeros_fuel_pow hklt, Nat.and_pow_two_sub_one_eq_mod,
      Nat.shiftRight_eq_div_pow]
    have hdm := Nat.div_add_mod n (2 ^ k)
    have hmc : n / 2 ^ k * 2 ^ k = 2 ^ k * (n / 2 ^ k) := Nat.mul_comm _ _
    omega
  · rw [if_neg hz, if_neg hz, SRU128_make_divisor]

/-- Width-128 `div_rem` is the `(div, rem)` pair, again structurally. -/
theorem SRU128_div_rem_pair {d : Nat} (n : Nat) (hd : 0 < d) (hdw : d < 2 ^ 128) :
    StrengthReducedU128.div_rem n (StrengthReducedU128.make d) =
      (StrengthReducedU128.div n (StrengthReducedU128.make d),
        StrengthReducedU128.rem n (StrengthReducedU128.make d)) := by
  rw [StrengthReducedU128.div_rem, SRU128_rem_sub hd hdw, SRU128_make_divisor]

/-- Width-16 `div_rem` is the `(div, rem)` pair. -/
theorem SRU16_div_rem_pair {d n : Nat} (hd : 0 < d) (hdw : d < 2 ^ 16) (hn : n < 2 ^ 16) :
    StrengthReducedU16.div_rem n (StrengthReducedU16.make d) =
      (StrengthReducedU16.div n (StrengthReducedU16.make d),
        StrengthReducedU16.rem n (StrengthReducedU16.make d)) := by
  rw [SRU16_div_rem_make hd hdw hn, SRU16_div_make hd hdw hn, SRU16_rem_make hd hdw hn]

/-- Width-32 `div_rem` is the `(div, rem)` pair. -/
theorem SRU32_div_rem_pair {d n : Nat} (hd : 0 < d) (hdw : d < 2 ^ 32) (hn : n < 2 ^ 32) :
    StrengthReducedU32.div_rem n (StrengthReducedU32.make d) =
      (StrengthReducedU32.div n (StrengthReducedU32.make d),
        StrengthReducedU32.rem n (StrengthReducedU32.make d)) := by
  rw [SRU32_div_rem_make hd hdw hn, SRU32_div_make hd hdw hn, SRU32_rem_make hd hdw hn]

/-- Width-64 `div_rem` is the `(div, rem)` pair. -/
theorem SRU64_div_rem_pair {d n : Nat} (hd : 0 < d) (hdw : d < 2 ^ 64) (hn : n < 2 ^ 64) :
    StrengthReducedU64.div_rem n (StrengthReducedU64.make d) =
      (StrengthReducedU64.div n (StrengthReducedU64.make d),
        StrengthReducedU64.rem n (StrengthReducedU64.make d)) := by
  rw [SRU64_div_rem_make hd hdw hn, SRU64_div_make hd hdw hn, SRU64_rem_make hd hdw hn]

/-! ### The zero-multiplier sentinel characterizes powers of two -/

/-- Width-8 sentinel: zero multiplier exactly on powers of two. -/
theorem SRU8_multiplier_zero_iff {d : Nat} (hd : 0 < d) (hdw : d < 2 ^ 8) :
    ((StrengthReducedU8.make d).multiplier = 0 ↔ ∃ k, d = 2 ^ k) := by
  constructor
  · intro h0
    by_contra hnp
    rw [(SRU8_multiplier_spec hd hdw).2 hnp] at h0
    exact Nat.succ_ne_zero _ h0
  · intro hex
    exact (SRU8_multiplier_spec hd hdw).1 hex

/-- Width-16 sentinel: zero multiplier exactly on powers of two. -/
theorem SRU16_multiplier_zero_iff {d : Nat} (hd : 0 < d) (hdw : d < 2 ^ 16) :
    ((StrengthReducedU16.make d).multiplier = 0 ↔ ∃ k, d = 2 ^ k) := by
  constructor
  · intro h0
    by_contra hnp
    rw [(SRU16_multiplier_spec hd hdw).2 hnp] at h0
    exact Nat.succ_ne_zero _ h0
  · intro hex
    exact (SRU16_multiplier_spec hd hdw).1 hex

/-- Width-32 sentinel: zero multiplier exactly on powers of two. -/
theorem SRU32_multiplier_zero_iff {d : Nat} (hd : 0 < d) (hdw : d < 2 ^ 32) :
    ((StrengthReducedU32.make d).multiplier = 0 ↔ ∃ k, d = 2 ^ k) := by
  constructor
  · intro h0
    by_contra hnp
    rw [(SRU32_multiplier_spec hd hdw).2 hnp] at h0
    exact Nat.succ_ne_zero _ h0
  · intro hex
    exact (SRU32_multiplier_spec hd hdw).1 hex

/-- Width-64 sentinel: zero multiplier exactly on powers of two. -/
theorem SRU64_multiplier_zero_iff {d : Nat} (hd : 0 < d) (hdw : d < 2 ^ 64) :
    ((StrengthReducedU64.make d).multiplier = 0 ↔ ∃ k, d = 2 ^ k) := by
  constructor
  · intro h0
    by_contra hnp
    rw [(SRU64_multiplier_spec hd hdw).2 hnp] at h0
    exact Nat.succ_ne_zero _ h0
  · intro hex
    exact (SRU64_multiplier_spec hd hdw).1 hex

/-! ### The claims -/

set_option maxRecDepth 4000 in
/-- Claim C1 (refuted by evaluation): reduced division is claimed exact for
every width, divisor and numerator; at width 128 with
`D = N = 170141183440551981627891912519569166711` the embedded code divides
`N / D` to `0` and takes `N % D` to `N`, while native division gives `1` and
`0`. -/
theorem claim_C1_u128_division_bug :
    StrengthReducedU128.div 170141183440551981627891912519569166711
        (StrengthReducedU128.make 170141183440551981627891912519569166711) = 0 ∧
      StrengthReducedU128.rem 170141183440551981627891912519569166711
        (StrengthReducedU128.make 170141183440551981627891912519569166711) =
        170141183440551981627891912519569166711 ∧
      170141183440551981627891912519569166711 /
        170141183440551981627891912519569166711 = 1 ∧
      170141183440551981627891912519569166711 %
        170141183440551981627891912519569166711 = 0 := by
  decide

set_option maxRecDepth 4000 in
/-- Claim C2 (refuted by evaluation): `divide_256_max_by_128` is claimed exact
for every divisor in `[1, 2^128 - 1]`; at
`d = 170141183449886946817072093252332554903` the embedded engine returns a
low half that is `2^32 - 1` short of the exact quotient of `2^256 - 1`. -/
theorem claim_C2_wide_division_bug :
    divide_256_max_by_128 170141183449886946817072093252332554903 =
        (2, 42329139661093590764510773248) ∧
      (2 ^ 256 - 1) / 170141183449886946817072093252332554903 =
        2 * 2 ^ 128 + 42329139661093590768805740543 := by
  decide

/-- Claim C3: `multiply_256_by_128_upperbits` returns exactly the top 128 bits
(bits 256..383) of the full 384-bit product `(a_hi * 2^128 + a_lo) * b` for
every 256-bit operand `(a_hi, a_lo)` and 128-bit operand `b`. -/
theorem claim_C3_multiply_upperbits (a_hi a_lo b : Nat) (h1 : a_hi < 2 ^ 128)
    (h2 : a_lo < 2 ^ 128) (hb : b < 2 ^ 128) :
    multiply_256_by_128_upperbits a_hi a_lo b = (a_hi * 2 ^ 128 + a_lo) * b / 2 ^ 256 :=
  multiply_256_by_128_upperbits_eq h1 h2 hb

/-- Witness for C3 at concrete operands. -/
theorem claim_C3_witness :
    multiply_256_by_128_upperbits (2 ^ 127 + 3) (2 ^ 100 + 1) (2 ^ 127 + 5) =
      ((2 ^ 127 + 3) * 2 ^ 128 + (2 ^ 100 + 1)) * (2 ^ 127 + 5) / 2 ^ 256 :=
  claim_C3_multiply_upperbits (2 ^ 127 + 3) (2 ^ 100 + 1) (2 ^ 127 + 5)
    (by norm_num) (by norm_num) (by norm_num)

/-- Claim C4: construction with a zero divisor is the only failing public
operation — `new 0` is `none` (the `assert!(divisor > 0)` panic) and for every
positive divisor `new` succeeds with the constructed value, at every width;
all other public operations are total functions of their arguments. -/
theorem claim_C4_new_none_iff_zero :
    (StrengthReducedU8.new 0 = none ∧
      ∀ d : Nat, 0 < d → StrengthReducedU8.new d = some (StrengthReducedU8.make d)) ∧
    (StrengthReducedU16.new 0 = none ∧
      ∀ d : Nat, 0 < d → StrengthReducedU16.new d = some (StrengthReducedU16.make d)) ∧
    (StrengthReducedU32.new 0 = none ∧
      ∀ d : Nat, 0 < d → StrengthReducedU32.new d = some (StrengthReducedU32.make d)) ∧
    (StrengthReducedU64.new 0 = none ∧
      ∀ d : Nat, 0 < d → StrengthReducedU64.new d = some (StrengthReducedU64.make d)) ∧
    (StrengthReducedU128.new 0 = none ∧
      ∀ d : Nat, 0 < d → StrengthReducedU128.new d = some (StrengthReducedU128.make d)) :=
  ⟨⟨rfl, fun d hd => by rw [StrengthReducedU8.new, if_pos hd]⟩,
    ⟨rfl, fun d hd => by rw [StrengthReducedU16.new, if_pos hd]⟩,
    ⟨rfl, fun d hd => by rw [StrengthReducedU32.new, if_pos hd]⟩,
    ⟨rfl, fun d hd => by rw [StrengthReducedU64.new, if_pos hd]⟩,
    ⟨rfl, fun d hd => by rw [StrengthReducedU128.new, if_pos hd]⟩⟩

/-- Claim C5: at every width the remainder operation returns
`numerator - divide(numerator) * divisor`, consistent with the reduced
quotient — including width 128, where it holds structurally even though the
reduced quotient there can be wrong. -/
theorem claim_C5_rem_consistency :
    (∀ d n : Nat, 0 < d → d < 2 ^ 8 → n < 2 ^ 8 →
      StrengthReducedU8.rem n (StrengthReducedU8.make d) =
        n - StrengthReducedU8.div n (StrengthReducedU8.make d) * d) ∧
    (∀ d n : Nat, 0 < d → d < 2 ^ 16 → n < 2 ^ 16 →
      StrengthReducedU16.rem n (StrengthReducedU16.make d) =
        n - StrengthReducedU16.div n (StrengthReducedU16.make d) * d) ∧
    (∀ d n : Nat, 0 < d → d < 2 ^ 32 → n < 2 ^ 32 →
      StrengthReducedU32.rem n (StrengthReducedU32.make d) =
        n - StrengthReducedU32.div n (StrengthReducedU32.make d) * d) ∧
    (∀ d n : Nat, 0 < d → d < 2 ^ 64 → n < 2 ^ 64 →
      StrengthReducedU64.rem n (StrengthReducedU64.make d) =
        n - StrengthReducedU64.div n (StrengthReducedU64.make d) * d) ∧
    (∀ d n : Nat, 0 < d → d < 2 ^ 128 →
      StrengthReducedU128.rem n (StrengthReducedU128.make d) =
        n - StrengthReducedU128.div n (StrengthReducedU128.make d) * d) :=
  ⟨fun _ _ hd hdw hn => SRU8_rem_sub hd hdw hn,
    fun _ _ hd hdw hn => SRU16_rem_sub hd hdw hn,
    fun _ _ hd hdw hn => SRU32_rem_sub hd hdw hn,
    fun _ _ hd hdw hn => SRU64_rem_sub hd hdw hn,
    fun _ _ hd hdw => SRU128_rem_sub hd hdw⟩

/-- Claim C6: at every width `div_rem` returns exactly the pair of the
`divide` and `modulo` results — for width 8 definitionally, and for width 128
structurally even where the quotient itself is wrong. -/
theorem claim_C6_div_rem_pair :
    (∀ d n : Nat, StrengthReducedU8.div_rem n (StrengthReducedU8.make d) =
      (StrengthReducedU8.div n (StrengthReducedU8.make d),
        StrengthReducedU8.rem n (StrengthReducedU8.make d))) ∧
    (∀ d n : Nat, 0 < d → d < 2 ^ 16 → n < 2 ^ 16 →
      StrengthReducedU16.div_rem n (StrengthReducedU16.make d) =
        (StrengthReducedU16.div n (StrengthReducedU16.make d),
          StrengthReducedU16.rem n (StrengthReducedU16.make d))) ∧
    (∀ d n : Nat, 0 < d → d < 2 ^ 32 → n < 2 ^ 32 →
      StrengthReducedU32.div_rem n (StrengthReducedU32.make d) =
        (StrengthReducedU32.div n (StrengthReducedU32.make d),
          StrengthReducedU32.rem n (StrengthReducedU32.make d))) ∧
    (∀ d n : Nat, 0 < d → d < 2 ^ 64 → n < 2 ^ 64 →
      StrengthReducedU64.div_rem n (StrengthReducedU64.make d) =
        (StrengthReducedU64.div n (StrengthReducedU64.make d),
          StrengthReducedU64.rem n (StrengthReducedU64.make d))) ∧
    (∀ d n : Nat, 0 < d → d < 2 ^ 128 →
      StrengthReducedU128.div_rem n (StrengthReducedU128.make d) =
        (StrengthReducedU128.div n (StrengthReducedU128.make d),
          StrengthReducedU128.rem n (StrengthReducedU128.make d))) :=
  ⟨fun _ _ => rfl,
    fun _ _ hd hdw hn => SRU16_div_rem_pair hd hdw hn,
    fun _ _ hd hdw hn => SRU32_div_rem_pair hd hdw hn,
    fun _ _ hd hdw hn => SRU64_div_rem_pair hd hdw hn,
    fun _ n hd hdw => SRU128_div_rem_pair n hd hdw⟩

/-- Claim C7 (amended): for widths 8, 16, 32 and 64 and every
non-power-of-two divisor, the stored multiplier is
`(2^(2W) - 1) / D + 1` — the quotient of the maximum double-width value, not
of `2^(shift_size + W)`; no shift-dependent multiplier is stored. -/
theorem claim_C7_multiplier_value :
    (∀ d : Nat, 0 < d → d < 2 ^ 8 → ¬(∃ k, d = 2 ^ k) →
      (StrengthReducedU8.make d).multiplier = (2 ^ 16 - 1) / d + 1) ∧
    (∀ d : Nat, 0 < d → d < 2 ^ 16 → ¬(∃ k, d = 2 ^ k) →
      (StrengthReducedU16.make d).multiplier = (2 ^ 32 - 1) / d + 1) ∧
    (∀ d : Nat, 0 < d → d < 2 ^ 32 → ¬(∃ k, d = 2 ^ k) →
      (StrengthReducedU32.make d).multiplier = (2 ^ 64 - 1) / d + 1) ∧
    (∀ d : Nat, 0 < d → d < 2 ^ 64 → ¬(∃ k, d = 2 ^ k) →
      (StrengthReducedU64.make d).multiplier = (2 ^ 128 - 1) / d + 1) :=
  ⟨fun _ hd hdw hnp => by rw [(SRU8_multiplier_spec hd hdw).2 hnp],
    fun _ hd hdw hnp => by rw [(SRU16_multiplier_spec hd hdw).2 hnp],
    fun _ hd hdw hnp => by rw [(SRU32_multiplier_spec hd hdw).2 hnp],
    fun _ hd hdw hnp => (SRU64_multiplier_spec hd hdw).2 hnp⟩

/-- Counterexample for C7 as stated: at width 8 with `D = 3`
(`shift_size = 1`), the stored multiplier is `21846`, not
`2^(shift_size + 8) / 3 + 1 = 171`. -/
theorem claim_C7_counterexample :
    (StrengthReducedU8.make 3).multiplier = 21846 ∧ 2 ^ (1 + 8) / 3 + 1 = 171 ∧
      ¬((StrengthReducedU8.make 3).multiplier = 2 ^ (1 + 8) / 3 + 1) := by
  decide

/-- Claim C8 (amended): the constructed value carries no three-way algorithm
tag — dispatch is two-way on the zero-multiplier sentinel; at width 8 every
non-power-of-two divisor, including those whose selector error
`D - remainder` reaches `2^shift_size`, stores `(2^16 - 1) / D + 1` and the
reduced division is still exact for every numerator. -/
theorem claim_C8_two_way_dispatch :
    (∀ d : Nat, 0 < d → d < 2 ^ 8 →
      ((StrengthReducedU8.make d).multiplier = 0 ↔ ∃ k, d = 2 ^ k)) ∧
    (∀ d : Nat, 0 < d → d < 2 ^ 8 → ¬(∃ k, d = 2 ^ k) →
      (StrengthReducedU8.make d).multiplier = (2 ^ 16 - 1) / d + 1) ∧
    (∀ d n : Nat, 0 < d → d < 2 ^ 8 → n < 2 ^ 8 →
      StrengthReducedU8.div n (StrengthReducedU8.make d) = n / d) :=
  ⟨fun _ hd hdw => SRU8_multiplier_zero_iff hd hdw,
    fun _ hd hdw hnp => by rw [(SRU8_multiplier_spec hd hdw).2 hnp],
    fun _ _ hd hdw hn => SRU8_div_make hd hdw hn⟩

/-- Counterexample for C8 as stated: at width 8 with `D = 7`
(`shift_size = 2`), the selector error `7 - 2^10 % 7 = 5` reaches
`2^shift_size = 4`, yet the stored multiplier is `9363`, not the
`ExtraMultiplyBit` value `(candidate << 1) + 1` with
`candidate = 2^10 / 7 = 146`; no algorithm tag exists in the structure. -/
theorem claim_C8_counterexample :
    (StrengthReducedU8.make 7).multiplier = 9363 ∧
      2 ^ 2 ≤ 7 - 2 ^ (2 + 8) % 7 ∧
      ¬((StrengthReducedU8.make 7).multiplier = (2 ^ (2 + 8) / 7 <<< 1) + 1) := by
  decide

/-- Claim C9: at every width the stored multiplier (for width 128, the high
half `multiplier_hi`) is zero exactly when the divisor is a power of two, so
the zero test the `div`, `rem` and `div_rem` paths branch on is a sound and
complete power-of-two dispatch for every constructed value. -/
theorem claim_C9_zero_sentinel :
    (∀ d : Nat, 0 < d → d < 2 ^ 8 →
      ((StrengthReducedU8.make d).multiplier = 0 ↔ ∃ k, d = 2 ^ k)) ∧
    (∀ d : Nat, 0 < d → d < 2 ^ 16 →
      ((StrengthReducedU16.make d).multiplier = 0 ↔ ∃ k, d = 2 ^ k)) ∧
    (∀ d : Nat, 0 < d → d < 2 ^ 32 →
      ((StrengthReducedU32.make d).multiplier = 0 ↔ ∃ k, d = 2 ^ k)) ∧
    (∀ d : Nat, 0 < d → d < 2 ^ 64 →
      ((StrengthReducedU64.make d).multiplier = 0 ↔ ∃ k, d = 2 ^ k)) ∧
    (∀ d : Nat, 0 < d → d < 2 ^ 128 →
      ((StrengthReducedU128.make d).multiplier_hi = 0 ↔ ∃ k, d = 2 ^ k)) :=
  ⟨fun _ hd hdw => SRU8_multiplier_zero_iff hd hdw,
    fun _ hd hdw => SRU16_multiplier_zero_iff hd hdw,
    fun _ hd hdw => SRU32_multiplier_zero_iff hd hdw,
    fun _ hd hdw => SRU64_multiplier_zero_iff hd hdw,
    fun _ hd hdw => SRU128_multiplier_hi_zero_iff hd hdw⟩

set_option maxRecDepth 4000 in
/-- Claim C10 (refuted by evaluation): the 128-bit constructed pair
`(multiplier_hi, multiplier_lo)` is claimed to equal `ceil(2^256 / D)`; at
`D = 170141183438512316567651215742076139122` the embedded code stores a low
half `2^32 - 1` below the exact value. -/
theorem claim_C10_multiplier_storage_bug :
    (StrengthReducedU128.make 170141183438512316567651215742076139122).multiplier_hi = 2 ∧
      (StrengthReducedU128.make 170141183438512316567651215742076139122).multiplier_lo =
        87827660667478612386307375105 ∧
      (2 ^ 256 - 1) / 170141183438512316567651215742076139122 + 1 =
        2 * 2 ^ 128 + 87827660667478612390602342400 := by
  decide
